import Mathlib

/-!
# Security-Lab: arithmetic kernel and the protocols built on it

A shallow embedding of the C++ sources of the repository.  `long long` values are
modelled as `Int`; C++ `/` and `%` are the truncating `Int.tdiv` and `Int.tmod`.  Every
`while` loop is a structurally recursive function on a fuel counter; the loop drivers pass
a fuel that is proved sufficient.

Where the arithmetic of a program can leave the 64-bit range it is embedded twice: over
unbounded integers, under the name of the source function, and on machine integers, under
a name that ends in `64`, with every product, sum and difference wrapped to two's
complement (`wrap64`).  Statements whose truth depends on the size of the operands are
stated for the machine definitions; the definitions over unbounded integers are what the
machine definitions are compared with inside the stated bounds.

The helpers `gcd`, `power` and `modInverse` are repeated verbatim in every source file
(`RSA_encryption.cpp`, `RSA_signature.cpp`, `RSA_Product.cpp`, `Elgamal_encryption.cpp`,
`Elgamal_signature.cpp`, `Elgamal_Product_Rerandomization.cpp`,
`Elliptic_curve_encryption.cpp`); they are embedded once.
-/

namespace SecurityLab

/-! ## Definitions -/

/-- Ways in which a run ends without producing an ordinary value. -/
inductive Fault where
  /-- an integer `/` or `%` whose divisor is zero (undefined behaviour in C++) -/
  | divByZero
  /-- the fuel of a loop model ran out (never the case for the drivers below) -/
  | outOfFuel
  /-- the program printed "No valid e found." / "No e found" and stopped -/
  | noValidE
  /-- the program printed "No generator found." and stopped -/
  | noGenerator
  /-- the program printed "No valid k found." and stopped -/
  | noValidK
  deriving DecidableEq, Repr

deriving instance DecidableEq for Except

/-- Recursion of `gcd` (RSA_encryption.cpp 30-33):
`if (b == 0) return a; return gcd(b, a % b);`.  With fuel at least `|b|` the fuel
is exhausted only when `b = 0`, where the source returns `a` as well. -/
def gcdLoop : Nat → Int → Int → Int
  | 0, a, _ => a
  | fuel + 1, a, b => if b = 0 then a else gcdLoop fuel b (a.tmod b)

/-- Function `long long gcd(long long a, long long b)`. -/
def gcd (a b : Int) : Int := gcdLoop b.natAbs a b

/-- Loop of `power` (RSA_encryption.cpp 39-43):
`while (b > 0) { if (b & 1) res = (res * a) % mod; a = (a * a) % mod; b >>= 1; }`.
Inside the loop `b > 0`, so `b & 1` is `b % 2` and `b >> 1` is `b / 2`. -/
def powerLoop : Nat → Int → Int → Int → Int → Int
  | 0, res, _, _, _ => res
  | fuel + 1, res, a, b, mod =>
    if 0 < b then
      powerLoop fuel (if b % 2 = 1 then (res * a).tmod mod else res)
        ((a * a).tmod mod) (b / 2) mod
    else res

/-- Function `long long power(long long a, long long b, long long mod)`
(RSA_encryption.cpp 36-45): `res = 1; a %= mod;` then the loop, then `return res`.
The callers only pass `mod ≥ 1`; at `mod = 0` the C++ `%` is undefined. -/
def power (a b mod : Int) : Int := powerLoop b.toNat 1 (a.tmod mod) b mod

/-- Loop of `modInverse` (RSA_encryption.cpp 53-60) on the state `(a, m, x, y)`:
`q = a / m; t = m; m = a % m; a = t; t = y; y = x - q * y; x = t;`.
The division `a / m` with `m = 0` is reported as `Fault.divByZero`. -/
def modInverseLoop : Nat → Int → Int → Int → Int → Except Fault Int
  | 0, _, _, _, _ => .error .outOfFuel
  | fuel + 1, a, m, x, y =>
    if 1 < a then
      if m = 0 then .error .divByZero
      else modInverseLoop fuel m (a.tmod m) y (x - a.tdiv m * y)
    else .ok x

/-- Function `long long modInverse(long long a, long long m)` (RSA_encryption.cpp 49-64,
Elliptic_curve_encryption.cpp 40-53): `m0 = m, y = 0, x = 1; if (m == 1) return 0;`
the loop, `if (x < 0) x += m0; return x;`. -/
def modInverse (a m : Int) : Except Fault Int :=
  if m = 1 then .ok 0
  else
    match modInverseLoop (m.natAbs + 1) a m 1 0 with
    | .ok x => .ok (if x < 0 then x + m else x)
    | .error f => .error f

/-- Counter loop `while (cond(v)) v += step;` shared by the searches of the `main`
functions. -/
def scanLoop (cond : Int → Bool) (step : Int) : Nat → Int → Except Fault Int
  | 0, _ => .error .outOfFuel
  | fuel + 1, v => if cond v then scanLoop cond step fuel (v + step) else .ok v

namespace RSA_encryption

/-- Public-exponent search of `main` (RSA_encryption.cpp 74-81, RSA_signature.cpp 63-70):
`e = 3; while (e < phi && gcd(e, phi) != 1) e += 2; if (e >= phi) "No valid e found."`. -/
def findE (phi : Int) : Except Fault Int :=
  match scanLoop (fun e => decide (e < phi) && decide (gcd e phi ≠ 1)) 2 (phi.toNat + 1) 3 with
  | .ok e => if e ≥ phi then .error .noValidE else .ok e
  | .error f => .error f

/-- Key generation of `main` (RSA_encryption.cpp 71-83, RSA_signature.cpp 60-72):
returns `(n, e, d)`. -/
def keygen (p q : Int) : Except Fault (Int × Int × Int) :=
  let n := p * q
  let phi := (p - 1) * (q - 1)
  match findE phi with
  | .ok e =>
    match modInverse e phi with
    | .ok d => .ok (n, e, d)
    | .error f => .error f
  | .error f => .error f

end RSA_encryption

namespace RSA_Product

/-- Public-exponent search of `main` (RSA_Product.cpp 69-76):
`e = 13; while (gcd(e, phi) != 1) e += 2; if (e > phi) "No e found"`.
The loop has no upper bound in the source; the fuel `13 * phi + 1` is enough whenever
`phi` is even and positive. -/
def findE (phi : Int) : Except Fault Int :=
  match scanLoop (fun e => decide (gcd e phi ≠ 1)) 2 ((13 * phi).toNat + 1) 13 with
  | .ok e => if e > phi then .error .noValidE else .ok e
  | .error f => .error f

/-- Key generation of `main` (RSA_Product.cpp 66-78): returns `(n, e, d)`. -/
def keygen (p q : Int) : Except Fault (Int × Int × Int) :=
  let n := p * q
  let phi := (p - 1) * (q - 1)
  match findE phi with
  | .ok e =>
    match modInverse e phi with
    | .ok d => .ok (n, e, d)
    | .error f => .error f
  | .error f => .error f

end RSA_Product

namespace Elgamal_encryption

/-- Encryption step of `main` (Elgamal_encryption.cpp 132-133):
`C1 = power(g, k, p); C2 = (M * power(h, k, p)) % p`. -/
def encrypt (p g h k M : Int) : Int × Int :=
  (power g k p, (M * power h k p).tmod p)

/-- Decryption step of `main` (Elgamal_encryption.cpp 140-142):
`s = power(C1, x, p); s_inv = modInverse(s, p); decrypted = (C2 * s_inv) % p`. -/
def decrypt (p x C1 C2 : Int) : Except Fault Int :=
  match modInverse (power C1 x p) p with
  | .ok s_inv => .ok ((C2 * s_inv).tmod p)
  | .error f => .error f

end Elgamal_encryption

/-- Inner loop of `isGenerator` (Elgamal_encryption.cpp 79, Elgamal_signature.cpp 78):
`while (n % i == 0) n /= i;`.  It is entered with `i ≥ 2` and `n ≥ i * i`, where it ends
within `n` rounds. -/
def stripFactor : Nat → Int → Int → Int
  | 0, n, _ => n
  | fuel + 1, n, i => if n.tmod i = 0 then stripFactor fuel (n.tdiv i) i else n

/-- Trial-division loop of `isGenerator` (Elgamal_encryption.cpp 76-81) on the state
`(i, n, factors)`:
`for (i = 2; i * i <= n; i++) if (n % i == 0) { factors.push_back(i); while (n % i == 0) n /= i; }`.
Returns the final `n` and `factors`. -/
def factorLoop : Nat → Int → Int → List Int → Int × List Int
  | 0, _, n, factors => (n, factors)
  | fuel + 1, i, n, factors =>
    if i * i ≤ n then
      if n.tmod i = 0 then
        factorLoop fuel (i + 1) (stripFactor n.toNat n i) (factors ++ [i])
      else factorLoop fuel (i + 1) n factors
    else (n, factors)

/-- First half of `isGenerator` (Elgamal_encryption.cpp 73-82): the vector `factors`
after `n = phi`, the trial-division loop and `if (n > 1) factors.push_back(n);`. -/
def factorList (phi : Int) : List Int :=
  let r := factorLoop phi.toNat 2 phi []
  if r.1 > 1 then r.2 ++ [r.1] else r.2

/-- Function `bool isGenerator(long long g, long long p)` (Elgamal_encryption.cpp 70-91,
Elgamal_signature.cpp 70-91): `phi = p - 1`, the factor list of `phi`, then
`for (f : factors) if (power(g, phi / f, p) == 1) return false; return true;`. -/
def isGenerator (g p : Int) : Bool :=
  (factorList (p - 1)).all (fun f => power g ((p - 1).tdiv f) p != 1)

/-- Generator search of `main` (Elgamal_encryption.cpp 99-106, Elgamal_signature.cpp
99-104) with the start value as a parameter:
`g = start; while (g < p && !isGenerator(g, p)) g++; if (g >= p) "No generator found."`. -/
def generatorSearch (start p : Int) : Except Fault Int :=
  match scanLoop (fun g => decide (g < p) && !isGenerator g p) 1
      ((p - start).toNat + 1) start with
  | .ok g => if g ≥ p then .error .noGenerator else .ok g
  | .error f => .error f

/-- Session-key / nonce search of `main` (Elgamal_encryption.cpp 114-121,
Elgamal_signature.cpp 118-125) with the start value as a parameter:
`k = start; while (k <= p - 2 && gcd(k, p - 1) != 1) k++; if (k > p - 2) "No valid k found."`. -/
def scalarSearch (start p : Int) : Except Fault Int :=
  match scanLoop (fun k => decide (k ≤ p - 2) && decide (gcd k (p - 1) ≠ 1)) 1
      ((p - start).toNat + 1) start with
  | .ok k => if k > p - 2 then .error .noValidK else .ok k
  | .error f => .error f

namespace Elgamal_encryption

/-- The generator search as `main` runs it (Elgamal_encryption.cpp 99): `g = 100`. -/
def findGenerator (p : Int) : Except Fault Int := generatorSearch 100 p

/-- The session-key search as `main` runs it (Elgamal_encryption.cpp 114): `k = 12345`. -/
def findSessionKey (p : Int) : Except Fault Int := scalarSearch 12345 p

end Elgamal_encryption

namespace Elgamal_signature

/-- The generator search as `main` runs it (Elgamal_signature.cpp 99): `g = 100`. -/
def findGenerator (p : Int) : Except Fault Int := generatorSearch 100 p

/-- The nonce search as `main` runs it (Elgamal_signature.cpp 118): `k = 55`. -/
def findNonce (p : Int) : Except Fault Int := scalarSearch 55 p

/-- Signature generation of `main` (Elgamal_signature.cpp 130-132):
`r = power(g, k, p); k_inv = modInverse(k, p - 1);`
`s = (k_inv * ((M - (x * r) % (p - 1)) + (p - 1))) % (p - 1)`.  Returns `(r, s)`. -/
def sign (p g x k M : Int) : Except Fault (Int × Int) :=
  let r := power g k p
  match modInverse k (p - 1) with
  | .ok k_inv => .ok (r, (k_inv * ((M - (x * r).tmod (p - 1)) + (p - 1))).tmod (p - 1))
  | .error f => .error f

/-- Verification of `main` (Elgamal_signature.cpp 139-146):
`v1 = power(g, M, p); v2 = (power(y, r, p) * power(r, s, p)) % p; v1 == v2`. -/
def verify (p g y M r s : Int) : Bool :=
  power g M p == (power y r p * power r s p).tmod p

end Elgamal_signature

namespace Elgamal_Product_Rerandomization

/-- Encryption of one message (Elgamal_Product_Rerandomization.cpp 124-125):
`c1 = power(g, key, p); c2 = (m * power(h, key, p)) % p`. -/
def encrypt (p g h key m : Int) : Int × Int :=
  (power g key p, (m * power h key p).tmod p)

/-- Rerandomization of `main` (Elgamal_Product_Rerandomization.cpp 129-133):
`c12 = power(g, key2, p); c22 = power(h, key2, p);`
`c1 = (c11 * c12) % p; c2 = (c21 * c22) % p`. -/
def rerandomize (p g h key2 c11 c21 : Int) : Int × Int :=
  let c12 := power g key2 p
  let c22 := power h key2 p
  ((c11 * c12).tmod p, (c21 * c22).tmod p)

/-- Decryption of `main` (Elgamal_Product_Rerandomization.cpp 137-138):
`s = power(c1, x, p); message = (c2 * modInverse(s, p)) % p`. -/
def decrypt (p x c1 c2 : Int) : Except Fault Int :=
  match modInverse (power c1 x p) p with
  | .ok s_inv => .ok ((c2 * s_inv).tmod p)
  | .error f => .error f

end Elgamal_Product_Rerandomization

namespace Elliptic_curve_encryption

/-- Values of `struct Point` (Elliptic_curve_encryption.cpp 27-32).  `Point()` is
`infinity` and `Point(x, y)` is `affine x y`.  Every value with `inf == true` is built
by `Point()` with `x = y = 0`, and `add` never reads the coordinates of such a value, so
the point at infinity is a single value here. -/
inductive Point where
  | infinity
  | affine (x y : Int)
  deriving DecidableEq, Repr

/-- The globals `long long a, b, p;` (Elliptic_curve_encryption.cpp 55), passed
explicitly. -/
structure Curve where
  p : Int
  a : Int
  b : Int
  deriving DecidableEq, Repr

/-- Function `long long mod(long long a, long long p)` (Elliptic_curve_encryption.cpp
34-38): `r = a % p; if (r < 0) r += p; return r;`. -/
def mod (a p : Int) : Int :=
  let r := a.tmod p
  if r < 0 then r + p else r

/-- Function `Point add(Point P, Point Q)` (Elliptic_curve_encryption.cpp 59-82).  The
two calls of `modInverse` can end in a division by zero, which is passed on. -/
def add (c : Curve) : Point → Point → Except Fault Point
  | .infinity, Q => .ok Q
  | P, .infinity => .ok P
  | .affine x1 y1, .affine x2 y2 =>
    if x1 = x2 ∧ (y1 ≠ y2 ∨ y1 = 0) then .ok .infinity
    else
      let slope : Except Fault Int :=
        if x1 = x2 ∧ y1 = y2 then
          match modInverse (mod (2 * y1) c.p) c.p with
          | .ok den => .ok (mod (mod (3 * x1 * x1 + c.a) c.p * den) c.p)
          | .error f => .error f
        else
          match modInverse (mod (x2 - x1) c.p) c.p with
          | .ok den => .ok (mod (mod (y2 - y1) c.p * den) c.p)
          | .error f => .error f
      match slope with
      | .ok lam =>
        let xr := mod (lam * lam - x1 - x2) c.p
        let yr := mod (lam * (x1 - xr) - y1) c.p
        .ok (.affine xr yr)
      | .error f => .error f

/-- The value that `add` hands to `modInverse` (Elliptic_curve_encryption.cpp 69 and 74):
`mod(2 * P.y, p)` when doubling, `mod(Q.x - P.x, p)` on a chord, and none when `add`
returns before a slope is computed. -/
def addInverseArg (c : Curve) : Point → Point → Option Int
  | .infinity, _ => none
  | _, .infinity => none
  | .affine x1 y1, .affine x2 y2 =>
    if x1 = x2 ∧ (y1 ≠ y2 ∨ y1 = 0) then none
    else if x1 = x2 ∧ y1 = y2 then some (mod (2 * y1) c.p)
    else some (mod (x2 - x1) c.p)

/-- Loop of `multiply` (Elliptic_curve_encryption.cpp 86-90) on the state `(R, P, k)`:
`while (k > 0) { if (k & 1) R = add(R, P); P = add(P, P); k >>= 1; }`. -/
def multiplyLoop (c : Curve) : Nat → Point → Point → Int → Except Fault Point
  | 0, R, _, _ => .ok R
  | fuel + 1, R, P, k =>
    if 0 < k then
      match (if k % 2 = 1 then add c R P else .ok R) with
      | .ok R1 =>
        match add c P P with
        | .ok P1 => multiplyLoop c fuel R1 P1 (k / 2)
        | .error f => .error f
      | .error f => .error f
    else .ok R

/-- Function `Point multiply(Point P, long long k)` (Elliptic_curve_encryption.cpp 84-92):
`Point R;` (the point at infinity), the loop, `return R;`. -/
def multiply (c : Curve) (P : Point) (k : Int) : Except Fault Point :=
  multiplyLoop c k.toNat .infinity P k

/-- Negation step of `main` (Elliptic_curve_encryption.cpp 148-149):
`negX = xC1; negX.y = mod(-negX.y, p);`.  On the point at infinity the flag `inf` stays
set and `y` stays `mod(0, p) = 0`. -/
def negate (c : Curve) : Point → Point
  | .infinity => .infinity
  | .affine x y => .affine x (mod (-y) c.p)

/-- Encryption step of `main` (Elliptic_curve_encryption.cpp 138-140):
`C1 = multiply(G, k); kY = multiply(Y, k); C2 = add(M, kY)`. -/
def encrypt (c : Curve) (G Y M : Point) (k : Int) : Except Fault (Point × Point) :=
  match multiply c G k with
  | .ok C1 =>
    match multiply c Y k with
    | .ok kY =>
      match add c M kY with
      | .ok C2 => .ok (C1, C2)
      | .error f => .error f
    | .error f => .error f
  | .error f => .error f

/-- Decryption step of `main` (Elliptic_curve_encryption.cpp 147-151):
`xC1 = multiply(C1, x); negX = xC1; negX.y = mod(-negX.y, p); decrypted = add(C2, negX)`. -/
def decrypt (c : Curve) (C1 C2 : Point) (x : Int) : Except Fault Point :=
  match multiply c C1 x with
  | .ok xC1 => add c C2 (negate c xC1)
  | .error f => .error f

/-- Inner loop of `findBasePoint` (Elliptic_curve_encryption.cpp 98-101):
`for (y = 0; y < p; y++) if (mod(y * y, p) == rhs) return Point(x, y);`. -/
def findY (c : Curve) (x rhs : Int) : Nat → Int → Option Point
  | 0, _ => none
  | fuel + 1, y =>
    if y < c.p then
      if mod (y * y) c.p = rhs then some (.affine x y) else findY c x rhs fuel (y + 1)
    else none

/-- Outer loop of `findBasePoint` (Elliptic_curve_encryption.cpp 96-102):
`for (x = 0; x < p; x++) { rhs = mod((x * x % p * x % p + a * x + b), p); ... }`. -/
def findX (c : Curve) : Nat → Int → Point
  | 0, _ => .infinity
  | fuel + 1, x =>
    if x < c.p then
      match findY c x (mod (((x * x).tmod c.p * x).tmod c.p + c.a * x + c.b) c.p)
          c.p.toNat 0 with
      | some P => P
      | none => findX c fuel (x + 1)
    else .infinity

/-- Function `Point findBasePoint()` (Elliptic_curve_encryption.cpp 95-104); the point at
infinity is the failure value tested by `main` (lines 112-116). -/
def findBasePoint (c : Curve) : Point := findX c c.p.toNat 0

/-- Data-model invariant of a point: the point at infinity, or coordinates in `[0, p-1]`
that satisfy `y² ≡ x³ + a·x + b (mod p)`. -/
def onCurve (c : Curve) : Point → Prop
  | .infinity => True
  | .affine x y =>
    (0 ≤ x ∧ x < c.p) ∧ (0 ≤ y ∧ y < c.p) ∧
      (y * y) % c.p = (x * x * x + c.a * x + c.b) % c.p

/-- The k-fold sum of the specification: start from the identity and apply `add(., P)`
`k` times. -/
def repeatedAdd (c : Curve) (P : Point) : Nat → Except Fault Point
  | 0 => .ok .infinity
  | k + 1 =>
    match repeatedAdd c P k with
    | .ok R => add c R P
    | .error f => .error f

/-- The curve `y² = x³ + a·x + b` over the field `ZMod p`, as a Weierstrass curve. -/
def weierstrass (p : Nat) (a b : Int) : WeierstrassCurve.Affine (ZMod p) :=
  ⟨0, 0, 0, (a : ZMod p), (b : ZMod p)⟩

/-- A program point stands for a point of the group of the curve: `Point()` for the zero
of the group, and `Point(x, y)` with coordinates in `[0, p-1]` for the non-singular point
with the residues of `x` and `y` as coordinates. -/
def Represents (p : Nat) (a b : Int) (P : Point) (Q : (weierstrass p a b).Point) : Prop :=
  match P with
  | .infinity => Q = 0
  | .affine x y =>
    (0 ≤ x ∧ x < (p : Int)) ∧ (0 ≤ y ∧ y < (p : Int)) ∧
      ∃ h : (weierstrass p a b).Nonsingular (x : ZMod p) (y : ZMod p),
        Q = WeierstrassCurve.Affine.Point.some h

end Elliptic_curve_encryption

namespace Elgamal_Product_Rerandomization

/-- One key scan of `main` (Elgamal_Product_Rerandomization.cpp 77-80 and 83-86):
`key = start; while (key <= p - 2 && gcd(key, p - 1) != 1) key++;`.  No test of the
result follows the loop in this program. -/
def keyScan (start p : Int) : Except Fault Int :=
  scanLoop (fun k => decide (k ≤ p - 2) && decide (gcd k (p - 1) ≠ 1)) 1
    ((p - start).toNat + 1) start

/-- Both key scans of `main` (Elgamal_Product_Rerandomization.cpp 77-87):
`key1` is scanned from 13 and `key2` from `key1 + 27`.  Returns `(key1, key2)`. -/
def sessionKeys (p : Int) : Except Fault (Int × Int) :=
  match keyScan 13 p with
  | .ok key1 =>
    match keyScan (key1 + 27) p with
    | .ok key2 => .ok (key1, key2)
    | .error f => .error f
  | .error f => .error f

end Elgamal_Product_Rerandomization

namespace Rsa_signature_plaintext_attack

/-- Public-exponent scan of `main` (Rsa_signature_plaintext_attack.cpp 62-68):
`e = 13; while (gcd(e, phi) != 1) e = e + 2;`.  The test `if (e > phi)` that follows only
prints a message and the program goes on. -/
def findE (phi : Int) : Except Fault Int :=
  scanLoop (fun e => decide (gcd e phi ≠ 1)) 2 ((13 * phi).toNat + 1) 13

/-- Lines 59-85 of `main` (Rsa_signature_plaintext_attack.cpp): key set-up, encryption
of `m` and decryption with `b1` and with `b2 = b1 + phi`.  Returns `(dec1, dec2)`. -/
def decryptTwice (p q m : Int) : Except Fault (Int × Int) :=
  let n := p * q
  let phi := (p - 1) * (q - 1)
  match findE phi with
  | .ok e =>
    match modInverse e phi with
    | .ok b1 =>
      let b2 := b1 + phi
      let en := power m e n
      .ok (power en b1 n, power en b2 n)
    | .error f => .error f
  | .error f => .error f

end Rsa_signature_plaintext_attack

/-- Two's-complement wrap-around of a 64-bit signed product. -/
def wrap64 (x : Int) : Int := (x + 2 ^ 63) % 2 ^ 64 - 2 ^ 63

/-- Loop of `power` (Elgamal_encryption.cpp 43-47) on 64-bit machine integers: every
product is wrapped to 64 bits before `% mod`.  The last component collects the exact
values of the products `res * a` and `a * a` of the machine operands, in the order in
which they are computed. -/
def powerLoop64 : Nat → Int → Int → Int → Int → List Int → Int × List Int
  | 0, res, _, _, _, products => (res, products)
  | fuel + 1, res, a, b, mod, products =>
    if 0 < b then
      powerLoop64 fuel (if b % 2 = 1 then (wrap64 (res * a)).tmod mod else res)
        ((wrap64 (a * a)).tmod mod) (b / 2) mod
        (if b % 2 = 1 then products ++ [res * a, a * a] else products ++ [a * a])
    else (res, products)

/-- Function `power` on 64-bit machine integers: the returned value and the list of its
intermediate products. -/
def power64 (a b mod : Int) : Int × List Int :=
  powerLoop64 b.toNat 1 (a.tmod mod) b mod []

/-! ### The programs on 64-bit machine integers

The definitions of this part repeat the statements of the sources with every `*`, `+`
and `-` of `long long` operands wrapped to two's complement (`wrap64`), as `power64` does
for `power`.  Not wrapped are `p - 1` (no overflow for `p > -2^63`), the counters of the
scans and of the trial division (an increment follows a test that bounds the counter by
a `long long` value), and the bodies of `gcd`, `mod` and `modInverse`: `gcd` has only
`%`, `mod` adds a positive modulus to a negative remainder, and in `modInverse` the
values of `x`, `y` and `q * y` stay below the larger of its two arguments in absolute
value.  The scan of RSA_Product.cpp and Rsa_signature_plaintext_attack.cpp for `e` has no
upper bound in the source; its fuel is enough for an even positive `phi`, that is
whenever `(p - 1) * (q - 1)` is not wrapped. -/

namespace RSA_encryption

/-- Key generation of `main` (RSA_encryption.cpp 71-83, RSA_signature.cpp 60-72) on
machine integers: `n = p * q; phi = (p - 1) * (q - 1);` the scan for `e`,
`d = modInverse(e, phi)`.  Returns `(n, e, d)`. -/
def keygen64 (p q : Int) : Except Fault (Int × Int × Int) :=
  let n := wrap64 (p * q)
  let phi := wrap64 ((p - 1) * (q - 1))
  match findE phi with
  | .ok e =>
    match modInverse e phi with
    | .ok d => .ok (n, e, d)
    | .error f => .error f
  | .error f => .error f

end RSA_encryption

namespace RSA_Product

/-- Key generation of `main` (RSA_Product.cpp 66-78) on machine integers: returns
`(n, e, d)`. -/
def keygen64 (p q : Int) : Except Fault (Int × Int × Int) :=
  let n := wrap64 (p * q)
  let phi := wrap64 ((p - 1) * (q - 1))
  match findE phi with
  | .ok e =>
    match modInverse e phi with
    | .ok d => .ok (n, e, d)
    | .error f => .error f
  | .error f => .error f

/-- Left side of the product law as `main` computes it (RSA_Product.cpp 88):
`enc = power(((m1 * m2) % n), e, n)`. -/
def encryptProduct64 (n e m1 m2 : Int) : Int :=
  (power64 ((wrap64 (m1 * m2)).tmod n) e n).1

/-- Right side of the product law, with the program's `power`, `*` and `%`:
`(power(m1, e, n) * power(m2, e, n)) % n`. -/
def productOfEncryptions64 (n e m1 m2 : Int) : Int :=
  (wrap64 ((power64 m1 e n).1 * (power64 m2 e n).1)).tmod n

end RSA_Product

namespace Rsa_signature_plaintext_attack

/-- Lines 59-85 of `main` (Rsa_signature_plaintext_attack.cpp) on machine integers: key
set-up, encryption of `m` and decryption with `b1` and with `b2 = b1 + phi`.  Returns
`(dec1, dec2)`. -/
def decryptTwice64 (p q m : Int) : Except Fault (Int × Int) :=
  let n := wrap64 (p * q)
  let phi := wrap64 ((p - 1) * (q - 1))
  match findE phi with
  | .ok e =>
    match modInverse e phi with
    | .ok b1 =>
      let b2 := wrap64 (b1 + phi)
      let en := (power64 m e n).1
      .ok ((power64 en b1 n).1, (power64 en b2 n).1)
    | .error f => .error f
  | .error f => .error f

end Rsa_signature_plaintext_attack

/-- Trial-division loop of `isGenerator` (Elgamal_encryption.cpp 76-81) on machine
integers: the product `i * i` of the loop test is wrapped.  The fuel `phi` of
`factorList64` is enough while `phi < 3037000499²`, where `i * i` is never wrapped and
the loop ends as soon as `i * i > n`. -/
def factorLoop64 : Nat → Int → Int → List Int → Int × List Int
  | 0, _, n, factors => (n, factors)
  | fuel + 1, i, n, factors =>
    if wrap64 (i * i) ≤ n then
      if n.tmod i = 0 then
        factorLoop64 fuel (i + 1) (stripFactor n.toNat n i) (factors ++ [i])
      else factorLoop64 fuel (i + 1) n factors
    else (n, factors)

/-- First half of `isGenerator` (Elgamal_encryption.cpp 73-82) on machine integers: the
vector `factors` after `n = phi`, the trial-division loop and
`if (n > 1) factors.push_back(n);`. -/
def factorList64 (phi : Int) : List Int :=
  let r := factorLoop64 phi.toNat 2 phi []
  if r.1 > 1 then r.2 ++ [r.1] else r.2

/-- Function `bool isGenerator(long long g, long long p)` (Elgamal_encryption.cpp 70-91,
Elgamal_signature.cpp 70-91) on machine integers: the factor list of `phi = p - 1`, then
`for (f : factors) if (power(g, phi / f, p) == 1) return false; return true;` with the
machine `power`. -/
def isGenerator64 (g p : Int) : Bool :=
  (factorList64 (p - 1)).all (fun f => (power64 g ((p - 1).tdiv f) p).1 != 1)

namespace Elgamal_encryption

/-- Encryption step of `main` (Elgamal_encryption.cpp 132-133) on machine integers:
`C1 = power(g, k, p); C2 = (M * power(h, k, p)) % p`. -/
def encrypt64 (p g h k M : Int) : Int × Int :=
  ((power64 g k p).1, (wrap64 (M * (power64 h k p).1)).tmod p)

/-- Decryption step of `main` (Elgamal_encryption.cpp 140-142) on machine integers:
`s = power(C1, x, p); s_inv = modInverse(s, p); decrypted = (C2 * s_inv) % p`. -/
def decrypt64 (p x C1 C2 : Int) : Except Fault Int :=
  match modInverse (power64 C1 x p).1 p with
  | .ok s_inv => .ok ((wrap64 (C2 * s_inv)).tmod p)
  | .error f => .error f

end Elgamal_encryption

namespace Elgamal_signature

/-- Signature generation of `main` (Elgamal_signature.cpp 130-132) on machine integers:
`r = power(g, k, p); k_inv = modInverse(k, p - 1);`
`s = (k_inv * ((M - (x * r) % (p - 1)) + (p - 1))) % (p - 1)`.  Returns `(r, s)`. -/
def sign64 (p g x k M : Int) : Except Fault (Int × Int) :=
  let r := (power64 g k p).1
  match modInverse k (p - 1) with
  | .ok k_inv =>
    .ok (r, (wrap64 (k_inv *
      wrap64 (wrap64 (M - (wrap64 (x * r)).tmod (p - 1)) + (p - 1)))).tmod (p - 1))
  | .error f => .error f

/-- Verification of `main` (Elgamal_signature.cpp 139-146) on machine integers:
`v1 = power(g, M, p); v2 = (power(y, r, p) * power(r, s, p)) % p; v1 == v2`. -/
def verify64 (p g y M r s : Int) : Bool :=
  (power64 g M p).1 == (wrap64 ((power64 y r p).1 * (power64 r s p).1)).tmod p

end Elgamal_signature

namespace Elgamal_Product_Rerandomization

/-- Encryption of one message (Elgamal_Product_Rerandomization.cpp 124-125) on machine
integers: `c11 = power(g, key1, p); c21 = (m1 * power(h, key1, p)) % p`. -/
def encrypt64 (p g h key m : Int) : Int × Int :=
  ((power64 g key p).1, (wrap64 (m * (power64 h key p).1)).tmod p)

/-- Componentwise product of two ciphertexts (Elgamal_Product_Rerandomization.cpp
132-133) on machine integers: `c1 = (c11 * c12) % p; c2 = (c21 * c22) % p`. -/
def combine64 (p c11 c21 c12 c22 : Int) : Int × Int :=
  ((wrap64 (c11 * c12)).tmod p, (wrap64 (c21 * c22)).tmod p)

/-- Rerandomization of `main` (Elgamal_Product_Rerandomization.cpp 129-133) on machine
integers: `c12 = power(g, key2, p); c22 = power(h, key2, p);` and the componentwise
product with `(c11, c21)`. -/
def rerandomize64 (p g h key2 c11 c21 : Int) : Int × Int :=
  combine64 p c11 c21 (power64 g key2 p).1 (power64 h key2 p).1

/-- Decryption of `main` (Elgamal_Product_Rerandomization.cpp 137-138) on machine
integers: `s = power(c1, x, p); message = (c2 * modInverse(s, p)) % p`. -/
def decrypt64 (p x c1 c2 : Int) : Except Fault Int :=
  match modInverse (power64 c1 x p).1 p with
  | .ok s_inv => .ok ((wrap64 (c2 * s_inv)).tmod p)
  | .error f => .error f

end Elgamal_Product_Rerandomization

namespace Elliptic_curve_encryption

/-- Function `Point add(Point P, Point Q)` (Elliptic_curve_encryption.cpp 59-82) on
machine integers: `3 * P.x * P.x + a`, `2 * P.y`, `Q.y - P.y`, `Q.x - P.x`, `num * den`,
`lambda * lambda - P.x - Q.x` and `lambda * (P.x - xr) - P.y` are computed left to right
with a wrap after every operation. -/
def add64 (c : Curve) : Point → Point → Except Fault Point
  | .infinity, Q => .ok Q
  | P, .infinity => .ok P
  | .affine x1 y1, .affine x2 y2 =>
    if x1 = x2 ∧ (y1 ≠ y2 ∨ y1 = 0) then .ok .infinity
    else
      let slope : Except Fault Int :=
        if x1 = x2 ∧ y1 = y2 then
          match modInverse (mod (wrap64 (2 * y1)) c.p) c.p with
          | .ok den =>
            .ok (mod (wrap64 (mod (wrap64 (wrap64 (wrap64 (3 * x1) * x1) + c.a)) c.p * den)) c.p)
          | .error f => .error f
        else
          match modInverse (mod (wrap64 (x2 - x1)) c.p) c.p with
          | .ok den => .ok (mod (wrap64 (mod (wrap64 (y2 - y1)) c.p * den)) c.p)
          | .error f => .error f
      match slope with
      | .ok lam =>
        let xr := mod (wrap64 (wrap64 (wrap64 (lam * lam) - x1) - x2)) c.p
        let yr := mod (wrap64 (wrap64 (lam * wrap64 (x1 - xr)) - y1)) c.p
        .ok (.affine xr yr)
      | .error f => .error f

/-- Loop of `multiply` (Elliptic_curve_encryption.cpp 86-90) with the machine `add`. -/
def multiplyLoop64 (c : Curve) : Nat → Point → Point → Int → Except Fault Point
  | 0, R, _, _ => .ok R
  | fuel + 1, R, P, k =>
    if 0 < k then
      match (if k % 2 = 1 then add64 c R P else .ok R) with
      | .ok R1 =>
        match add64 c P P with
        | .ok P1 => multiplyLoop64 c fuel R1 P1 (k / 2)
        | .error f => .error f
      | .error f => .error f
    else .ok R

/-- Function `Point multiply(Point P, long long k)` (Elliptic_curve_encryption.cpp 84-92)
with the machine `add`. -/
def multiply64 (c : Curve) (P : Point) (k : Int) : Except Fault Point :=
  multiplyLoop64 c k.toNat .infinity P k

/-- Encryption step of `main` (Elliptic_curve_encryption.cpp 138-140) with the machine
`add`: `C1 = multiply(G, k); kY = multiply(Y, k); C2 = add(M, kY)`. -/
def encrypt64 (c : Curve) (G Y M : Point) (k : Int) : Except Fault (Point × Point) :=
  match multiply64 c G k with
  | .ok C1 =>
    match multiply64 c Y k with
    | .ok kY =>
      match add64 c M kY with
      | .ok C2 => .ok (C1, C2)
      | .error f => .error f
    | .error f => .error f
  | .error f => .error f

/-- Negation step of `main` (Elliptic_curve_encryption.cpp 148-149) on machine integers:
`negX = xC1; negX.y = mod(-negX.y, p);`. -/
def negate64 (c : Curve) : Point → Point
  | .infinity => .infinity
  | .affine x y => .affine x (mod (wrap64 (-y)) c.p)

/-- Decryption step of `main` (Elliptic_curve_encryption.cpp 147-151) on machine
integers: `xC1 = multiply(C1, x); negX = xC1; negX.y = mod(-negX.y, p);`
`decrypted = add(C2, negX)`. -/
def decrypt64 (c : Curve) (C1 C2 : Point) (x : Int) : Except Fault Point :=
  match multiply64 c C1 x with
  | .ok xC1 => add64 c C2 (negate64 c xC1)
  | .error f => .error f

/-- The k-fold sum of the specification with the machine `add`: start from the identity
and apply `add(., P)` `k` times. -/
def repeatedAdd64 (c : Curve) (P : Point) : Nat → Except Fault Point
  | 0 => .ok .infinity
  | k + 1 =>
    match repeatedAdd64 c P k with
    | .ok R => add64 c R P
    | .error f => .error f

/-- Inner loop of `findBasePoint` (Elliptic_curve_encryption.cpp 98-101) on machine
integers: `for (y = 0; y < p; y++) if (mod(y * y, p) == rhs) return Point(x, y);`. -/
def findY64 (c : Curve) (x rhs : Int) : Nat → Int → Option Point
  | 0, _ => none
  | fuel + 1, y =>
    if y < c.p then
      if mod (wrap64 (y * y)) c.p = rhs then some (.affine x y)
      else findY64 c x rhs fuel (y + 1)
    else none

/-- Outer loop of `findBasePoint` (Elliptic_curve_encryption.cpp 96-102) on machine
integers: `rhs = mod((x * x % p * x % p + a * x + b), p)`, read as
`((((x * x) % p) * x) % p + a * x) + b`. -/
def findX64 (c : Curve) : Nat → Int → Point
  | 0, _ => .infinity
  | fuel + 1, x =>
    if x < c.p then
      match findY64 c x
          (mod (wrap64 (wrap64 ((wrap64 ((wrap64 (x * x)).tmod c.p * x)).tmod c.p
            + wrap64 (c.a * x)) + c.b)) c.p)
          c.p.toNat 0 with
      | some P => P
      | none => findX64 c fuel (x + 1)
    else .infinity

/-- Function `Point findBasePoint()` (Elliptic_curve_encryption.cpp 95-104) on machine
integers. -/
def findBasePoint64 (c : Curve) : Point := findX64 c c.p.toNat 0

end Elliptic_curve_encryption

/-! ## Arithmetic kernel: `gcd` -/

theorem natCast_tmod (A M : Nat) : ((A : Int)).tmod (M : Int) = ((A % M : Nat) : Int) := by
  rw [Int.tmod_eq_emod (Int.natCast_nonneg A) (Int.natCast_nonneg M)]; norm_cast

theorem natCast_tdiv (A M : Nat) : ((A : Int)).tdiv (M : Int) = ((A / M : Nat) : Int) := by
  rw [Int.tdiv_eq_ediv (Int.natCast_nonneg A) (Int.natCast_nonneg M)]; norm_cast

theorem natAbs_tmod_eq (a m : Int) : (a.tmod m).natAbs = a.natAbs % m.natAbs := by
  cases a <;> cases m <;> simp [Int.tmod, Int.natAbs_neg] <;> rfl

/-- Any two fuels that are at least `|b|` give the same result of the recursion of `gcd`,
for operands of either sign: the fuel `|b|` handed over by `gcd` is never exhausted
before `b = 0`. -/
theorem gcdLoop_fuel_irrelevant :
    ∀ (f1 f2 : Nat) (a b : Int), b.natAbs ≤ f1 → b.natAbs ≤ f2 →
      gcdLoop f1 a b = gcdLoop f2 a b := by
  intro f1
  induction f1 with
  | zero =>
    intro f2 a b h1 _
    have hb : b = 0 := Int.natAbs_eq_zero.mp (by omega)
    subst hb
    cases f2 with
    | zero => rfl
    | succ k => simp [gcdLoop]
  | succ n ih =>
    intro f2 a b h1 h2
    by_cases hb : b = 0
    · subst hb
      cases f2 with
      | zero => simp [gcdLoop]
      | succ k => simp [gcdLoop]
    · have hpos : 0 < b.natAbs := Int.natAbs_pos.mpr hb
      have hlt : (a.tmod b).natAbs < b.natAbs := by
        rw [natAbs_tmod_eq]
        exact Nat.mod_lt _ hpos
      cases f2 with
      | zero => omega
      | succ k =>
        simp only [gcdLoop, if_neg hb]
        exact ih k _ _ (by omega) (by omega)

/-- On natural operands the recursion of `gcd` computes `Nat.gcd`, for every fuel that is
at least the second operand. -/
theorem gcdLoop_natCast : ∀ (fuel A B : Nat), B ≤ fuel →
    gcdLoop fuel (A : Int) (B : Int) = ((Nat.gcd A B : Nat) : Int) := by
  intro fuel
  induction fuel with
  | zero =>
    intro A B hB
    have hB0 : B = 0 := by omega
    subst hB0
    simp [gcdLoop]
  | succ fuel ih =>
    intro A B hB
    rcases Nat.eq_zero_or_pos B with hB0 | hBpos
    · subst hB0
      simp [gcdLoop]
    · have hne : ¬ ((B : Int) = 0) := by exact_mod_cast hBpos.ne'
      have hlt : A % B < B := Nat.mod_lt _ hBpos
      rw [gcdLoop, if_neg hne, natCast_tmod, ih B (A % B) (by omega)]
      rw [Nat.gcd_comm B (A % B), ← Nat.gcd_rec, Nat.gcd_comm]

/-- The program `gcd` agrees with the mathematical gcd on non-negative arguments. -/
theorem gcd_eq_intGcd (a b : Int) (ha : 0 ≤ a) (hb : 0 ≤ b) :
    gcd a b = ((Int.gcd a b : Nat) : Int) := by
  obtain ⟨A, rfl⟩ := Int.eq_ofNat_of_zero_le ha
  obtain ⟨B, rfl⟩ := Int.eq_ofNat_of_zero_le hb
  simp only [gcd, Int.natAbs_ofNat]
  rw [gcdLoop_natCast B A B le_rfl]
  simp [Int.gcd]

theorem gcd_eq_one_iff (a b : Int) (ha : 0 ≤ a) (hb : 0 ≤ b) :
    gcd a b = 1 ↔ Int.gcd a b = 1 := by
  rw [gcd_eq_intGcd a b ha hb]
  exact_mod_cast Iff.rfl

/-! ## Arithmetic kernel: `power` -/

/-- Invariant of the square-and-multiply loop for a positive modulus, non-negative
accumulator and base, and exponent `k` with fuel at least `k`. -/
theorem powerLoop_natCast (m : Int) (hm : 0 < m) :
    ∀ (fuel k : Nat) (res a : Int), 0 ≤ res → 0 ≤ a → k ≤ fuel →
      0 ≤ powerLoop fuel res a (k : Int) m ∧
      powerLoop fuel res a (k : Int) m ≡ res * a ^ k [ZMOD m] ∧
      (0 < k → powerLoop fuel res a (k : Int) m < m) ∧
      (k = 0 → powerLoop fuel res a (k : Int) m = res) := by
  intro fuel
  induction fuel with
  | zero =>
    intro k res a hres _ hk
    have hk0 : k = 0 := by omega
    subst hk0
    simp [powerLoop, hres, Int.ModEq]
  | succ fuel ih =>
    intro k res a hres ha hk
    rcases Nat.eq_zero_or_pos k with hk0 | hkpos
    · subst hk0
      simp [powerLoop, hres, Int.ModEq]
    · have hb : (0 : Int) < (k : Int) := by exact_mod_cast hkpos
      have hdiv : ((k : Int) / 2) = ((k / 2 : Nat) : Int) := by push_cast; rfl
      have hres' : 0 ≤ (if (k : Int) % 2 = 1 then (res * a).tmod m else res) := by
        split
        · exact Int.tmod_nonneg _ (mul_nonneg hres ha)
        · exact hres
      have ha' : 0 ≤ (a * a).tmod m := Int.tmod_nonneg _ (mul_nonneg ha ha)
      have hk2 : k / 2 ≤ fuel := by omega
      obtain ⟨h1, h2, h3, h4⟩ := ih (k / 2) _ _ hres' ha' hk2
      have hunf : powerLoop (fuel + 1) res a (k : Int) m =
          powerLoop fuel (if (k : Int) % 2 = 1 then (res * a).tmod m else res)
            ((a * a).tmod m) ((k / 2 : Nat) : Int) m := by
        rw [powerLoop, if_pos hb, hdiv]
      rw [hunf]
      have haa : (a * a).tmod m ≡ a ^ 2 [ZMOD m] := by
        rw [Int.tmod_eq_emod (mul_nonneg ha ha) hm.le, pow_two]
        exact Int.mod_modEq _ _
      have hra : (if (k : Int) % 2 = 1 then (res * a).tmod m else res)
          ≡ res * a ^ (k % 2) [ZMOD m] := by
        rcases Nat.mod_two_eq_zero_or_one k with h0 | h1'
        · have : ¬ ((k : Int) % 2 = 1) := by omega
          rw [if_neg this, h0]; simp
        · have : ((k : Int) % 2 = 1) := by omega
          rw [if_pos this, h1', Int.tmod_eq_emod (mul_nonneg hres ha) hm.le, pow_one]
          exact Int.mod_modEq _ _
      refine ⟨h1, ?_, ?_, ?_⟩
      · have hk' : k = 2 * (k / 2) + k % 2 := by omega
        calc _ ≡ (if (k : Int) % 2 = 1 then (res * a).tmod m else res)
                  * ((a * a).tmod m) ^ (k / 2) [ZMOD m] := h2
          _ ≡ (res * a ^ (k % 2)) * (a ^ 2) ^ (k / 2) [ZMOD m] :=
              Int.ModEq.mul hra (haa.pow _)
          _ = res * a ^ k := by
            conv_rhs => rw [hk']
            rw [pow_add, pow_mul]; ring
      · intro _
        rcases Nat.eq_zero_or_pos (k / 2) with hz | hp
        · rw [h4 hz]
          have : ((k : Int) % 2 = 1) := by omega
          rw [if_pos this]
          exact Int.tmod_lt_of_pos _ hm
        · exact h3 hp
      · intro h; omega

/-- Any two fuels that are at least the exponent give the same result of the loop of
`power`: the fuel `b.toNat` handed over by `power` never cuts the loop short. -/
theorem powerLoop_fuel_irrelevant (mod : Int) :
    ∀ (f1 f2 : Nat) (res a b : Int), b.toNat ≤ f1 → b.toNat ≤ f2 →
      powerLoop f1 res a b mod = powerLoop f2 res a b mod := by
  intro f1
  induction f1 with
  | zero =>
    intro f2 res a b h1 _
    have hb : ¬ (0 < b) := by omega
    cases f2 with
    | zero => rfl
    | succ k => simp only [powerLoop, if_neg hb]
  | succ n ih =>
    intro f2 res a b h1 h2
    by_cases hpos : 0 < b
    · cases f2 with
      | zero => omega
      | succ k =>
        simp only [powerLoop, if_pos hpos]
        exact ih k _ _ _ (by omega) (by omega)
    · cases f2 with
      | zero => simp only [powerLoop, if_neg hpos]
      | succ k => simp only [powerLoop, if_neg hpos]

/-- Closed form of `power` for a modulus of at least 2. -/
theorem power_eq_pow_emod (a b m : Int) (ha : 0 ≤ a) (hb : 0 ≤ b) (hm : 2 ≤ m) :
    power a b m = a ^ b.toNat % m := by
  have hm0 : (0 : Int) < m := by omega
  obtain ⟨k, rfl⟩ := Int.eq_ofNat_of_zero_le hb
  obtain ⟨h1, h2, h3, h4⟩ := powerLoop_natCast m hm0 k k 1 (a.tmod m) (by norm_num)
    (Int.tmod_nonneg _ ha) le_rfl
  have hpow : power a (k : Int) m = powerLoop k 1 (a.tmod m) (k : Int) m := by
    simp [power]
  rw [hpow, Int.toNat_natCast]
  have hmod : powerLoop k 1 (a.tmod m) (k : Int) m ≡ a ^ k [ZMOD m] := by
    refine h2.trans ?_
    rw [one_mul, Int.tmod_eq_emod ha hm0.le]
    exact (Int.mod_modEq _ _).pow _
  rcases Nat.eq_zero_or_pos k with hk0 | hkpos
  · subst hk0
    rw [h4 rfl, pow_zero, Int.emod_eq_of_lt (by norm_num) (by omega)]
  · have hlt := h3 hkpos
    rw [← hmod, Int.emod_eq_of_lt h1 hlt]

theorem power_nonneg_lt (a b m : Int) (ha : 0 ≤ a) (hb : 0 ≤ b) (hm : 2 ≤ m) :
    0 ≤ power a b m ∧ power a b m < m := by
  rw [power_eq_pow_emod a b m ha hb hm]
  exact ⟨Int.emod_nonneg _ (by omega), Int.emod_lt_of_pos _ (by omega)⟩

/-- With modulus 1 and a positive exponent the loop reduces the result to 0. -/
theorem power_mod_one_of_pos (a b : Int) (hb : 0 < b) : power a b 1 = 0 := by
  obtain ⟨k, rfl⟩ := Int.eq_ofNat_of_zero_le hb.le
  have hk : 0 < k := by exact_mod_cast hb
  obtain ⟨h1, -, h3, -⟩ := powerLoop_natCast 1 one_pos k k 1 (a.tmod 1) (by norm_num)
    (by simp) le_rfl
  have hpow : power a (k : Int) 1 = powerLoop k 1 (a.tmod 1) (k : Int) 1 := by
    simp [power]
  rw [hpow]
  have := h3 hk
  omega

/-- C3: for every base a ≥ 0, exponent b ≥ 0 and modulus m ≥ 2, under exact integer
arithmetic power(a, b, m) equals a^b mod m, the canonical residue in [0, m-1]. -/
theorem power_correct (a b m : Int) (ha : 0 ≤ a) (hb : 0 ≤ b) (hm : 2 ≤ m) :
    power a b m = a ^ b.toNat % m ∧ 0 ≤ power a b m ∧ power a b m ≤ m - 1 := by
  have h := power_nonneg_lt a b m ha hb hm
  exact ⟨power_eq_pow_emod a b m ha hb hm, h.1, by omega⟩

/-- C3 (witness): the statement at a = 5, b = 7, m = 33. -/
theorem power_correct_witness :
    (0 : Int) ≤ 5 ∧ (0 : Int) ≤ 7 ∧ (2 : Int) ≤ 33 ∧
      (power 5 7 33 = 5 ^ (7 : Int).toNat % 33 ∧ 0 ≤ power 5 7 33 ∧ power 5 7 33 ≤ 33 - 1) :=
  ⟨by decide, by decide, by decide, power_correct 5 7 33 (by decide) (by decide) (by decide)⟩

/-- C4: the source returns 1, not 0, from power(a, 0, 1) for every base a: the
accumulator starts at 1 and the loop, which alone reduces modulo mod, is never entered.
(For every exponent b > 0 the result is 0, see power_mod_one_of_pos.) -/
theorem power_exp_zero_mod_one (a : Int) : power a 0 1 = 1 := by
  simp [power, powerLoop]

/-! ## Arithmetic kernel: `modInverse` -/

/-- The loop of `modInverse` ends within `|m| + 1` rounds for all operands: the model
never runs out of fuel. -/
theorem modInverseLoop_ne_outOfFuel :
    ∀ (fuel : Nat) (a m x y : Int), m.natAbs < fuel →
      modInverseLoop fuel a m x y ≠ .error .outOfFuel := by
  intro fuel
  induction fuel with
  | zero => intro a m x y h; omega
  | succ fuel ih =>
    intro a m x y h
    rw [modInverseLoop]
    split
    · split
      · simp
      · rename_i hm
        apply ih
        rw [natAbs_tmod_eq]
        have : 0 < m.natAbs := Int.natAbs_pos.mpr hm
        have := Nat.mod_lt a.natAbs this
        omega
    · simp

theorem modInverse_ne_outOfFuel (a m : Int) : modInverse a m ≠ .error .outOfFuel := by
  unfold modInverse
  split
  · simp
  · have h := modInverseLoop_ne_outOfFuel (m.natAbs + 1) a m 1 0 (by omega)
    cases hres : modInverseLoop (m.natAbs + 1) a m 1 0 with
    | ok v => simp
    | error f =>
      rw [hres] at h
      simpa using h

/-- One pass of the loop body of `modInverse` on natural operands. -/
theorem modInverseLoop_step (fuel A M : Nat) (x y : Int) (hA : 1 < A) (hM : M ≠ 0) :
    modInverseLoop (fuel + 1) (A : Int) (M : Int) x y =
      modInverseLoop fuel (M : Int) ((A % M : Nat) : Int) y (x - ((A / M : Nat) : Int) * y) := by
  have h1 : (1 : Int) < (A : Int) := by exact_mod_cast hA
  have h2 : ¬ ((M : Int) = 0) := by exact_mod_cast hM
  rw [modInverseLoop, if_pos h1, if_neg h2, natCast_tmod, natCast_tdiv]

/-- Invariant of the extended Euclid loop for coprime operands: `x` and `y` are the
coefficients of `a0` in the two remainders modulo `m0`, their signs alternate, and
`|x| * m + |y| * a = m0`, which keeps `x` strictly between `-m0` and `m0`. -/
theorem modInverseLoop_coprime (a0 m0 : Int) :
    ∀ (fuel A M : Nat) (x y : Int), M < fuel → 1 ≤ A → Nat.gcd A M = 1 →
      (A : Int) ≡ x * a0 [ZMOD m0] → (M : Int) ≡ y * a0 [ZMOD m0] →
      ((0 ≤ x ∧ y ≤ 0 ∧ x * M - y * A = m0) ∨ (x ≤ 0 ∧ 0 ≤ y ∧ y * A - x * M = m0)) →
      -m0 < x → x < m0 →
      ∃ r, modInverseLoop fuel (A : Int) (M : Int) x y = .ok r ∧ -m0 < r ∧ r < m0 ∧
        r * a0 ≡ 1 [ZMOD m0] := by
  intro fuel
  induction fuel with
  | zero => intro A M x y h; omega
  | succ fuel ih =>
    intro A M x y hfuel hA hgcd hxa hya hsign hxl hxu
    rcases Nat.lt_or_ge 1 A with h1 | h1
    · have hM : M ≠ 0 := by
        rintro rfl
        simp at hgcd
        omega
      rw [modInverseLoop_step fuel A M x y h1 hM]
      have hMpos : 0 < M := Nat.pos_of_ne_zero hM
      have hlt : A % M < M := Nat.mod_lt _ hMpos
      have hdm : (A : Int) = ((A % M : Nat) : Int) + ((A / M : Nat) : Int) * (M : Int) := by
        push_cast
        have h2 := Int.emod_add_ediv (A : Int) (M : Int)
        linarith
      have hrem : ((A % M : Nat) : Int) = (A : Int) - ((A / M : Nat) : Int) * (M : Int) := by
        linarith
      have hq : (0 : Int) ≤ ((A / M : Nat) : Int) := Int.natCast_nonneg _
      have hAi : (2 : Int) ≤ (A : Int) := by exact_mod_cast h1
      have hMi : (0 : Int) ≤ (M : Int) := Int.natCast_nonneg _
      apply ih M (A % M) y (x - ((A / M : Nat) : Int) * y) (by omega) (by omega)
      · rw [Nat.gcd_comm, ← Nat.gcd_rec, Nat.gcd_comm]; exact hgcd
      · exact hya
      · rw [hrem, sub_mul, mul_assoc]
        exact Int.ModEq.sub hxa (Int.ModEq.mul_left _ hya)
      · rcases hsign with ⟨hx, hy, hdet⟩ | ⟨hx, hy, hdet⟩
        · right
          refine ⟨hy, ?_, ?_⟩
          · nlinarith
          · rw [hrem]; linarith [hdet]
        · left
          refine ⟨hy, ?_, ?_⟩
          · nlinarith
          · rw [hrem]; linarith [hdet]
      · rcases hsign with ⟨hx, hy, hdet⟩ | ⟨hx, hy, hdet⟩
        · nlinarith
        · nlinarith
      · rcases hsign with ⟨hx, hy, hdet⟩ | ⟨hx, hy, hdet⟩
        · nlinarith
        · nlinarith
    · have hA1 : A = 1 := by omega
      subst hA1
      refine ⟨x, ?_, hxl, hxu, ?_⟩
      · simp [modInverseLoop]
      · simpa using hxa.symm

/-- Specification of `modInverse` on its intended domain. -/
theorem modInverse_spec (a m : Int) (hm : 1 < m) (ha0 : 0 ≤ a) (ham : a < m)
    (hg : Int.gcd a m = 1) :
    ∃ x, modInverse a m = .ok x ∧ 0 ≤ x ∧ x ≤ m - 1 ∧ (a * x) % m = 1 := by
  obtain ⟨A, rfl⟩ := Int.eq_ofNat_of_zero_le ha0
  obtain ⟨M, rfl⟩ := Int.eq_ofNat_of_zero_le (by omega : (0 : Int) ≤ m)
  have hgn : Nat.gcd A M = 1 := by simpa [Int.gcd] using hg
  have hM1 : 1 < M := by exact_mod_cast hm
  have hA1 : 1 ≤ A := by
    rcases Nat.eq_zero_or_pos A with h | h
    · subst h
      simp at hgn
      omega
    · exact h
  obtain ⟨r, hr, hl, hu, hinv⟩ := modInverseLoop_coprime (A : Int) (M : Int) (M + 1) A M 1 0
    (by omega) hA1 hgn (by simp) (by simp [Int.ModEq]) (Or.inl ⟨by norm_num, le_rfl, by simp⟩)
    (by omega) (by omega)
  have hne : ¬ ((M : Int) = 1) := by omega
  have hval : modInverse (A : Int) (M : Int) = .ok (if r < 0 then r + (M : Int) else r) := by
    simp only [modInverse, if_neg hne, Int.natAbs_ofNat, hr]
  refine ⟨_, hval, ?_, ?_, ?_⟩
  · split <;> omega
  · split <;> omega
  · have h1 : (A : Int) * (if r < 0 then r + (M : Int) else r) ≡ 1 [ZMOD (M : Int)] := by
      have h2 : (if r < 0 then r + (M : Int) else r) ≡ r [ZMOD (M : Int)] := by
        split
        · exact Int.add_modEq_right
        · exact Int.ModEq.refl _
      calc (A : Int) * (if r < 0 then r + (M : Int) else r)
          ≡ (A : Int) * r [ZMOD (M : Int)] := Int.ModEq.mul_left _ h2
        _ = r * (A : Int) := mul_comm _ _
        _ ≡ 1 [ZMOD (M : Int)] := hinv
    rw [h1]
    exact Int.emod_eq_of_lt (by norm_num) (by omega)

/-- C1: for every modulus m > 1 and every a with 0 ≤ a < m and gcd(a, m) = 1,
modInverse(a, m) returns an x with 0 ≤ x ≤ m-1 and (a * x) mod m = 1. -/
theorem modInverse_correct (a m : Int) (hm : 1 < m) (ha0 : 0 ≤ a) (ham : a < m)
    (hg : Int.gcd a m = 1) :
    ∃ x, modInverse a m = .ok x ∧ 0 ≤ x ∧ x ≤ m - 1 ∧ (a * x) % m = 1 :=
  modInverse_spec a m hm ha0 ham hg

/-- C1 (witness): the statement at a = 7, m = 20. -/
theorem modInverse_correct_witness :
    (1 : Int) < 20 ∧ (0 : Int) ≤ 7 ∧ (7 : Int) < 20 ∧ Int.gcd 7 20 = 1 ∧
      ∃ x, modInverse 7 20 = .ok x ∧ 0 ≤ x ∧ x ≤ 20 - 1 ∧ (7 * x) % 20 = 1 :=
  ⟨by decide, by decide, by decide, by decide,
    modInverse_correct 7 20 (by decide) (by decide) (by decide) (by decide)⟩

/-- When the operands share a factor the loop of `modInverse` never leaves through its
exit test: it runs until the divisor is zero. -/
theorem modInverseLoop_not_coprime :
    ∀ (fuel A M : Nat) (x y : Int), M < fuel → 1 ≤ A → Nat.gcd A M ≠ 1 →
      modInverseLoop fuel (A : Int) (M : Int) x y = .error .divByZero := by
  intro fuel
  induction fuel with
  | zero => intro A M x y h; omega
  | succ fuel ih =>
    intro A M x y hfuel hA hgcd
    have h1 : 1 < A := by
      rcases Nat.lt_or_ge 1 A with h | h
      · exact h
      · have hA1 : A = 1 := by omega
        subst hA1
        simp at hgcd
    rcases Nat.eq_zero_or_pos M with hM | hM
    · subst hM
      have h1i : (1 : Int) < (A : Int) := by exact_mod_cast h1
      simp [modInverseLoop, h1i]
    · rw [modInverseLoop_step fuel A M x y h1 hM.ne']
      have hlt : A % M < M := Nat.mod_lt _ hM
      apply ih M (A % M) _ _ (by omega) hM
      rw [Nat.gcd_comm, ← Nat.gcd_rec, Nat.gcd_comm]; exact hgcd

/-- C2 (counterexample): 0 and 5 are not coprime, yet modInverse(0, 5) returns the
ordinary value 1; no failure is reported. -/
theorem modInverse_zero_returns_value :
    (1 : Int) < 5 ∧ Int.gcd 0 5 ≠ 1 ∧ modInverse 0 5 = Except.ok 1 := by
  decide

/-- C2 (amended): for every m > 1 and 0 ≤ a < m with gcd(a, m) ≠ 1, modInverse(a, m)
returns the ordinary value 1 when a = 0, and returns no value when a ≥ 1: the loop ends
in an integer division by zero. -/
theorem modInverse_not_coprime (a m : Int) (hm : 1 < m) (ha0 : 0 ≤ a) (ham : a < m)
    (hg : Int.gcd a m ≠ 1) :
    (a = 0 → modInverse a m = .ok 1) ∧ (1 ≤ a → modInverse a m = .error .divByZero) := by
  have hne : ¬ (m = 1) := by omega
  constructor
  · rintro rfl
    simp [modInverse, hne, modInverseLoop]
  · intro ha1
    obtain ⟨A, rfl⟩ := Int.eq_ofNat_of_zero_le ha0
    obtain ⟨M, rfl⟩ := Int.eq_ofNat_of_zero_le (by omega : (0 : Int) ≤ m)
    have hgn : Nat.gcd A M ≠ 1 := by simpa [Int.gcd] using hg
    have hA1 : 1 ≤ A := by exact_mod_cast ha1
    have h := modInverseLoop_not_coprime (M + 1) A M 1 0 (by omega) hA1 hgn
    simp only [modInverse, if_neg hne, Int.natAbs_ofNat, h]

/-- C2 (witness): the amended statement at a = 2, m = 4. -/
theorem modInverse_not_coprime_witness :
    (1 : Int) < 4 ∧ (0 : Int) ≤ 2 ∧ (2 : Int) < 4 ∧ Int.gcd 2 4 ≠ 1 ∧
      ((2 : Int) = 0 → modInverse 2 4 = .ok 1) ∧
      ((1 : Int) ≤ 2 → modInverse 2 4 = .error .divByZero) :=
  ⟨by decide, by decide, by decide, by decide,
    modInverse_not_coprime 2 4 (by decide) (by decide) (by decide) (by decide)⟩

/-! ## RSA -/

/-- Fermat: modulo a prime `p`, raising to a power `1 + s (p - 1)` is the identity, also
on multiples of `p`. -/
theorem pow_modEq_self_prime (p : ℕ) (hp : p.Prime) (M : ℤ) (s : ℕ) :
    M ^ (1 + s * (p - 1)) ≡ M [ZMOD (p : ℤ)] := by
  by_cases hdvd : (p : ℤ) ∣ M
  · have h0 : M ≡ 0 [ZMOD (p : ℤ)] := (Int.modEq_zero_iff_dvd).mpr hdvd
    have h1 : M ^ (1 + s * (p - 1)) ≡ 0 ^ (1 + s * (p - 1)) [ZMOD (p : ℤ)] := h0.pow _
    rw [zero_pow (by omega)] at h1
    exact h1.trans h0.symm
  · have hcop : IsCoprime M (p : ℤ) := by
      rw [isCoprime_comm]
      exact (Int.isCoprime_iff_gcd_eq_one).mpr
        (Int.gcd_eq_one_iff_coprime.mpr
          ((Prime.coprime_iff_not_dvd (Nat.prime_iff_prime_int.mp hp)).mpr hdvd))
    have hf : M ^ (p - 1) ≡ 1 [ZMOD (p : ℤ)] := Int.ModEq.pow_card_sub_one_eq_one hp hcop
    have h2 : (M ^ (p - 1)) ^ s ≡ 1 ^ s [ZMOD (p : ℤ)] := hf.pow s
    rw [one_pow] at h2
    have h3 : M ^ (1 + s * (p - 1)) = M * (M ^ (p - 1)) ^ s := by
      rw [pow_add, pow_one, mul_comm s, pow_mul]
    rw [h3]
    simpa using Int.ModEq.mul_left M h2

/-- Modulo a product of two distinct primes, raising to a power that is 1 modulo
`(p-1)(q-1)` is the identity on every integer. -/
theorem rsa_pow_modEq (p q : ℕ) (hp : p.Prime) (hq : q.Prime) (hpq : p ≠ q) (M : ℤ) (N : ℕ)
    (hN : N % ((p - 1) * (q - 1)) = 1) : M ^ N ≡ M [ZMOD ((p : ℤ) * (q : ℤ))] := by
  have hdecomp : N = 1 + (N / ((p - 1) * (q - 1))) * ((p - 1) * (q - 1)) := by
    have := Nat.mod_add_div N ((p - 1) * (q - 1))
    rw [hN] at this
    rw [mul_comm]; exact this.symm
  have hcop : ((p : ℤ)).natAbs.Coprime ((q : ℤ)).natAbs := by
    simpa using (Nat.coprime_primes hp hq).mpr hpq
  apply (Int.modEq_and_modEq_iff_modEq_mul hcop).mp
  constructor
  · have h := pow_modEq_self_prime p hp M ((N / ((p - 1) * (q - 1))) * (q - 1))
    have e1 : 1 + (N / ((p - 1) * (q - 1))) * (q - 1) * (p - 1) = N := by
      conv_rhs => rw [hdecomp]
      ring
    rwa [e1] at h
  · have h := pow_modEq_self_prime q hq M ((N / ((p - 1) * (q - 1))) * (p - 1))
    have e1 : 1 + (N / ((p - 1) * (q - 1))) * (p - 1) * (q - 1) = N := by
      conv_rhs => rw [hdecomp]
      ring
    rwa [e1] at h

/-- Two nested calls of `power` with the same modulus multiply the exponents. -/
theorem power_power (M e d n : Int) (hM : 0 ≤ M) (he : 0 ≤ e) (hd : 0 ≤ d) (hn : 2 ≤ n) :
    power (power M e n) d n = M ^ (e.toNat * d.toNat) % n := by
  have h1 := power_nonneg_lt M e n hM he hn
  rw [power_eq_pow_emod (power M e n) d n h1.1 hd hn, power_eq_pow_emod M e n hM he hn]
  have : (M ^ e.toNat % n) ^ d.toNat ≡ (M ^ e.toNat) ^ d.toNat [ZMOD n] :=
    (Int.mod_modEq _ _).pow _
  rw [pow_mul]
  exact this

/-- Textbook RSA: exponents that are inverse to each other modulo `(p-1)(q-1)` undo each
other on every residue modulo `p * q`, coprime to the modulus or not. -/
theorem rsa_inverse_exponents (p q : ℕ) (hp : p.Prime) (hq : q.Prime) (hpq : p ≠ q)
    (e d M : Int) (he : 0 ≤ e) (hd : 0 ≤ d)
    (hed : (e * d) % (((p : Int) - 1) * ((q : Int) - 1)) = 1)
    (hM0 : 0 ≤ M) (hMn : M < (p : Int) * (q : Int)) :
    power (power M e ((p : Int) * (q : Int))) d ((p : Int) * (q : Int)) = M := by
  have hp2 := hp.two_le
  have hq2 := hq.two_le
  have hn : (2 : Int) ≤ (p : Int) * (q : Int) := by
    have h1 : (2 : Int) ≤ (p : Int) := by exact_mod_cast hp2
    have h2 : (2 : Int) ≤ (q : Int) := by exact_mod_cast hq2
    nlinarith
  rw [power_power M e d _ hM0 he hd hn]
  obtain ⟨E, rfl⟩ := Int.eq_ofNat_of_zero_le he
  obtain ⟨D, rfl⟩ := Int.eq_ofNat_of_zero_le hd
  have hphi : ((p : Int) - 1) * ((q : Int) - 1) = (((p - 1) * (q - 1) : Nat) : Int) := by
    push_cast [Nat.cast_sub (by omega : 1 ≤ p), Nat.cast_sub (by omega : 1 ≤ q)]
    ring
  have hN : (E * D) % ((p - 1) * (q - 1)) = 1 := by
    rw [hphi] at hed
    exact_mod_cast hed
  have h := rsa_pow_modEq p q hp hq hpq M (E * D) hN
  simp only [Int.toNat_natCast]
  rw [h]
  exact Int.emod_eq_of_lt hM0 hMn

/-- A successful counter loop stopped at the first value, in steps of `step` from the
start, at which the loop condition is false. -/
theorem scanLoop_ok_inv (cond : Int → Bool) (step : Int) :
    ∀ (fuel : Nat) (v w : Int), scanLoop cond step fuel v = .ok w →
      ∃ j : Nat, j < fuel ∧ w = v + step * j ∧ cond w = false ∧
        ∀ i : Nat, i < j → cond (v + step * i) = true := by
  intro fuel
  induction fuel with
  | zero => intro v w h; simp [scanLoop] at h
  | succ fuel ih =>
    intro v w h
    rw [scanLoop] at h
    by_cases hc : cond v = true
    · rw [if_pos hc] at h
      obtain ⟨j, hj, hw, hcw, hall⟩ := ih _ _ h
      refine ⟨j + 1, by omega, ?_, hcw, ?_⟩
      · rw [hw]; push_cast; ring
      · intro i hi
        rcases Nat.eq_zero_or_pos i with h0 | hpos
        · subst h0; simpa using hc
        · obtain ⟨i', rfl⟩ : ∃ i', i = i' + 1 := ⟨i - 1, by omega⟩
          have := hall i' (by omega)
          have e1 : v + step * ((i' + 1 : Nat) : Int) = v + step + step * (i' : Int) := by
            push_cast; ring
          rw [e1]; exact this
    · rw [if_neg hc] at h
      have hw : w = v := by
        injection h with h'
        exact h'.symm
      subst hw
      exact ⟨0, by omega, by simp, by simpa using hc, by intro i hi; omega⟩

/-- A counter loop with enough fuel returns the first value at which its condition is
false. -/
theorem scanLoop_of_first (cond : Int → Bool) (step : Int) :
    ∀ (j fuel : Nat) (v : Int), j < fuel →
      (∀ i : Nat, i < j → cond (v + step * i) = true) → cond (v + step * j) = false →
      scanLoop cond step fuel v = .ok (v + step * j) := by
  intro j
  induction j with
  | zero =>
    intro fuel v hf _ hc
    obtain ⟨f, rfl⟩ : ∃ f, fuel = f + 1 := ⟨fuel - 1, by omega⟩
    have hc' : cond v = false := by simpa using hc
    simp [scanLoop, hc']
  | succ j ih =>
    intro fuel v hf hall hc
    obtain ⟨f, rfl⟩ : ∃ f, fuel = f + 1 := ⟨fuel - 1, by omega⟩
    have h0 : cond v = true := by simpa using hall 0 (by omega)
    rw [scanLoop, if_pos h0]
    have e1 : v + step * ((j + 1 : Nat) : Int) = v + step + step * (j : Int) := by
      push_cast; ring
    rw [e1]
    apply ih f (v + step) (by omega)
    · intro i hi
      have := hall (i + 1) (by omega)
      have e2 : v + step * ((i + 1 : Nat) : Int) = v + step + step * (i : Int) := by
        push_cast; ring
      rw [e2] at this; exact this
    · rw [← e1]; exact hc

/-- What a successful key generation of RSA_encryption.cpp / RSA_signature.cpp
guarantees about its output. -/
theorem RSA_encryption.keygen_ok (p q n e d : Int)
    (hk : RSA_encryption.keygen p q = .ok (n, e, d)) :
    n = p * q ∧ 3 ≤ e ∧ e < (p - 1) * (q - 1) ∧ Int.gcd e ((p - 1) * (q - 1)) = 1 ∧
      0 ≤ d ∧ d < (p - 1) * (q - 1) ∧ (e * d) % ((p - 1) * (q - 1)) = 1 := by
  simp only [RSA_encryption.keygen] at hk
  cases hfe : RSA_encryption.findE ((p - 1) * (q - 1)) with
  | error f => rw [hfe] at hk; simp at hk
  | ok e0 =>
    rw [hfe] at hk
    dsimp only at hk
    cases hmi : modInverse e0 ((p - 1) * (q - 1)) with
    | error f => rw [hmi] at hk; simp at hk
    | ok d0 =>
      rw [hmi] at hk
      simp only [Except.ok.injEq, Prod.mk.injEq] at hk
      obtain ⟨hn, he, hd⟩ := hk
      subst he hd
      simp only [RSA_encryption.findE] at hfe
      cases hsc : scanLoop (fun e => decide (e < (p - 1) * (q - 1)) &&
          decide (gcd e ((p - 1) * (q - 1)) ≠ 1)) 2 (((p - 1) * (q - 1)).toNat + 1) 3 with
      | error f => rw [hsc] at hfe; simp at hfe
      | ok e1 =>
        rw [hsc] at hfe
        by_cases hge : e1 ≥ (p - 1) * (q - 1)
        · simp [hge] at hfe
        · simp only [hge, if_false, Except.ok.injEq] at hfe
          subst hfe
          obtain ⟨j, -, hw, hcw, -⟩ := scanLoop_ok_inv _ _ _ _ _ hsc
          have hlt : e1 < (p - 1) * (q - 1) := by omega
          have h3 : 3 ≤ e1 := by omega
          have hg : gcd e1 ((p - 1) * (q - 1)) = 1 := by
            simpa [hlt] using hcw
          have hgi : Int.gcd e1 ((p - 1) * (q - 1)) = 1 :=
            (gcd_eq_one_iff _ _ (by omega) (by omega)).mp hg
          obtain ⟨x, hx, hx0, hx1, hx2⟩ :=
            modInverse_spec e1 ((p - 1) * (q - 1)) (by omega) (by omega) hlt hgi
          rw [hmi] at hx
          injection hx with hx'
          subst hx'
          exact ⟨hn.symm, h3, hlt, hgi, hx0, by omega, hx2⟩

/-- C6 (counterexample): for p = 3, q = 11 the key generation does not yield e = 7,
d = 3: the odd scan from 3 stops at once because gcd(3, 20) = 1. -/
theorem rsa_three_eleven_exponent_not_seven :
    RSA_encryption.keygen 3 11 ≠ .ok (33, 7, 3) ∧ gcd 3 20 = 1 := by
  decide

/-- C6 (amended): for p = 3 and q = 11 RSA key generation yields n = 33, phi = 20,
public exponent e = 3 and private exponent d = 7, and the message M = 5 encrypts to
C = 26 and decrypts back to 5. -/
theorem rsa_scenario :
    RSA_encryption.keygen 3 11 = .ok (33, 3, 7) ∧ ((3 : Int) - 1) * (11 - 1) = 20 ∧
      power 5 3 33 = 26 ∧ power 26 7 33 = 5 := by
  decide

/-- Over unbounded integers: RSA signature soundness. For every key (n, e, d) generated
from distinct primes and all M, M' in [0, n), with S = power(M, d, n) the check power(S,
e, n) == M' holds iff M' = M; and for every S' in [0, n) with S' ≠ S, power(S', e, n) ≠ M.
-/
theorem rsa_signature_sound (p q : Nat) (hp : p.Prime) (hq : q.Prime) (hpq : p ≠ q)
    (n e d M M' S' : Int)
    (hk : RSA_encryption.keygen (p : Int) (q : Int) = .ok (n, e, d))
    (hM : 0 ≤ M ∧ M < n) (hM' : 0 ≤ M' ∧ M' < n) (hS' : 0 ≤ S' ∧ S' < n) :
    (power (power M d n) e n = M' ↔ M' = M) ∧
      (S' ≠ power M d n → power S' e n ≠ M) := by
  obtain ⟨hn, he3, -, -, hd0, -, hed⟩ := RSA_encryption.keygen_ok _ _ _ _ _ hk
  subst hn
  have hde : (d * e) % (((p : Int) - 1) * ((q : Int) - 1)) = 1 := by
    rw [mul_comm]; exact hed
  have hsv : power (power M d ((p : Int) * (q : Int))) e ((p : Int) * (q : Int)) = M :=
    rsa_inverse_exponents p q hp hq hpq d e M hd0 (by omega) hde hM.1 hM.2
  constructor
  · rw [hsv]
    exact eq_comm
  · intro hne hv
    apply hne
    have h := rsa_inverse_exponents p q hp hq hpq e d S' (by omega) hd0 hed hS'.1 hS'.2
    rw [hv] at h
    exact h.symm

/-- Over unbounded integers: RSA multiplicative homomorphism. For every n ≥ 2, e ≥ 0 and
all m1, m2 in [0, n), power((m1*m2) mod n, e, n) = (power(m1, e, n) * power(m2, e, n)) mod
n. -/
theorem rsa_mul_homomorphism (n e m1 m2 : Int) (hn : 2 ≤ n) (he : 0 ≤ e)
    (h1 : 0 ≤ m1 ∧ m1 < n) (h2 : 0 ≤ m2 ∧ m2 < n) :
    power ((m1 * m2).tmod n) e n = (power m1 e n * power m2 e n) % n := by
  have hprod : 0 ≤ m1 * m2 := mul_nonneg h1.1 h2.1
  rw [Int.tmod_eq_emod hprod (by omega)]
  rw [power_eq_pow_emod _ e n (Int.emod_nonneg _ (by omega)) he hn,
    power_eq_pow_emod m1 e n h1.1 he hn, power_eq_pow_emod m2 e n h2.1 he hn]
  have hl : (m1 * m2 % n) ^ e.toNat ≡ (m1 * m2) ^ e.toNat [ZMOD n] :=
    (Int.mod_modEq _ _).pow _
  have hr : (m1 ^ e.toNat % n) * (m2 ^ e.toNat % n) ≡ m1 ^ e.toNat * m2 ^ e.toNat [ZMOD n] :=
    Int.ModEq.mul (Int.mod_modEq _ _) (Int.mod_modEq _ _)
  rw [mul_pow] at hl
  exact hl.trans hr.symm

/-! ## RSA: search for the public exponent -/

/-- For distinct primes `(p-1)(q-1)` is even and at least 2. -/
theorem phi_even_of_distinct_primes (p q : Nat) (hp : p.Prime) (hq : q.Prime) (hpq : p ≠ q) :
    (((p : Int) - 1) * ((q : Int) - 1)) % 2 = 0 ∧ 2 ≤ ((p : Int) - 1) * ((q : Int) - 1) := by
  have hp2 : (2 : Int) ≤ (p : Int) := by exact_mod_cast hp.two_le
  have hq2 : (2 : Int) ≤ (q : Int) := by exact_mod_cast hq.two_le
  have hodd : p % 2 = 1 ∨ q % 2 = 1 := by
    rcases hp.eq_two_or_odd with h | h
    · rcases hq.eq_two_or_odd with h' | h'
      · exact absurd (h.trans h'.symm) hpq
      · exact Or.inr h'
    · exact Or.inl h
  rcases hodd with h | h
  · have hp3 : (3 : Int) ≤ (p : Int) := by omega
    obtain ⟨t, ht⟩ : ∃ t : Int, (p : Int) - 1 = 2 * t := ⟨((p : Int) - 1) / 2, by omega⟩
    constructor
    · rw [ht, mul_assoc]; exact Int.mul_emod_right 2 _
    · nlinarith
  · have hq3 : (3 : Int) ≤ (q : Int) := by omega
    obtain ⟨t, ht⟩ : ∃ t : Int, (q : Int) - 1 = 2 * t := ⟨((q : Int) - 1) / 2, by omega⟩
    constructor
    · rw [ht, mul_comm, mul_assoc]; exact Int.mul_emod_right 2 _
    · nlinarith

/-- A number coprime to an even number is odd. -/
theorem odd_of_gcd_even_eq_one (e phi : Int) (hphi : phi % 2 = 0) (hg : Int.gcd e phi = 1) :
    e % 2 = 1 := by
  by_contra hne
  have he : (2 : Int) ∣ e := by omega
  have hph : (2 : Int) ∣ phi := by omega
  have h2 : (2 : Int) ∣ ((Int.gcd e phi : Nat) : Int) := Int.dvd_gcd he hph
  rw [hg] at h2
  omega

/-- Among the odd candidates `s, s+2, s+4, ...` there is a first one coprime to the even
number `phi`; it is at most `s * phi + 1` and it is the least number from `s` on that is
coprime to `phi` at all. -/
theorem exists_first_coprime (s phi : Int) (hs : s % 2 = 1) (hs0 : 0 ≤ s)
    (hphi : phi % 2 = 0) (hphi2 : 2 ≤ phi) :
    ∃ j : Nat, Int.gcd (s + 2 * (j : Int)) phi = 1 ∧
      (∀ i : Nat, i < j → Int.gcd (s + 2 * (i : Int)) phi ≠ 1) ∧
      s + 2 * (j : Int) ≤ s * phi + 1 ∧
      (∀ e : Int, s ≤ e → Int.gcd e phi = 1 → s + 2 * (j : Int) ≤ e) := by
  have hex : ∃ j : Nat, Int.gcd (s + 2 * (j : Int)) phi = 1 := by
    have hnn : 0 ≤ (s * phi + 1 - s) / 2 := by
      have : 0 ≤ s * phi + 1 - s := by nlinarith
      omega
    obtain ⟨j0, hj0⟩ := Int.eq_ofNat_of_zero_le hnn
    refine ⟨j0, ?_⟩
    have hev : (s * phi + 1 - s) % 2 = 0 := by
      obtain ⟨t, ht⟩ : ∃ t : Int, phi = 2 * t := ⟨phi / 2, by omega⟩
      have : s * phi = 2 * (s * t) := by rw [ht]; ring
      omega
    have hval : s + 2 * (j0 : Int) = s * phi + 1 := by
      have : ((j0 : Nat) : Int) = (s * phi + 1 - s) / 2 := hj0.symm
      omega
    rw [hval]
    apply Int.isCoprime_iff_gcd_eq_one.mp
    exact ⟨1, -s, by ring⟩
  classical
  refine ⟨Nat.find hex, Nat.find_spec hex, fun i hi => Nat.find_min hex hi, ?_, ?_⟩
  · have hnn : 0 ≤ (s * phi + 1 - s) / 2 := by
      have : 0 ≤ s * phi + 1 - s := by nlinarith
      omega
    obtain ⟨j0, hj0⟩ := Int.eq_ofNat_of_zero_le hnn
    have hev : (s * phi + 1 - s) % 2 = 0 := by
      obtain ⟨t, ht⟩ : ∃ t : Int, phi = 2 * t := ⟨phi / 2, by omega⟩
      have : s * phi = 2 * (s * t) := by rw [ht]; ring
      omega
    have hval : s + 2 * (j0 : Int) = s * phi + 1 := by
      have : ((j0 : Nat) : Int) = (s * phi + 1 - s) / 2 := hj0.symm
      omega
    have hj0g : Int.gcd (s + 2 * (j0 : Int)) phi = 1 := by
      rw [hval]
      apply Int.isCoprime_iff_gcd_eq_one.mp
      exact ⟨1, -s, by ring⟩
    have hle : Nat.find hex ≤ j0 := Nat.find_min' hex hj0g
    have : ((Nat.find hex : Nat) : Int) ≤ (j0 : Int) := by exact_mod_cast hle
    omega
  · intro e hse hg
    have hodd := odd_of_gcd_even_eq_one e phi hphi hg
    by_contra hlt
    have hnn : 0 ≤ (e - s) / 2 := by omega
    obtain ⟨i, hi⟩ := Int.eq_ofNat_of_zero_le hnn
    have hei : e = s + 2 * (i : Int) := by omega
    have hij : i < Nat.find hex := by
      have : (i : Int) < ((Nat.find hex : Nat) : Int) := by omega
      exact_mod_cast this
    exact Nat.find_min hex hij (hei ▸ hg)

/-- Result of the bounded odd scan from 3 in terms of the first coprime candidate. -/
theorem RSA_encryption.findE_from_three (phi : Int) (hphi2 : 2 ≤ phi) (j : Nat)
    (hj : Int.gcd (3 + 2 * (j : Int)) phi = 1)
    (hmin : ∀ i : Nat, i < j → Int.gcd (3 + 2 * (i : Int)) phi ≠ 1) :
    RSA_encryption.findE phi =
      if 3 + 2 * (j : Int) < phi then .ok (3 + 2 * (j : Int)) else .error .noValidE := by
  have hcond : ∀ e : Int, 0 ≤ e →
      ((decide (e < phi) && decide (gcd e phi ≠ 1)) = true ↔ (e < phi ∧ Int.gcd e phi ≠ 1)) := by
    intro e he
    simp [gcd_eq_one_iff e phi he (by omega)]
  by_cases hlt : 3 + 2 * (j : Int) < phi
  · have hsc := scanLoop_of_first (fun e => decide (e < phi) && decide (gcd e phi ≠ 1)) 2 j
      (phi.toNat + 1) 3 (by omega)
      (fun i hi => (hcond _ (by omega)).mpr ⟨by omega, hmin i hi⟩)
      (by
        have := (hcond (3 + 2 * (j : Int)) (by omega)).not.mpr (fun h => h.2 hj)
        simpa using this)
    simp only [RSA_encryption.findE, hsc, if_pos hlt]
    have : ¬ (3 + 2 * (j : Int) ≥ phi) := by omega
    simp [this]
  · obtain ⟨jb, hjb⟩ := Int.eq_ofNat_of_zero_le (by omega : (0 : Int) ≤ (phi - 2) / 2)
    have hjb1 : phi ≤ 3 + 2 * (jb : Int) := by omega
    have hjb2 : ∀ i : Nat, i < jb → 3 + 2 * (i : Int) < phi := by
      intro i hi
      have : (i : Int) < (jb : Int) := by exact_mod_cast hi
      omega
    have hjbj : jb ≤ j := by
      have : (jb : Int) ≤ (j : Int) := by omega
      exact_mod_cast this
    have hsc := scanLoop_of_first (fun e => decide (e < phi) && decide (gcd e phi ≠ 1)) 2 jb
      (phi.toNat + 1) 3 (by omega)
      (fun i hi => (hcond _ (by omega)).mpr ⟨hjb2 i hi, hmin i (by omega)⟩)
      (by
        have := (hcond (3 + 2 * (jb : Int)) (by omega)).not.mpr (fun h => by omega)
        simpa using this)
    simp only [RSA_encryption.findE, hsc, if_neg hlt]
    have : (3 + 2 * (jb : Int) ≥ phi) := by omega
    simp [this]

/-- Result of the unbounded odd scan from 13 in terms of the first coprime candidate. -/
theorem RSA_Product.findE_from_thirteen (phi : Int) (hphi2 : 2 ≤ phi) (j : Nat)
    (hj : Int.gcd (13 + 2 * (j : Int)) phi = 1)
    (hmin : ∀ i : Nat, i < j → Int.gcd (13 + 2 * (i : Int)) phi ≠ 1)
    (hbound : 13 + 2 * (j : Int) ≤ 13 * phi + 1) :
    RSA_Product.findE phi =
      if 13 + 2 * (j : Int) < phi then .ok (13 + 2 * (j : Int)) else .error .noValidE := by
  have hcond : ∀ e : Int, 0 ≤ e →
      (decide (gcd e phi ≠ 1) = true ↔ Int.gcd e phi ≠ 1) := by
    intro e he
    simp [gcd_eq_one_iff e phi he (by omega)]
  have hsc := scanLoop_of_first (fun e => decide (gcd e phi ≠ 1)) 2 j
    ((13 * phi).toNat + 1) 13 (by omega)
    (fun i hi => (hcond _ (by omega)).mpr (hmin i hi))
    (by
      have := (hcond (13 + 2 * (j : Int)) (by omega)).not.mpr (fun h => h hj)
      simpa using this)
  simp only [RSA_Product.findE, hsc]
  have hne : 13 + 2 * (j : Int) ≠ phi := by
    intro h
    rw [h, Int.gcd_self] at hj
    omega
  by_cases hlt : 13 + 2 * (j : Int) < phi
  · have : ¬ (13 + 2 * (j : Int) > phi) := by omega
    simp [this, hlt]
  · have : (13 + 2 * (j : Int) > phi) := by omega
    simp [this, hlt]

/-- Both key generations follow the exponent search by `modInverse(e, phi)`, which
succeeds on a coprime exponent below `phi`. -/
theorem keygen_of_findE (n phi c : Int) (hphi2 : 2 ≤ phi) (hc0 : 0 ≤ c)
    (hg : Int.gcd c phi = 1) (r : Except Fault Int)
    (hr : r = if c < phi then .ok c else .error .noValidE) :
    (c < phi → ∃ d, (match r with
        | .ok e =>
          match modInverse e phi with
          | .ok d => (Except.ok (n, e, d) : Except Fault (Int × Int × Int))
          | .error f => .error f
        | .error f => .error f) = .ok (n, c, d)) ∧
    (phi ≤ c → (match r with
        | .ok e =>
          match modInverse e phi with
          | .ok d => (Except.ok (n, e, d) : Except Fault (Int × Int × Int))
          | .error f => .error f
        | .error f => .error f) = .error .noValidE) := by
  subst hr
  constructor
  · intro hlt
    obtain ⟨d, hd, -⟩ := modInverse_spec c phi (by omega) hc0 hlt hg
    exact ⟨d, by simp [hlt, hd]⟩
  · intro hge
    have : ¬ (c < phi) := by omega
    simp [this]

/-- From the description of a search by its first coprime candidate `c` to the statement
about all exponents in `[s, phi)`. -/
theorem search_summary (s phi c n : Int) (K : Except Fault (Int × Int × Int))
    (hsc : s ≤ c) (hg : Int.gcd c phi = 1)
    (hleast : ∀ e : Int, s ≤ e → Int.gcd e phi = 1 → c ≤ e)
    (hok : c < phi → ∃ d, K = .ok (n, c, d)) (hfail : phi ≤ c → K = .error .noValidE) :
    (K = .error .noValidE ↔ ¬ ∃ e : Int, s ≤ e ∧ e < phi ∧ Int.gcd e phi = 1) ∧
    ((∃ e : Int, s ≤ e ∧ e < phi ∧ Int.gcd e phi = 1) →
      ∃ e d : Int, K = .ok (n, e, d) ∧ s ≤ e ∧ e < phi ∧ Int.gcd e phi = 1 ∧
        ∀ e' : Int, s ≤ e' → e' < phi → Int.gcd e' phi = 1 → e ≤ e') := by
  have hiff : (∃ e : Int, s ≤ e ∧ e < phi ∧ Int.gcd e phi = 1) ↔ c < phi := by
    constructor
    · rintro ⟨e, h1, h2, h3⟩
      have := hleast e h1 h3
      omega
    · intro h
      exact ⟨c, hsc, h, hg⟩
  constructor
  · rw [hiff]
    constructor
    · intro hK hlt
      obtain ⟨d, hd⟩ := hok hlt
      rw [hd] at hK
      simp at hK
    · intro hge
      exact hfail (by omega)
  · intro hex
    have hlt := hiff.mp hex
    obtain ⟨d, hd⟩ := hok hlt
    exact ⟨c, d, hd, hsc, hlt, hg, fun e' h1 _ h3 => hleast e' h1 h3⟩

/-- Over unbounded integers: for all distinct primes p, q with phi = (p-1)(q-1), the key
generation of RSA_encryption.cpp and RSA_signature.cpp fails with "no valid e" exactly
when no integer e with 3 ≤ e < phi has gcd(e, phi) = 1, and otherwise returns the smallest
such e; the key generation of RSA_Product.cpp does the same with the lower bound 13 in
place of 3. -/
theorem rsa_keygen_exponent_search (p q : Nat) (hp : p.Prime) (hq : q.Prime) (hpq : p ≠ q) :
    ((RSA_encryption.keygen (p : Int) (q : Int) = .error .noValidE ↔
        ¬ ∃ e : Int, 3 ≤ e ∧ e < ((p : Int) - 1) * ((q : Int) - 1) ∧
          Int.gcd e (((p : Int) - 1) * ((q : Int) - 1)) = 1) ∧
      ((∃ e : Int, 3 ≤ e ∧ e < ((p : Int) - 1) * ((q : Int) - 1) ∧
          Int.gcd e (((p : Int) - 1) * ((q : Int) - 1)) = 1) →
        ∃ e d : Int, RSA_encryption.keygen (p : Int) (q : Int) = .ok ((p : Int) * (q : Int), e, d) ∧
          3 ≤ e ∧ e < ((p : Int) - 1) * ((q : Int) - 1) ∧
          Int.gcd e (((p : Int) - 1) * ((q : Int) - 1)) = 1 ∧
          ∀ e' : Int, 3 ≤ e' → e' < ((p : Int) - 1) * ((q : Int) - 1) →
            Int.gcd e' (((p : Int) - 1) * ((q : Int) - 1)) = 1 → e ≤ e')) ∧
    ((RSA_Product.keygen (p : Int) (q : Int) = .error .noValidE ↔
        ¬ ∃ e : Int, 13 ≤ e ∧ e < ((p : Int) - 1) * ((q : Int) - 1) ∧
          Int.gcd e (((p : Int) - 1) * ((q : Int) - 1)) = 1) ∧
      ((∃ e : Int, 13 ≤ e ∧ e < ((p : Int) - 1) * ((q : Int) - 1) ∧
          Int.gcd e (((p : Int) - 1) * ((q : Int) - 1)) = 1) →
        ∃ e d : Int, RSA_Product.keygen (p : Int) (q : Int) = .ok ((p : Int) * (q : Int), e, d) ∧
          13 ≤ e ∧ e < ((p : Int) - 1) * ((q : Int) - 1) ∧
          Int.gcd e (((p : Int) - 1) * ((q : Int) - 1)) = 1 ∧
          ∀ e' : Int, 13 ≤ e' → e' < ((p : Int) - 1) * ((q : Int) - 1) →
            Int.gcd e' (((p : Int) - 1) * ((q : Int) - 1)) = 1 → e ≤ e')) := by
  obtain ⟨hev, hphi2⟩ := phi_even_of_distinct_primes p q hp hq hpq
  constructor
  · obtain ⟨j, hj, hmin, -, hleast⟩ :=
      exists_first_coprime 3 _ (by decide) (by decide) hev hphi2
    have hf := RSA_encryption.findE_from_three _ hphi2 j hj hmin
    obtain ⟨hok, hfail⟩ := keygen_of_findE ((p : Int) * (q : Int)) _ (3 + 2 * (j : Int))
      hphi2 (by omega) hj _ hf
    exact search_summary 3 _ (3 + 2 * (j : Int)) _ _ (by omega) hj hleast hok hfail
  · obtain ⟨j, hj, hmin, hb, hleast⟩ :=
      exists_first_coprime 13 _ (by decide) (by decide) hev hphi2
    have hf := RSA_Product.findE_from_thirteen _ hphi2 j hj hmin hb
    obtain ⟨hok, hfail⟩ := keygen_of_findE ((p : Int) * (q : Int)) _ (13 + 2 * (j : Int))
      hphi2 (by omega) hj _ hf
    exact search_summary 13 _ (13 + 2 * (j : Int)) _ _ (by omega) hj hleast hok hfail

/-! ## ElGamal -/

/-- Decryption recovers `M` from any pair `(C1, C2)` in which `C2` is `M` times the
shared secret `C1 ^ x`, as long as the prime modulus does not divide that secret. -/
theorem Elgamal_encryption.decrypt_of_modEq (p : Nat) (hp : p.Prime) (x C1 C2 M u : Int)
    (hx : 0 ≤ x) (hC1 : 0 ≤ C1) (hC2 : 0 ≤ C2) (hM : 0 ≤ M ∧ M < (p : Int))
    (hu : ¬ ((p : Int) ∣ u)) (hs : C1 ^ x.toNat ≡ u [ZMOD (p : Int)])
    (hc : C2 ≡ M * u [ZMOD (p : Int)]) :
    Elgamal_encryption.decrypt (p : Int) x C1 C2 = .ok M := by
  have hp2 : (2 : Int) ≤ (p : Int) := by exact_mod_cast hp.two_le
  have hsval := power_eq_pow_emod C1 x (p : Int) hC1 hx hp2
  have hsrange := power_nonneg_lt C1 x (p : Int) hC1 hx hp2
  have hsu : power C1 x (p : Int) ≡ u [ZMOD (p : Int)] := by
    rw [hsval]
    exact (Int.mod_modEq _ _).trans hs
  have hnd : ¬ ((p : Int) ∣ power C1 x (p : Int)) := by
    intro hd
    apply hu
    have h0 : power C1 x (p : Int) ≡ 0 [ZMOD (p : Int)] := Int.modEq_zero_iff_dvd.mpr hd
    exact Int.modEq_zero_iff_dvd.mp (hsu.symm.trans h0)
  have hgcd : Int.gcd (power C1 x (p : Int)) (p : Int) = 1 := by
    apply Int.isCoprime_iff_gcd_eq_one.mp
    rw [isCoprime_comm]
    exact (Prime.coprime_iff_not_dvd (Nat.prime_iff_prime_int.mp hp)).mpr hnd
  obtain ⟨sinv, hsinv, hsinv0, -, hone⟩ :=
    modInverse_spec (power C1 x (p : Int)) (p : Int) (by omega) hsrange.1 hsrange.2 hgcd
  have hone' : power C1 x (p : Int) * sinv ≡ 1 [ZMOD (p : Int)] := by
    have : (1 : Int) % (p : Int) = 1 := Int.emod_eq_of_lt (by norm_num) (by omega)
    unfold Int.ModEq
    rw [hone, this]
  have hfinal : C2 * sinv ≡ M [ZMOD (p : Int)] := by
    calc C2 * sinv ≡ (M * u) * sinv [ZMOD (p : Int)] := Int.ModEq.mul_right _ hc
      _ ≡ (M * power C1 x (p : Int)) * sinv [ZMOD (p : Int)] :=
          Int.ModEq.mul_right _ (Int.ModEq.mul_left _ hsu.symm)
      _ = M * (power C1 x (p : Int) * sinv) := by ring
      _ ≡ M * 1 [ZMOD (p : Int)] := Int.ModEq.mul_left _ hone'
      _ = M := mul_one M
  simp only [Elgamal_encryption.decrypt, hsinv]
  rw [Int.tmod_eq_emod (mul_nonneg hC2 hsinv0) (by omega), hfinal,
    Int.emod_eq_of_lt hM.1 hM.2]

/-- A prime does not divide a power of a number strictly between 0 and itself. -/
theorem prime_not_dvd_pow (p : Nat) (hp : p.Prime) (g : Int) (hg : 1 ≤ g ∧ g < (p : Int))
    (r : Nat) : ¬ ((p : Int) ∣ g ^ r) := by
  intro hd
  have hpi : Prime (p : Int) := Nat.prime_iff_prime_int.mp hp
  have hdg : (p : Int) ∣ g := hpi.dvd_of_dvd_pow hd
  have := Int.le_of_dvd (by omega) hdg
  omega

/-- ElGamal encryption followed by decryption is the identity on `[0, p)`, for every
ephemeral key. -/
theorem Elgamal_encryption.decrypt_encrypt (p : Nat) (hp : p.Prime) (g x k M : Int)
    (hg : 1 ≤ g ∧ g < (p : Int)) (hx : 0 ≤ x) (hk : 0 ≤ k) (hM : 0 ≤ M ∧ M < (p : Int)) :
    Elgamal_encryption.decrypt (p : Int) x
      (Elgamal_encryption.encrypt (p : Int) g (power g x (p : Int)) k M).1
      (Elgamal_encryption.encrypt (p : Int) g (power g x (p : Int)) k M).2 = .ok M := by
  have hp2 : (2 : Int) ≤ (p : Int) := by exact_mod_cast hp.two_le
  have hg0 : 0 ≤ g := by omega
  have hh := power_nonneg_lt g x (p : Int) hg0 hx hp2
  have hhk := power_nonneg_lt (power g x (p : Int)) k (p : Int) hh.1 hk hp2
  have hc1 := power_nonneg_lt g k (p : Int) hg0 hk hp2
  simp only [Elgamal_encryption.encrypt]
  apply Elgamal_encryption.decrypt_of_modEq p hp x _ _ M (g ^ (x.toNat * k.toNat)) hx hc1.1
    (Int.tmod_nonneg _ (mul_nonneg hM.1 hhk.1)) hM (prime_not_dvd_pow p hp g hg _)
  · rw [power_eq_pow_emod g k (p : Int) hg0 hk hp2, mul_comm x.toNat, pow_mul]
    exact (Int.mod_modEq _ _).pow _
  · rw [Int.tmod_eq_emod (mul_nonneg hM.1 hhk.1) (by omega)]
    refine (Int.mod_modEq _ _).trans (Int.ModEq.mul_left _ ?_)
    rw [power_power g x k (p : Int) hg0 hx hk hp2]
    exact Int.mod_modEq _ _

/-! ## ElGamal: product and rerandomization -/

/-- The truncating remainder of a non-negative number by a positive modulus is congruent
to the number. -/
theorem tmod_modEq (x m : Int) (hx : 0 ≤ x) (hm : 0 < m) : x.tmod m ≡ x [ZMOD m] := by
  rw [Int.tmod_eq_emod hx hm.le]
  exact Int.mod_modEq _ _

theorem tmod_nonneg_lt (x m : Int) (hx : 0 ≤ x) (hm : 0 < m) :
    0 ≤ x.tmod m ∧ x.tmod m < m :=
  ⟨Int.tmod_nonneg _ hx, Int.tmod_lt_of_pos _ hm⟩

/-- The value of `power` is congruent to the power it computes. -/
theorem power_modEq_pow (a b m : Int) (ha : 0 ≤ a) (hb : 0 ≤ b) (hm : 2 ≤ m) :
    power a b m ≡ a ^ b.toNat [ZMOD m] := by
  rw [power_eq_pow_emod a b m ha hb hm]
  exact Int.mod_modEq _ _

/-- Raising the public key `h = power g x p` to `k`. -/
theorem power_key_modEq (g x k m : Int) (hg : 0 ≤ g) (hx : 0 ≤ x) (hk : 0 ≤ k)
    (hm : 2 ≤ m) : power (power g x m) k m ≡ g ^ (x.toNat * k.toNat) [ZMOD m] := by
  rw [power_power g x k m hg hx hk hm]
  exact Int.mod_modEq _ _

/-- Two residues in `[0, m)` that are congruent modulo `m` are equal. -/
theorem eq_of_modEq_of_range (a b m : Int) (ha : 0 ≤ a ∧ a < m) (hb : 0 ≤ b ∧ b < m)
    (h : a ≡ b [ZMOD m]) : a = b := by
  have h1 := Int.emod_eq_of_lt ha.1 ha.2
  have h2 := Int.emod_eq_of_lt hb.1 hb.2
  unfold Int.ModEq at h
  omega

theorem Elgamal_Product_Rerandomization.decrypt_eq (p x c1 c2 : Int) :
    Elgamal_Product_Rerandomization.decrypt p x c1 c2 = Elgamal_encryption.decrypt p x c1 c2 :=
  rfl

/-- Over unbounded integers: ElGamal homomorphic product. For every prime p, g in [1,
p-1], x ≥ 0, m1, m2 in [0, p) and any ephemeral k1, k2 ≥ 0, the componentwise product
modulo p of the ciphertexts (g^k1, m1*h^k1) and (g^k2, m2*h^k2) decrypts with x to (m1*m2)
mod p, whatever k1 and k2 are. -/
theorem Elgamal_Product_Rerandomization.decrypt_product (p : Nat) (hp : p.Prime) (g x m1 m2 k1 k2 : Int)
    (hg : 1 ≤ g ∧ g < (p : Int)) (hx : 0 ≤ x) (hm1 : 0 ≤ m1 ∧ m1 < (p : Int))
    (hm2 : 0 ≤ m2 ∧ m2 < (p : Int)) (hk1 : 0 ≤ k1) (hk2 : 0 ≤ k2) :
    Elgamal_Product_Rerandomization.decrypt (p : Int) x
      (((Elgamal_Product_Rerandomization.encrypt (p : Int) g (power g x (p : Int)) k1 m1).1 *
        (Elgamal_Product_Rerandomization.encrypt (p : Int) g (power g x (p : Int)) k2 m2).1).tmod
          (p : Int))
      (((Elgamal_Product_Rerandomization.encrypt (p : Int) g (power g x (p : Int)) k1 m1).2 *
        (Elgamal_Product_Rerandomization.encrypt (p : Int) g (power g x (p : Int)) k2 m2).2).tmod
          (p : Int)) = .ok ((m1 * m2) % (p : Int)) := by
  have hp2 : (2 : Int) ≤ (p : Int) := by exact_mod_cast hp.two_le
  have hp0 : (0 : Int) < (p : Int) := by omega
  have hg0 : 0 ≤ g := by omega
  have hh := power_nonneg_lt g x (p : Int) hg0 hx hp2
  have hhk1 := power_nonneg_lt (power g x (p : Int)) k1 (p : Int) hh.1 hk1 hp2
  have hhk2 := power_nonneg_lt (power g x (p : Int)) k2 (p : Int) hh.1 hk2 hp2
  have hc11 := power_nonneg_lt g k1 (p : Int) hg0 hk1 hp2
  have hc12 := power_nonneg_lt g k2 (p : Int) hg0 hk2 hp2
  have hc21 := tmod_nonneg_lt _ (p : Int) (mul_nonneg hm1.1 hhk1.1) hp0
  have hc22 := tmod_nonneg_lt _ (p : Int) (mul_nonneg hm2.1 hhk2.1) hp0
  rw [Elgamal_Product_Rerandomization.decrypt_eq]
  simp only [Elgamal_Product_Rerandomization.encrypt]
  apply Elgamal_encryption.decrypt_of_modEq p hp x _ _ _
    (g ^ (x.toNat * k1.toNat) * g ^ (x.toNat * k2.toNat)) hx
    (Int.tmod_nonneg _ (mul_nonneg hc11.1 hc12.1))
    (Int.tmod_nonneg _ (mul_nonneg hc21.1 hc22.1))
    ⟨Int.emod_nonneg _ (by omega), Int.emod_lt_of_pos _ hp0⟩
  · rw [← pow_add]
    exact prime_not_dvd_pow p hp g hg _
  · have h1 : (power g k1 (p : Int) * power g k2 (p : Int)).tmod (p : Int)
        ≡ g ^ k1.toNat * g ^ k2.toNat [ZMOD (p : Int)] :=
      (tmod_modEq _ _ (mul_nonneg hc11.1 hc12.1) hp0).trans
        (Int.ModEq.mul (power_modEq_pow g k1 _ hg0 hk1 hp2) (power_modEq_pow g k2 _ hg0 hk2 hp2))
    have h2 := h1.pow x.toNat
    refine h2.trans ?_
    rw [mul_pow, ← pow_mul, ← pow_mul, mul_comm k1.toNat, mul_comm k2.toNat]
  · have h1 : (m1 * power (power g x (p : Int)) k1 (p : Int)).tmod (p : Int)
        ≡ m1 * g ^ (x.toNat * k1.toNat) [ZMOD (p : Int)] :=
      (tmod_modEq _ _ (mul_nonneg hm1.1 hhk1.1) hp0).trans
        (Int.ModEq.mul_left _ (power_key_modEq g x k1 _ hg0 hx hk1 hp2))
    have h2 : (m2 * power (power g x (p : Int)) k2 (p : Int)).tmod (p : Int)
        ≡ m2 * g ^ (x.toNat * k2.toNat) [ZMOD (p : Int)] :=
      (tmod_modEq _ _ (mul_nonneg hm2.1 hhk2.1) hp0).trans
        (Int.ModEq.mul_left _ (power_key_modEq g x k2 _ hg0 hx hk2 hp2))
    refine (tmod_modEq _ _ (mul_nonneg hc21.1 hc22.1) hp0).trans ?_
    refine (Int.ModEq.mul h1 h2).trans ?_
    have h3 : m1 * m2 % (p : Int) ≡ m1 * m2 [ZMOD (p : Int)] := Int.mod_modEq _ _
    have h4 := Int.ModEq.mul_right
      (g ^ (x.toNat * k1.toNat) * g ^ (x.toNat * k2.toNat)) h3
    refine Int.ModEq.trans ?_ h4.symm
    have : m1 * g ^ (x.toNat * k1.toNat) * (m2 * g ^ (x.toNat * k2.toNat))
        = m1 * m2 * (g ^ (x.toNat * k1.toNat) * g ^ (x.toNat * k2.toNat)) := by ring
    rw [this]

/-- Over unbounded integers: ElGamal rerandomization preserves the plaintext. For every
prime p, g in [1, p-1], x ≥ 0, m in [0, p) and ephemeral k1, k2 ≥ 0, the ciphertext
((c11*g^k2) mod p, (c21*h^k2) mod p) obtained from (c11, c21) = (g^k1 mod p, m*h^k1 mod p)
decrypts with x to m. -/
theorem elgamal_rerandomize_decrypts (p : Nat) (hp : p.Prime) (g x m k1 k2 : Int)
    (hg : 1 ≤ g ∧ g < (p : Int)) (hx : 0 ≤ x) (hm : 0 ≤ m ∧ m < (p : Int))
    (hk1 : 0 ≤ k1) (hk2 : 0 ≤ k2) :
    Elgamal_Product_Rerandomization.decrypt (p : Int) x
      (Elgamal_Product_Rerandomization.rerandomize (p : Int) g (power g x (p : Int)) k2
        (Elgamal_Product_Rerandomization.encrypt (p : Int) g (power g x (p : Int)) k1 m).1
        (Elgamal_Product_Rerandomization.encrypt (p : Int) g (power g x (p : Int)) k1 m).2).1
      (Elgamal_Product_Rerandomization.rerandomize (p : Int) g (power g x (p : Int)) k2
        (Elgamal_Product_Rerandomization.encrypt (p : Int) g (power g x (p : Int)) k1 m).1
        (Elgamal_Product_Rerandomization.encrypt (p : Int) g (power g x (p : Int)) k1 m).2).2
      = .ok m := by
  have hp2 : (2 : Int) ≤ (p : Int) := by exact_mod_cast hp.two_le
  have hp0 : (0 : Int) < (p : Int) := by omega
  have hg0 : 0 ≤ g := by omega
  have hh := power_nonneg_lt g x (p : Int) hg0 hx hp2
  have hhk1 := power_nonneg_lt (power g x (p : Int)) k1 (p : Int) hh.1 hk1 hp2
  have hhk2 := power_nonneg_lt (power g x (p : Int)) k2 (p : Int) hh.1 hk2 hp2
  have hc11 := power_nonneg_lt g k1 (p : Int) hg0 hk1 hp2
  have hc12 := power_nonneg_lt g k2 (p : Int) hg0 hk2 hp2
  have hc21 := tmod_nonneg_lt _ (p : Int) (mul_nonneg hm.1 hhk1.1) hp0
  rw [Elgamal_Product_Rerandomization.decrypt_eq]
  simp only [Elgamal_Product_Rerandomization.rerandomize,
    Elgamal_Product_Rerandomization.encrypt]
  apply Elgamal_encryption.decrypt_of_modEq p hp x _ _ m
    (g ^ (x.toNat * k1.toNat) * g ^ (x.toNat * k2.toNat)) hx
    (Int.tmod_nonneg _ (mul_nonneg hc11.1 hc12.1))
    (Int.tmod_nonneg _ (mul_nonneg hc21.1 hhk2.1)) hm
  · rw [← pow_add]
    exact prime_not_dvd_pow p hp g hg _
  · have h1 : (power g k1 (p : Int) * power g k2 (p : Int)).tmod (p : Int)
        ≡ g ^ k1.toNat * g ^ k2.toNat [ZMOD (p : Int)] :=
      (tmod_modEq _ _ (mul_nonneg hc11.1 hc12.1) hp0).trans
        (Int.ModEq.mul (power_modEq_pow g k1 _ hg0 hk1 hp2) (power_modEq_pow g k2 _ hg0 hk2 hp2))
    have h2 := h1.pow x.toNat
    refine h2.trans ?_
    rw [mul_pow, ← pow_mul, ← pow_mul, mul_comm k1.toNat, mul_comm k2.toNat]
  · have h1 : (m * power (power g x (p : Int)) k1 (p : Int)).tmod (p : Int)
        ≡ m * g ^ (x.toNat * k1.toNat) [ZMOD (p : Int)] :=
      (tmod_modEq _ _ (mul_nonneg hm.1 hhk1.1) hp0).trans
        (Int.ModEq.mul_left _ (power_key_modEq g x k1 _ hg0 hx hk1 hp2))
    refine (tmod_modEq _ _ (mul_nonneg hc21.1 hhk2.1) hp0).trans ?_
    refine (Int.ModEq.mul h1 (power_key_modEq g x k2 _ hg0 hx hk2 hp2)).trans ?_
    rw [mul_assoc]

/-! ## Powers modulo a prime and the multiplicative order -/

/-- A number in `[1, p)` is not zero in `ZMod p`. -/
theorem zmod_cast_ne_zero (p : Nat) (g : Int) (hg : 1 ≤ g ∧ g < (p : Int)) :
    ((g : Int) : ZMod p) ≠ 0 := by
  intro h
  have hd := (ZMod.intCast_zmod_eq_zero_iff_dvd g p).mp h
  have := Int.le_of_dvd (by omega) hd
  omega

/-- Equality of two values of `power` modulo a prime, read in `ZMod p`. -/
theorem power_eq_power_iff_zmod (p : Nat) (hp : p.Prime) (g e1 e2 : Int) (hg : 0 ≤ g)
    (h1 : 0 ≤ e1) (h2 : 0 ≤ e2) :
    power g e1 (p : Int) = power g e2 (p : Int) ↔
      ((g : Int) : ZMod p) ^ e1.toNat = ((g : Int) : ZMod p) ^ e2.toNat := by
  have hp2 : (2 : Int) ≤ (p : Int) := by exact_mod_cast hp.two_le
  rw [power_eq_pow_emod g e1 _ hg h1 hp2, power_eq_pow_emod g e2 _ hg h2 hp2]
  rw [← Int.cast_pow, ← Int.cast_pow, ZMod.intCast_eq_intCast_iff']

/-- The test `power(g, e, p) == 1` modulo a prime, read in `ZMod p`. -/
theorem power_eq_one_iff_zmod (p : Nat) (hp : p.Prime) (g e : Int) (hg : 0 ≤ g)
    (he : 0 ≤ e) :
    power g e (p : Int) = 1 ↔ ((g : Int) : ZMod p) ^ e.toNat = 1 := by
  have hp2 : (2 : Int) ≤ (p : Int) := by exact_mod_cast hp.two_le
  rw [power_eq_pow_emod g e _ hg he hp2]
  have h1 : ((1 : Int) : ZMod p) = 1 := Int.cast_one
  rw [← h1, ← Int.cast_pow, ZMod.intCast_eq_intCast_iff']
  rw [Int.emod_eq_of_lt (by norm_num : (0 : Int) ≤ 1) (by omega : (1 : Int) < (p : Int))]

/-- Fermat: modulo a prime `p`, powers of a number in `[1, p)` depend on the exponent
modulo `p - 1` only. -/
theorem zmod_pow_eq_of_exp_modEq (p : Nat) (hp : p.Prime) (g : Int)
    (hg : 1 ≤ g ∧ g < (p : Int)) (a b : Nat) (hab : a ≡ b [MOD (p - 1)]) :
    ((g : Int) : ZMod p) ^ a = ((g : Int) : ZMod p) ^ b := by
  haveI : Fact p.Prime := ⟨hp⟩
  have hne := zmod_cast_ne_zero p g hg
  have hf : ((g : Int) : ZMod p) ^ (p - 1) = 1 := ZMod.pow_card_sub_one_eq_one hne
  have key : ∀ n : Nat, ((g : Int) : ZMod p) ^ n = ((g : Int) : ZMod p) ^ (n % (p - 1)) := by
    intro n
    conv_lhs => rw [← Nat.mod_add_div n (p - 1)]
    rw [pow_add, pow_mul, hf, one_pow, mul_one]
  rw [key a, key b]
  unfold Nat.ModEq at hab
  rw [hab]

/-- For a primitive root `g` modulo a prime, two powers agree exactly when the exponents
agree modulo `p - 1`. -/
theorem zmod_pow_eq_iff_of_primitive (p : Nat) (hp : p.Prime) (g : Int)
    (hg : 1 ≤ g ∧ g < (p : Int)) (hord : orderOf ((g : Int) : ZMod p) = p - 1) (a b : Nat) :
    ((g : Int) : ZMod p) ^ a = ((g : Int) : ZMod p) ^ b ↔ a ≡ b [MOD (p - 1)] := by
  haveI : Fact p.Prime := ⟨hp⟩
  have hne := zmod_cast_ne_zero p g hg
  have hu : orderOf (Units.mk0 _ hne) = p - 1 := by
    rw [← orderOf_units]
    exact hord
  rw [← hu, ← pow_eq_pow_iff_modEq, Units.ext_iff]
  simp

theorem order_two_mod_five : orderOf (((2 : Int) : ZMod 5)) = 5 - 1 := by
  rw [orderOf_eq_iff (by norm_num)]
  refine ⟨by decide, ?_⟩
  intro m hm hpos
  interval_cases m <;> decide


/-! ## ElGamal rerandomization: when the ciphertext changes -/

/-- Over unbounded integers: for every prime p, g in [1, p-1], x ≥ 0, m in [1, p-1] and
k1, k2 ≥ 0, the rerandomized ciphertext equals the original one exactly when power(g, k2,
p) = 1; hence it differs from the original whenever p > 2, g is a primitive root modulo p
and k2 is coprime to p-1. -/
theorem elgamal_rerandomize_changes (p : Nat) (hp : p.Prime) (g x m k1 k2 : Int)
    (hg : 1 ≤ g ∧ g < (p : Int)) (hx : 0 ≤ x) (hm : 1 ≤ m ∧ m < (p : Int))
    (hk1 : 0 ≤ k1) (hk2 : 0 ≤ k2) :
    (Elgamal_Product_Rerandomization.rerandomize (p : Int) g (power g x (p : Int)) k2
        (Elgamal_Product_Rerandomization.encrypt (p : Int) g (power g x (p : Int)) k1 m).1
        (Elgamal_Product_Rerandomization.encrypt (p : Int) g (power g x (p : Int)) k1 m).2
        = Elgamal_Product_Rerandomization.encrypt (p : Int) g (power g x (p : Int)) k1 m
      ↔ power g k2 (p : Int) = 1) ∧
    (2 < p → orderOf ((g : Int) : ZMod p) = p - 1 → Int.gcd k2 ((p : Int) - 1) = 1 →
      Elgamal_Product_Rerandomization.rerandomize (p : Int) g (power g x (p : Int)) k2
        (Elgamal_Product_Rerandomization.encrypt (p : Int) g (power g x (p : Int)) k1 m).1
        (Elgamal_Product_Rerandomization.encrypt (p : Int) g (power g x (p : Int)) k1 m).2
        ≠ Elgamal_Product_Rerandomization.encrypt (p : Int) g (power g x (p : Int)) k1 m) := by
  have hp2 : (2 : Int) ≤ (p : Int) := by exact_mod_cast hp.two_le
  have hp0 : (0 : Int) < (p : Int) := by omega
  have hg0 : 0 ≤ g := by omega
  have hh := power_nonneg_lt g x (p : Int) hg0 hx hp2
  have hhk1 := power_nonneg_lt (power g x (p : Int)) k1 (p : Int) hh.1 hk1 hp2
  have hhk2 := power_nonneg_lt (power g x (p : Int)) k2 (p : Int) hh.1 hk2 hp2
  have hc11 := power_nonneg_lt g k1 (p : Int) hg0 hk1 hp2
  have hc12 := power_nonneg_lt g k2 (p : Int) hg0 hk2 hp2
  have hc21 := tmod_nonneg_lt _ (p : Int) (mul_nonneg (by omega : (0 : Int) ≤ m) hhk1.1) hp0
  have hiff : Elgamal_Product_Rerandomization.rerandomize (p : Int) g (power g x (p : Int)) k2
        (Elgamal_Product_Rerandomization.encrypt (p : Int) g (power g x (p : Int)) k1 m).1
        (Elgamal_Product_Rerandomization.encrypt (p : Int) g (power g x (p : Int)) k1 m).2
        = Elgamal_Product_Rerandomization.encrypt (p : Int) g (power g x (p : Int)) k1 m
      ↔ power g k2 (p : Int) = 1 := by
    simp only [Elgamal_Product_Rerandomization.rerandomize,
      Elgamal_Product_Rerandomization.encrypt, Prod.mk.injEq]
    constructor
    · rintro ⟨h1, -⟩
      -- the first components agree, and `p` does not divide `c11`
      have hmod : power g k1 (p : Int) * power g k2 (p : Int) ≡ power g k1 (p : Int)
          [ZMOD (p : Int)] := by
        have := tmod_modEq _ (p : Int) (mul_nonneg hc11.1 hc12.1) hp0
        rw [h1] at this
        exact this.symm
      have hdvd : (p : Int) ∣ power g k1 (p : Int) * (power g k2 (p : Int) - 1) := by
        have := (Int.modEq_iff_dvd.mp hmod.symm)
        have e : power g k1 (p : Int) * power g k2 (p : Int) - power g k1 (p : Int)
            = power g k1 (p : Int) * (power g k2 (p : Int) - 1) := by ring
        rwa [e] at this
      have hpi : Prime (p : Int) := Nat.prime_iff_prime_int.mp hp
      have hnd : ¬ ((p : Int) ∣ power g k1 (p : Int)) := by
        intro hd
        have h0 : power g k1 (p : Int) ≡ 0 [ZMOD (p : Int)] := Int.modEq_zero_iff_dvd.mpr hd
        have h3 := (power_modEq_pow g k1 _ hg0 hk1 hp2).symm.trans h0
        exact prime_not_dvd_pow p hp g hg _ (Int.modEq_zero_iff_dvd.mp h3)
      rcases hpi.dvd_or_dvd hdvd with h | h
      · exact absurd h hnd
      · obtain ⟨t, ht⟩ := h
        have : t = 0 := by
          by_contra hne
          rcases lt_or_gt_of_ne hne with hlt | hgt
          · have : (p : Int) * t ≤ (p : Int) * (-1) := by
              apply mul_le_mul_of_nonneg_left _ hp0.le
              omega
            omega
          · have : (p : Int) * 1 ≤ (p : Int) * t := by
              apply mul_le_mul_of_nonneg_left _ hp0.le
              omega
            omega
        rw [this] at ht
        omega
    · intro h1
      have hc22 : power (power g x (p : Int)) k2 (p : Int) = 1 := by
        apply eq_of_modEq_of_range _ _ (p : Int) hhk2 ⟨by norm_num, by omega⟩
        refine (power_key_modEq g x k2 _ hg0 hx hk2 hp2).trans ?_
        have h2 : g ^ k2.toNat ≡ 1 [ZMOD (p : Int)] :=
          (power_modEq_pow g k2 _ hg0 hk2 hp2).symm.trans (by rw [h1])
        have h3 := h2.pow x.toNat
        rw [one_pow, ← pow_mul, mul_comm] at h3
        exact h3
      rw [h1, hc22, mul_one, mul_one]
      exact ⟨Int.tmod_eq_of_lt hc11.1 hc11.2, Int.tmod_eq_of_lt hc21.1 hc21.2⟩
  refine ⟨hiff, ?_⟩
  intro hp3 hord hcop heq
  have hone := hiff.mp heq
  have hz := (power_eq_one_iff_zmod p hp g k2 hg0 hk2).mp hone
  have hdvd : p - 1 ∣ k2.toNat := by
    rw [← hord]
    exact orderOf_dvd_of_pow_eq_one hz
  have hdvd' : ((p : Int) - 1) ∣ k2 := by
    have h1 : ((p - 1 : Nat) : Int) ∣ (k2.toNat : Int) := Int.natCast_dvd_natCast.mpr hdvd
    rw [Int.toNat_of_nonneg hk2] at h1
    have h2 : ((p - 1 : Nat) : Int) = (p : Int) - 1 := by
      rw [Nat.cast_sub (by omega : 1 ≤ p)]; simp
    rwa [h2] at h1
  have hg1 : ((p : Int) - 1) ∣ ((Int.gcd k2 ((p : Int) - 1) : Nat) : Int) :=
    Int.dvd_gcd hdvd' (dvd_refl _)
  rw [hcop] at hg1
  have := Int.le_of_dvd (by norm_num) hg1
  have : (2 : Int) < (p : Int) := by exact_mod_cast hp3
  omega

/-! ## ElGamal signature -/

/-- Signing succeeds on a valid nonce and the signature satisfies the verification
equation: `s` is in `[0, p-2]` and `power g M p` equals the right-hand side `v2`. -/
theorem Elgamal_signature.sign_spec (p : Nat) (hp : p.Prime) (g x M k : Int)
    (hg : 1 ≤ g ∧ g < (p : Int)) (hx : 0 ≤ x) (hM : 0 ≤ M)
    (hk : 1 ≤ k ∧ k ≤ (p : Int) - 2) (hkc : Int.gcd k ((p : Int) - 1) = 1) :
    ∃ s : Int, Elgamal_signature.sign (p : Int) g x k M = .ok (power g k (p : Int), s) ∧
      0 ≤ s ∧ s < (p : Int) - 1 ∧
      power g M (p : Int) =
        (power (power g x (p : Int)) (power g k (p : Int)) (p : Int) *
          power (power g k (p : Int)) s (p : Int)).tmod (p : Int) := by
  have hp2 : (2 : Int) ≤ (p : Int) := by exact_mod_cast hp.two_le
  have hp0 : (0 : Int) < (p : Int) := by omega
  have hq0 : (0 : Int) < (p : Int) - 1 := by omega
  have hg0 : 0 ≤ g := by omega
  have hk0 : 0 ≤ k := by omega
  obtain ⟨kinv, hkinv, hkinv0, -, hone⟩ :=
    modInverse_spec k ((p : Int) - 1) (by omega) hk0 (by omega) hkc
  have hr := power_nonneg_lt g k (p : Int) hg0 hk0 hp2
  have hy := power_nonneg_lt g x (p : Int) hg0 hx hp2
  have hxr : 0 ≤ x * power g k (p : Int) := mul_nonneg hx hr.1
  have ht := tmod_nonneg_lt (x * power g k (p : Int)) ((p : Int) - 1) hxr hq0
  have hinner : 0 ≤ M - (x * power g k (p : Int)).tmod ((p : Int) - 1) + ((p : Int) - 1) := by
    omega
  have hprod : 0 ≤ kinv * (M - (x * power g k (p : Int)).tmod ((p : Int) - 1)
      + ((p : Int) - 1)) := mul_nonneg hkinv0 hinner
  have hs := tmod_nonneg_lt _ ((p : Int) - 1) hprod hq0
  refine ⟨_, by simp only [Elgamal_signature.sign, hkinv], hs.1, hs.2, ?_⟩
  -- abbreviations
  generalize hrdef : power g k (p : Int) = r at *
  generalize hsdef : (kinv * (M - (x * r).tmod ((p : Int) - 1) + ((p : Int) - 1))).tmod
    ((p : Int) - 1) = s at *
  -- exponent congruence modulo p - 1
  have hone' : k * kinv ≡ 1 [ZMOD ((p : Int) - 1)] := by
    unfold Int.ModEq
    rw [hone]
    exact (Int.emod_eq_of_lt (by norm_num) (by omega)).symm
  have hs1 : s ≡ kinv * (M - x * r) [ZMOD ((p : Int) - 1)] := by
    rw [← hsdef]
    refine (tmod_modEq _ _ hprod hq0).trans (Int.ModEq.mul_left _ ?_)
    have h1 := tmod_modEq _ _ hxr hq0
    have h2 : M - (x * r).tmod ((p : Int) - 1) ≡ M - x * r [ZMOD ((p : Int) - 1)] :=
      Int.ModEq.sub (Int.ModEq.refl _) h1
    have h3 : M - (x * r).tmod ((p : Int) - 1) + ((p : Int) - 1)
        ≡ M - (x * r).tmod ((p : Int) - 1) [ZMOD ((p : Int) - 1)] := Int.add_modEq_right
    exact h3.trans h2
  have hexp : x * r + k * s ≡ M [ZMOD ((p : Int) - 1)] := by
    have h1 : k * s ≡ k * (kinv * (M - x * r)) [ZMOD ((p : Int) - 1)] :=
      Int.ModEq.mul_left _ hs1
    have h2 : k * (kinv * (M - x * r)) ≡ 1 * (M - x * r) [ZMOD ((p : Int) - 1)] := by
      rw [← mul_assoc]
      exact Int.ModEq.mul_right _ hone'
    have h3 := Int.ModEq.add_left (x * r) (h1.trans h2)
    have e : x * r + 1 * (M - x * r) = M := by ring
    rwa [e] at h3
  have hexpN : x.toNat * r.toNat + k.toNat * s.toNat ≡ M.toNat [MOD (p - 1)] := by
    apply (Int.natCast_modEq_iff).mp
    push_cast [Int.toNat_of_nonneg hx, Int.toNat_of_nonneg hr.1, Int.toNat_of_nonneg hk0,
      Int.toNat_of_nonneg hs.1, Int.toNat_of_nonneg hM, Nat.cast_sub (by omega : 1 ≤ p)]
    exact hexp
  have hz := zmod_pow_eq_of_exp_modEq p hp g hg _ _ hexpN
  -- both sides are residues in [0, p) and congruent
  have hv1 := power_nonneg_lt g M (p : Int) hg0 hM hp2
  have hyr := power_nonneg_lt (power g x (p : Int)) r (p : Int) hy.1 hr.1 hp2
  have hrs := power_nonneg_lt r s (p : Int) hr.1 hs.1 hp2
  have hv2 := tmod_nonneg_lt _ (p : Int) (mul_nonneg hyr.1 hrs.1) hp0
  apply eq_of_modEq_of_range _ _ (p : Int) hv1 hv2
  have hc1 : power (power g x (p : Int)) r (p : Int) ≡ g ^ (x.toNat * r.toNat)
      [ZMOD (p : Int)] := power_key_modEq g x r _ hg0 hx hr.1 hp2
  have hc2 : power r s (p : Int) ≡ g ^ (k.toNat * s.toNat) [ZMOD (p : Int)] := by
    rw [← hrdef]
    exact power_key_modEq g k s _ hg0 hk0 hs.1 hp2
  have hc3 := (tmod_modEq _ (p : Int) (mul_nonneg hyr.1 hrs.1) hp0).trans
    (Int.ModEq.mul hc1 hc2)
  rw [← pow_add] at hc3
  refine Int.ModEq.trans ?_ hc3.symm
  refine (power_modEq_pow g M _ hg0 hM hp2).trans ?_
  rw [← ZMod.intCast_eq_intCast_iff]
  push_cast
  exact hz.symm

/-- Over unbounded integers: ElGamal signature validity. For every prime p, g in [1, p-1],
private key x ≥ 0, message M ≥ 0 and nonce k with 1 ≤ k ≤ p-2 and gcd(k, p-1) = 1, the
pair r = power(g,k,p), s = (modInverse(k,p-1) * ((M - (x*r) mod (p-1)) + (p-1))) mod (p-1)
satisfies s ≥ 0 and power(g,M,p) = (power(y,r,p) * power(r,s,p)) mod p where y =
power(g,x,p). -/
theorem elgamal_signature_valid (p : Nat) (hp : p.Prime) (g x M k : Int)
    (hg : 1 ≤ g ∧ g < (p : Int)) (hx : 0 ≤ x) (hM : 0 ≤ M)
    (hk : 1 ≤ k ∧ k ≤ (p : Int) - 2) (hkc : Int.gcd k ((p : Int) - 1) = 1) :
    ∃ r s : Int, Elgamal_signature.sign (p : Int) g x k M = .ok (r, s) ∧
      r = power g k (p : Int) ∧ 0 ≤ s ∧
      power g M (p : Int) =
        (power (power g x (p : Int)) r (p : Int) * power r s (p : Int)).tmod (p : Int) ∧
      Elgamal_signature.verify (p : Int) g (power g x (p : Int)) M r s = true := by
  obtain ⟨s, hsign, hs0, -, hv⟩ := Elgamal_signature.sign_spec p hp g x M k hg hx hM hk hkc
  refine ⟨power g k (p : Int), s, hsign, rfl, hs0, hv, ?_⟩
  simp only [Elgamal_signature.verify, beq_iff_eq]
  exact hv

/-- Over unbounded integers: for every valid key and signature (r, s) produced for a
message M ≥ 0 and every message M' ≥ 0, the verification of (r, s) against M' succeeds
exactly when power(g, M', p) = power(g, M, p); when g is a primitive root modulo p that is
exactly when M' and M are congruent modulo p-1, so the verification is false for every M'
≠ M with M, M' both in [0, p-2]. -/
theorem elgamal_signature_altered_message (p : Nat) (hp : p.Prime) (g x M k r s M' : Int)
    (hg : 1 ≤ g ∧ g < (p : Int)) (hx : 0 ≤ x) (hM : 0 ≤ M)
    (hk : 1 ≤ k ∧ k ≤ (p : Int) - 2) (hkc : Int.gcd k ((p : Int) - 1) = 1)
    (hsign : Elgamal_signature.sign (p : Int) g x k M = .ok (r, s)) (hM' : 0 ≤ M') :
    (Elgamal_signature.verify (p : Int) g (power g x (p : Int)) M' r s = true ↔
        power g M' (p : Int) = power g M (p : Int)) ∧
    (orderOf ((g : Int) : ZMod p) = p - 1 →
      ((Elgamal_signature.verify (p : Int) g (power g x (p : Int)) M' r s = true ↔
          M' ≡ M [ZMOD ((p : Int) - 1)]) ∧
        (M < (p : Int) - 1 → M' < (p : Int) - 1 → M' ≠ M →
          Elgamal_signature.verify (p : Int) g (power g x (p : Int)) M' r s = false))) := by
  obtain ⟨s0, hsign0, hs0, -, hv⟩ := Elgamal_signature.sign_spec p hp g x M k hg hx hM hk hkc
  rw [hsign0] at hsign
  simp only [Except.ok.injEq, Prod.mk.injEq] at hsign
  obtain ⟨hr, hs⟩ := hsign
  subst hr hs
  have hg0 : 0 ≤ g := by omega
  have hfirst : Elgamal_signature.verify (p : Int) g (power g x (p : Int)) M'
      (power g k (p : Int)) s0 = true ↔ power g M' (p : Int) = power g M (p : Int) := by
    simp only [Elgamal_signature.verify, beq_iff_eq]
    rw [← hv]
  refine ⟨hfirst, ?_⟩
  intro hord
  have hsecond : Elgamal_signature.verify (p : Int) g (power g x (p : Int)) M'
      (power g k (p : Int)) s0 = true ↔ M' ≡ M [ZMOD ((p : Int) - 1)] := by
    rw [hfirst, power_eq_power_iff_zmod p hp g M' M hg0 hM' hM,
      zmod_pow_eq_iff_of_primitive p hp g hg hord, ← Int.natCast_modEq_iff]
    push_cast [Int.toNat_of_nonneg hM, Int.toNat_of_nonneg hM',
      Nat.cast_sub (by have := hp.two_le; omega : 1 ≤ p)]
    exact Iff.rfl
  refine ⟨hsecond, ?_⟩
  intro h1 h2 hne
  rw [Bool.eq_false_iff]
  intro hver
  have hcong := hsecond.mp hver
  exact hne (eq_of_modEq_of_range M' M _ ⟨hM', h2⟩ ⟨hM, h1⟩ hcong)

/-! ## Generator search and ephemeral-scalar search -/

/-- A counter loop in steps of 1 whose condition is false from `bound` on, run with more
fuel than the distance to `bound`, returns the least value from `start` on at which the
condition is false; that value is at most `max start bound`. -/
theorem scanLoop_step_one (cond : Int → Bool) (start bound : Int) (fuel : Nat)
    (hfuel : (bound - start).toNat < fuel) (hstop : ∀ v : Int, bound ≤ v → cond v = false) :
    ∃ w : Int, scanLoop cond 1 fuel start = .ok w ∧ start ≤ w ∧ cond w = false ∧
      (∀ v : Int, start ≤ v → v < w → cond v = true) ∧ (w ≤ start ∨ w ≤ bound) := by
  have hex : ∃ j : Nat, cond (start + 1 * (j : Int)) = false := by
    refine ⟨(bound - start).toNat, hstop _ ?_⟩
    have := Int.self_le_toNat (bound - start)
    omega
  classical
  have hle : Nat.find hex ≤ (bound - start).toNat := by
    apply Nat.find_min' hex
    apply hstop
    have := Int.self_le_toNat (bound - start)
    omega
  have hsc := scanLoop_of_first cond 1 (Nat.find hex) fuel start (by omega)
    (fun i hi => by
      have := Nat.find_min hex hi
      simpa using this)
    (Nat.find_spec hex)
  refine ⟨_, hsc, by omega, Nat.find_spec hex, ?_, ?_⟩
  · intro v hv1 hv2
    obtain ⟨i, hi⟩ := Int.eq_ofNat_of_zero_le (by omega : (0 : Int) ≤ v - start)
    have hvi : v = start + 1 * (i : Int) := by omega
    have hlt : i < Nat.find hex := by
      have : (i : Int) < ((Nat.find hex : Nat) : Int) := by omega
      exact_mod_cast this
    have := Nat.find_min hex hlt
    rw [hvi]
    simpa using this
  · by_cases hb : bound ≤ start
    · left
      have : (bound - start).toNat = 0 := by omega
      have : Nat.find hex = 0 := by omega
      rw [this]; simp
    · right
      have h1 : ((Nat.find hex : Nat) : Int) ≤ (((bound - start).toNat : Nat) : Int) := by
        exact_mod_cast hle
      have h2 : (((bound - start).toNat : Nat) : Int) = bound - start :=
        Int.toNat_of_nonneg (by omega)
      omega

/-- Outcome of the generator search in terms of the least value at which the scan
stops. -/
theorem generatorSearch_cases (hint p : Int) :
    ∃ w : Int, hint ≤ w ∧
      (∀ v : Int, hint ≤ v → v < w → v < p ∧ isGenerator v p = false) ∧
      ((w < p ∧ isGenerator w p = true ∧ generatorSearch hint p = .ok w) ∨
        (p ≤ w ∧ generatorSearch hint p = .error .noGenerator)) := by
  obtain ⟨w, hsc, hw1, hw2, hw3, -⟩ :=
    scanLoop_step_one (fun g => decide (g < p) && !isGenerator g p) hint p
      ((p - hint).toNat + 1) (by omega) (fun v hv => by
        have : ¬ (v < p) := by omega
        simp [this])
  refine ⟨w, hw1, ?_, ?_⟩
  · intro v hv1 hv2
    have := hw3 v hv1 hv2
    simpa using this
  · by_cases hlt : w < p
    · left
      have hgen : isGenerator w p = true := by simpa [hlt] using hw2
      refine ⟨hlt, hgen, ?_⟩
      have : ¬ (w ≥ p) := by omega
      simp only [generatorSearch, hsc, this, if_false]
    · right
      have hge : w ≥ p := by omega
      refine ⟨hge, ?_⟩
      simp only [generatorSearch, hsc, hge, if_true]

/-- C17: for every modulus p (in particular every prime) and start hint, the generator
search returns the smallest g with hint ≤ g < p for which isGenerator(g, p) holds, and
reports "no generator found" exactly when no such g exists, in particular whenever
p ≤ hint; `main` runs it with hint = 100 in both ElGamal programs. -/
theorem generatorSearch_correct (hint p : Int) :
    (generatorSearch hint p = .error .noGenerator ↔
        ¬ ∃ g : Int, hint ≤ g ∧ g < p ∧ isGenerator g p = true) ∧
    (∀ g : Int, generatorSearch hint p = .ok g ↔
        (hint ≤ g ∧ g < p ∧ isGenerator g p = true ∧
          ∀ g' : Int, hint ≤ g' → g' < g → isGenerator g' p = false)) ∧
    (p ≤ hint → generatorSearch hint p = .error .noGenerator) ∧
    Elgamal_encryption.findGenerator p = generatorSearch 100 p ∧
    Elgamal_signature.findGenerator p = generatorSearch 100 p := by
  obtain ⟨w, hw1, hbelow, hcase⟩ := generatorSearch_cases hint p
  refine ⟨?_, ?_, ?_, rfl, rfl⟩
  · constructor
    · intro herr
      rintro ⟨g, hg1, hg2, hg3⟩
      rcases hcase with ⟨-, -, hok⟩ | ⟨hge, -⟩
      · rw [hok] at herr
        simp at herr
      · have := (hbelow g hg1 (by omega)).2
        rw [hg3] at this
        simp at this
    · intro hnone
      rcases hcase with ⟨hlt, hgen, -⟩ | ⟨-, herr⟩
      · exact absurd ⟨w, hw1, hlt, hgen⟩ hnone
      · exact herr
  · intro g
    constructor
    · intro hok
      rcases hcase with ⟨hlt, hgen, hokw⟩ | ⟨-, herr⟩
      · rw [hokw] at hok
        simp only [Except.ok.injEq] at hok
        subst hok
        exact ⟨hw1, hlt, hgen, fun g' h1 h2 => (hbelow g' h1 h2).2⟩
      · rw [herr] at hok
        simp at hok
    · rintro ⟨hg1, hg2, hg3, hmin⟩
      rcases hcase with ⟨hlt, hgen, hokw⟩ | ⟨hge, -⟩
      · have hwg : w = g := by
          rcases lt_trichotomy w g with h | h | h
          · have := hmin w hw1 h
            rw [hgen] at this
            simp at this
          · exact h
          · have := (hbelow g hg1 h).2
            rw [hg3] at this
            simp at this
        rw [← hwg]
        exact hokw
      · have := (hbelow g hg1 (by omega)).2
        rw [hg3] at this
        simp at this
  · intro hle
    rcases hcase with ⟨hlt, -, -⟩ | ⟨-, herr⟩
    · omega
    · exact herr

/-- C18: ephemeral-scalar search. For every p ≥ 2 and start hint h ≥ 1: if h ≤ p-2 the
scan succeeds and returns the least k with h ≤ k ≤ p-2 and gcd(k, p-1) = 1; if h > p-2 it
fails with "no valid k"; it never returns a k with gcd(k, p-1) ≠ 1.  `main` runs it with
h = 12345 (encryption) and h = 55 (signature). -/
theorem scalarSearch_correct (h p : Int) (hp : 2 ≤ p) (hh : 1 ≤ h) :
    (h ≤ p - 2 → ∃ k : Int, scalarSearch h p = .ok k ∧ h ≤ k ∧ k ≤ p - 2 ∧
        Int.gcd k (p - 1) = 1 ∧
        ∀ k' : Int, h ≤ k' → k' < k → Int.gcd k' (p - 1) ≠ 1) ∧
    (p - 2 < h → scalarSearch h p = .error .noValidK) ∧
    (∀ k : Int, scalarSearch h p = .ok k → Int.gcd k (p - 1) = 1) ∧
    Elgamal_encryption.findSessionKey p = scalarSearch 12345 p ∧
    Elgamal_signature.findNonce p = scalarSearch 55 p := by
  have hcond : ∀ k : Int, 0 ≤ k →
      ((decide (k ≤ p - 2) && decide (gcd k (p - 1) ≠ 1)) = true ↔
        (k ≤ p - 2 ∧ Int.gcd k (p - 1) ≠ 1)) := by
    intro k hk
    simp [gcd_eq_one_iff k (p - 1) hk (by omega)]
  have hcondf : ∀ k : Int, 0 ≤ k →
      ((decide (k ≤ p - 2) && decide (gcd k (p - 1) ≠ 1)) = false ↔
        (p - 2 < k ∨ Int.gcd k (p - 1) = 1)) := by
    intro k hk
    rw [← Bool.not_eq_true, hcond k hk]
    constructor
    · intro hn
      by_cases h1 : k ≤ p - 2
      · right
        by_contra h2
        exact hn ⟨h1, h2⟩
      · left; omega
    · rintro (h1 | h1) ⟨h2, h3⟩
      · omega
      · exact h3 h1
  have hlast : Int.gcd (p - 2) (p - 1) = 1 := by
    apply Int.isCoprime_iff_gcd_eq_one.mp
    exact ⟨-1, 1, by ring⟩
  obtain ⟨w, hsc, hw1, hw2, hw3, hw4⟩ :=
    scanLoop_step_one (fun k => decide (k ≤ p - 2) && decide (gcd k (p - 1) ≠ 1)) h (p - 2)
      ((p - h).toNat + 1) (by omega) (fun v hv => by
        rcases eq_or_lt_of_le hv with h1 | h1
        · rw [← h1]
          exact (hcondf (p - 2) (by omega)).mpr (Or.inr hlast)
        · exact (hcondf v (by omega)).mpr (Or.inl h1))
  have hw2' := (hcondf w (by omega)).mp hw2
  have hres : scalarSearch h p = if w > p - 2 then .error .noValidK else .ok w := by
    simp only [scalarSearch, hsc]
  refine ⟨?_, ?_, ?_, rfl, rfl⟩
  · intro hle
    have hwle : w ≤ p - 2 := by omega
    have hng : ¬ (w > p - 2) := by omega
    refine ⟨w, by rw [hres, if_neg hng], hw1, hwle, ?_, ?_⟩
    · rcases hw2' with h1 | h1
      · omega
      · exact h1
    · intro k' hk1 hk2
      exact ((hcond k' (by omega)).mp (hw3 k' hk1 hk2)).2
  · intro hgt
    have : w > p - 2 := by omega
    rw [hres, if_pos this]
  · intro k hk
    rw [hres] at hk
    by_cases hgt : w > p - 2
    · rw [if_pos hgt] at hk
      simp at hk
    · rw [if_neg hgt] at hk
      simp only [Except.ok.injEq] at hk
      subst hk
      rcases hw2' with h1 | h1
      · omega
      · exact h1

/-- C18 (witness): p = 103 and the start hint 55 of the signature program. -/
theorem scalarSearch_correct_witness :
    (2 : Int) ≤ 103 ∧ (1 : Int) ≤ 55 ∧
      ((55 : Int) ≤ 103 - 2 → ∃ k : Int, scalarSearch 55 103 = .ok k ∧ 55 ≤ k ∧
        k ≤ 103 - 2 ∧ Int.gcd k (103 - 1) = 1 ∧
        ∀ k' : Int, 55 ≤ k' → k' < k → Int.gcd k' (103 - 1) ≠ 1) :=
  ⟨by decide, by decide, (scalarSearch_correct 55 103 (by decide) (by decide)).1⟩

/-! ## Elliptic curve: point addition -/

/-- For a positive modulus `mod` is the canonical remainder. -/
theorem Elliptic_curve_encryption.mod_eq_emod (a p : Int) (hp : 0 < p) :
    Elliptic_curve_encryption.mod a p = a % p := by
  have hcong : a.tmod p ≡ a [ZMOD p] := by
    rw [Int.tmod_def]
    have : a - p * a.tdiv p = a + p * (-(a.tdiv p)) := by ring
    rw [this]
    exact Int.modEq_add_fac_self
  have habs : (a.tmod p).natAbs < p.natAbs := by
    rw [natAbs_tmod_eq]
    exact Nat.mod_lt _ (Int.natAbs_pos.mpr hp.ne')
  have hr1 : -p < a.tmod p := by omega
  have hr2 : a.tmod p < p := by omega
  have hrange := And.intro (Int.emod_nonneg a hp.ne') (Int.emod_lt_of_pos a hp)
  simp only [Elliptic_curve_encryption.mod]
  split
  · apply eq_of_modEq_of_range _ _ p ⟨by omega, by omega⟩ hrange
    exact (Int.add_modEq_right.trans hcong).trans (Int.mod_modEq _ _).symm
  · apply eq_of_modEq_of_range _ _ p ⟨by omega, by omega⟩ hrange
    exact hcong.trans (Int.mod_modEq _ _).symm

open Elliptic_curve_encryption in
/-- C19: the point at infinity is a two-sided identity for add. For every curve (p, a, b)
and every point P, identity or not, add(P, identity) = P and add(identity, P) = P. -/
theorem ec_add_identity (c : Elliptic_curve_encryption.Curve)
    (P : Elliptic_curve_encryption.Point) :
    add c P .infinity = .ok P ∧ add c .infinity P = .ok P := by
  cases P with
  | infinity => exact ⟨rfl, rfl⟩
  | affine x y => exact ⟨rfl, rfl⟩

open Elliptic_curve_encryption in
/-- Unfolding of `add` on two affine points that are not inverse to each other and have
different `x`: the chord case. -/
theorem Elliptic_curve_encryption.add_chord (c : Curve) (x1 y1 x2 y2 den : Int)
    (hx : x1 ≠ x2) (hden : modInverse (mod (x2 - x1) c.p) c.p = .ok den) :
    add c (.affine x1 y1) (.affine x2 y2) =
      .ok (.affine (mod (mod (mod (y2 - y1) c.p * den) c.p * mod (mod (y2 - y1) c.p * den) c.p
          - x1 - x2) c.p)
        (mod (mod (mod (y2 - y1) c.p * den) c.p *
          (x1 - mod (mod (mod (y2 - y1) c.p * den) c.p * mod (mod (y2 - y1) c.p * den) c.p
            - x1 - x2) c.p) - y1) c.p)) := by
  simp [add, hx, hden]


/-- Modulo a prime, `modInverse` returns a value on every residue in `[0, p)`: the inverse
on `[1, p)`, and 1 on 0 (where the loop is not entered). -/
theorem modInverse_prime_ok (p : Nat) (hp : p.Prime) (d : Int) (hd : 0 ≤ d ∧ d < (p : Int)) :
    ∃ v : Int, modInverse d (p : Int) = .ok v ∧ (1 ≤ d → (d * v) % (p : Int) = 1) := by
  have hp2 : (2 : Int) ≤ (p : Int) := by exact_mod_cast hp.two_le
  rcases eq_or_lt_of_le hd.1 with h0 | hpos
  · subst h0
    have hne : ¬ ((p : Int) = 1) := by omega
    exact ⟨1, by simp [modInverse, hne, modInverseLoop], fun h => by omega⟩
  · have hnd : ¬ ((p : Int) ∣ d) := by
      intro h
      have := Int.le_of_dvd hpos h
      omega
    have hgcd : Int.gcd d (p : Int) = 1 := by
      apply Int.isCoprime_iff_gcd_eq_one.mp
      rw [isCoprime_comm]
      exact (Prime.coprime_iff_not_dvd (Nat.prime_iff_prime_int.mp hp)).mpr hnd
    obtain ⟨v, hv, -, -, hone⟩ := modInverse_spec d (p : Int) (by omega) hd.1 hd.2 hgcd
    exact ⟨v, hv, fun _ => hone⟩

open Elliptic_curve_encryption in
/-- The chord case of `add` is symmetric modulo a prime. -/
theorem Elliptic_curve_encryption.add_chord_comm (p : Nat) (hp : p.Prime) (a b : Int)
    (x1 y1 x2 y2 : Int) (h1 : 0 ≤ x1 ∧ x1 < (p : Int)) (h2 : 0 ≤ x2 ∧ x2 < (p : Int))
    (hx : x1 ≠ x2) :
    ∃ R : Point, add ⟨(p : Int), a, b⟩ (.affine x1 y1) (.affine x2 y2) = .ok R ∧
      add ⟨(p : Int), a, b⟩ (.affine x2 y2) (.affine x1 y1) = .ok R := by
  haveI : Fact p.Prime := ⟨hp⟩
  have hp2 : (2 : Int) ≤ (p : Int) := by exact_mod_cast hp.two_le
  have hp0 : (0 : Int) < (p : Int) := by omega
  have hd1 : 1 ≤ (x2 - x1) % (p : Int) ∧ (x2 - x1) % (p : Int) < (p : Int) := by
    refine ⟨?_, Int.emod_lt_of_pos _ hp0⟩
    have := Int.emod_nonneg (x2 - x1) hp0.ne'
    by_contra hlt
    have hz : (x2 - x1) % (p : Int) = 0 := by omega
    have hdvd := Int.dvd_of_emod_eq_zero hz
    rcases lt_or_gt_of_ne hx with h | h
    · have := Int.le_of_dvd (by omega) hdvd
      omega
    · have := Int.le_of_dvd (by omega) ((Int.dvd_neg).mpr hdvd)
      omega
  have hd2 : 1 ≤ (x1 - x2) % (p : Int) ∧ (x1 - x2) % (p : Int) < (p : Int) := by
    refine ⟨?_, Int.emod_lt_of_pos _ hp0⟩
    have := Int.emod_nonneg (x1 - x2) hp0.ne'
    by_contra hlt
    have hz : (x1 - x2) % (p : Int) = 0 := by omega
    have hdvd := Int.dvd_of_emod_eq_zero hz
    rcases lt_or_gt_of_ne hx with h | h
    · have := Int.le_of_dvd (by omega) ((Int.dvd_neg).mpr hdvd)
      omega
    · have := Int.le_of_dvd (by omega) hdvd
      omega
  obtain ⟨i1, hi1, hone1⟩ := modInverse_prime_ok p hp _ ⟨by omega, hd1.2⟩
  obtain ⟨i2, hi2, hone2⟩ := modInverse_prime_ok p hp _ ⟨by omega, hd2.2⟩
  have hz1 : (((x2 : Int) : ZMod p) - ((x1 : Int) : ZMod p)) * ((i1 : Int) : ZMod p) = 1 := by
    have := hone1 hd1.1
    have h := (ZMod.intCast_eq_intCast_iff' ((x2 - x1) % (p : Int) * i1) 1 p).mpr
      (by rw [this, Int.emod_eq_of_lt (by norm_num) (by omega)])
    push_cast [ZMod.intCast_mod] at h
    exact h
  have hz2 : (((x1 : Int) : ZMod p) - ((x2 : Int) : ZMod p)) * ((i2 : Int) : ZMod p) = 1 := by
    have := hone2 hd2.1
    have h := (ZMod.intCast_eq_intCast_iff' ((x1 - x2) % (p : Int) * i2) 1 p).mpr
      (by rw [this, Int.emod_eq_of_lt (by norm_num) (by omega)])
    push_cast [ZMod.intCast_mod] at h
    exact h
  have e1 := add_chord ⟨(p : Int), a, b⟩ x1 y1 x2 y2 i1 hx
    (by rw [mod_eq_emod _ _ hp0]; exact hi1)
  have e2 := add_chord ⟨(p : Int), a, b⟩ x2 y2 x1 y1 i2 (Ne.symm hx)
    (by rw [mod_eq_emod _ _ hp0]; exact hi2)
  simp only [mod_eq_emod _ _ hp0] at e1 e2
  -- the two slopes are the same residue
  have hl : (y2 - y1) % (p : Int) * i1 % (p : Int) = (y1 - y2) % (p : Int) * i2 % (p : Int) := by
    apply (ZMod.intCast_eq_intCast_iff' _ _ p).mp
    push_cast [ZMod.intCast_mod]
    linear_combination (-(((y2 : Int) : ZMod p) - ((y1 : Int) : ZMod p)) * ((i1 : Int) : ZMod p)) * hz2
      + (-(((y2 : Int) : ZMod p) - ((y1 : Int) : ZMod p)) * ((i2 : Int) : ZMod p)) * hz1
  rw [← hl] at e2
  generalize hlam : (y2 - y1) % (p : Int) * i1 % (p : Int) = lam at e1 e2
  have hlz : ((lam : Int) : ZMod p) =
      (((y2 : Int) : ZMod p) - ((y1 : Int) : ZMod p)) * ((i1 : Int) : ZMod p) := by
    rw [← hlam]
    push_cast [ZMod.intCast_mod]
    rfl
  have hxr : (lam * lam - x2 - x1) % (p : Int) = (lam * lam - x1 - x2) % (p : Int) := by
    congr 1; ring
  rw [hxr] at e2
  generalize hxrdef : (lam * lam - x1 - x2) % (p : Int) = xr at e1 e2
  have hyr : (lam * (x2 - xr) - y2) % (p : Int) = (lam * (x1 - xr) - y1) % (p : Int) := by
    apply (ZMod.intCast_eq_intCast_iff' _ _ p).mp
    push_cast
    linear_combination (((y2 : Int) : ZMod p) - ((y1 : Int) : ZMod p)) * hz1
      + (((x2 : Int) : ZMod p) - ((x1 : Int) : ZMod p)) * hlz
  rw [hyr] at e2
  exact ⟨_, e1, e2⟩

/-! ## Generator test: trial division and the primitive-root criterion -/

/-- The inner loop of `isGenerator` removes every factor `I` from `N` and nothing
else. -/
theorem stripFactor_natCast (I : Nat) (hI : I.Prime) :
    ∀ (fuel N : Nat), 1 ≤ N → N ≤ fuel →
      ∃ N' : Nat, stripFactor fuel (N : Int) (I : Int) = (N' : Int) ∧ 1 ≤ N' ∧ N' ≤ N ∧
        N' ∣ N ∧ ¬ I ∣ N' ∧ ∀ q : Nat, q.Prime → q ∣ N → q ≠ I → q ∣ N' := by
  intro fuel
  induction fuel with
  | zero => intro N h1 h2; omega
  | succ fuel ih =>
    intro N hN hfuel
    have hI2 := hI.two_le
    by_cases hdiv : N % I = 0
    · have hdvd : I ∣ N := Nat.dvd_of_mod_eq_zero hdiv
      have hcond : ((N : Int)).tmod (I : Int) = 0 := by
        rw [natCast_tmod, hdiv]; rfl
      have hpos : 1 ≤ N / I := Nat.div_pos (Nat.le_of_dvd (by omega) hdvd) (by omega)
      have hlt : N / I < N := Nat.div_lt_self (by omega) (by omega)
      obtain ⟨N', hN', h1, h2, h3, h4, h5⟩ := ih (N / I) hpos (by omega)
      refine ⟨N', ?_, h1, by omega, h3.trans (Nat.div_dvd_of_dvd hdvd), h4, ?_⟩
      · rw [stripFactor, if_pos hcond, natCast_tdiv]
        exact hN'
      · intro q hq hqN hqI
        apply h5 q hq _ hqI
        have hmul : N = I * (N / I) := (Nat.mul_div_cancel' hdvd).symm
        rw [hmul] at hqN
        rcases (Nat.Prime.dvd_mul hq).mp hqN with h | h
        · exact absurd ((Nat.prime_dvd_prime_iff_eq hq hI).mp h) hqI
        · exact h
    · have hcond : ¬ (((N : Int)).tmod (I : Int) = 0) := by
        rw [natCast_tmod]
        exact_mod_cast hdiv
      refine ⟨N, ?_, hN, le_rfl, dvd_refl _, ?_, fun q _ hqN _ => hqN⟩
      · rw [stripFactor, if_neg hcond]
      · intro h
        exact hdiv (Nat.mod_eq_zero_of_dvd h)

/-- The list `factors` once `n > 1` has been handled, for the final state of the loop. -/
theorem factorList_final (phi I N : Nat) (fs : List Int) (hN : 1 ≤ N)
    (hNphi : N ∣ phi) (hexit : N < I * I)
    (hlow : ∀ q : Nat, q.Prime → q ∣ N → I ≤ q)
    (hmem : ∀ f : Int, f ∈ fs ↔ ∃ q : Nat, f = (q : Int) ∧ q.Prime ∧ q ∣ phi ∧ q < I)
    (hall : ∀ q : Nat, q.Prime → q ∣ phi → q < I ∨ q ∣ N) (hnd : fs.Nodup) :
    (∀ f : Int, f ∈ (if (N : Int) > 1 then fs ++ [(N : Int)] else fs) ↔
        ∃ q : Nat, f = (q : Int) ∧ q.Prime ∧ q ∣ phi) ∧
      (if (N : Int) > 1 then fs ++ [(N : Int)] else fs).Nodup := by
  by_cases h1 : N = 1
  · subst h1
    have hng : ¬ (((1 : Nat) : Int) > 1) := by norm_num
    rw [if_neg hng]
    refine ⟨fun f => ?_, hnd⟩
    rw [hmem f]
    constructor
    · rintro ⟨q, hf, hq, hqphi, -⟩
      exact ⟨q, hf, hq, hqphi⟩
    · rintro ⟨q, hf, hq, hqphi⟩
      rcases hall q hq hqphi with h | h
      · exact ⟨q, hf, hq, hqphi, h⟩
      · have := Nat.le_of_dvd (by omega) h
        have := hq.two_le
        omega
  · have hgt : ((N : Int) > 1) := by
      have : 1 < N := by omega
      exact_mod_cast this
    rw [if_pos hgt]
    have hNprime : N.Prime := by
      by_contra hnp
      have hsq := Nat.minFac_sq_le_self (by omega : 0 < N) hnp
      have hle := hlow (Nat.minFac N) (Nat.minFac_prime h1) (Nat.minFac_dvd N)
      have : I * I ≤ Nat.minFac N ^ 2 := by
        rw [pow_two]
        exact Nat.mul_le_mul hle hle
      omega
    have hNI : I ≤ N := hlow N hNprime (dvd_refl _)
    constructor
    · intro f
      rw [List.mem_append, List.mem_singleton, hmem f]
      constructor
      · rintro (⟨q, hf, hq, hqphi, -⟩ | hf)
        · exact ⟨q, hf, hq, hqphi⟩
        · exact ⟨N, hf, hNprime, hNphi⟩
      · rintro ⟨q, hf, hq, hqphi⟩
        rcases hall q hq hqphi with h | h
        · exact Or.inl ⟨q, hf, hq, hqphi, h⟩
        · right
          rw [hf, (Nat.prime_dvd_prime_iff_eq hq hNprime).mp h]
    · rw [List.nodup_append]
      refine ⟨hnd, List.nodup_singleton _, ?_⟩
      intro f hf1 hf2
      rw [List.mem_singleton] at hf2
      obtain ⟨q, hfq, -, -, hqI⟩ := (hmem f).mp hf1
      have : (q : Int) = (N : Int) := by rw [← hfq, hf2]
      have : q = N := by exact_mod_cast this
      omega

/-- Invariant of the trial-division loop of `isGenerator`: the primes below `i` that
divide `phi` are exactly the collected factors, and the remaining `n` carries all other
prime factors of `phi`; at the end the factor list holds exactly the primes dividing
`phi`, each once. -/
theorem factorLoop_natCast (phi : Nat) :
    ∀ (fuel I N : Nat) (fs : List Int), 2 ≤ I → 1 ≤ N → N ∣ phi → N + 2 ≤ fuel + I →
      (∀ q : Nat, q.Prime → q ∣ N → I ≤ q) →
      (∀ f : Int, f ∈ fs ↔ ∃ q : Nat, f = (q : Int) ∧ q.Prime ∧ q ∣ phi ∧ q < I) →
      (∀ q : Nat, q.Prime → q ∣ phi → q < I ∨ q ∣ N) → fs.Nodup →
      (∀ f : Int, f ∈ (if (factorLoop fuel (I : Int) (N : Int) fs).1 > 1
            then (factorLoop fuel (I : Int) (N : Int) fs).2
              ++ [(factorLoop fuel (I : Int) (N : Int) fs).1]
            else (factorLoop fuel (I : Int) (N : Int) fs).2) ↔
          ∃ q : Nat, f = (q : Int) ∧ q.Prime ∧ q ∣ phi) ∧
        (if (factorLoop fuel (I : Int) (N : Int) fs).1 > 1
            then (factorLoop fuel (I : Int) (N : Int) fs).2
              ++ [(factorLoop fuel (I : Int) (N : Int) fs).1]
            else (factorLoop fuel (I : Int) (N : Int) fs).2).Nodup := by
  intro fuel
  induction fuel with
  | zero =>
    intro I N fs hI hN hNphi hfuel hlow hmem hall hnd
    simp only [factorLoop]
    apply factorList_final phi I N fs hN hNphi _ hlow hmem hall hnd
    nlinarith
  | succ fuel ih =>
    intro I N fs hI hN hNphi hfuel hlow hmem hall hnd
    by_cases hsq : I * I ≤ N
    · have hsq' : (I : Int) * (I : Int) ≤ (N : Int) := by exact_mod_cast hsq
      have hI1 : ((I : Int) + 1) = ((I + 1 : Nat) : Int) := by push_cast; rfl
      by_cases hdiv : N % I = 0
      · have hdvd : I ∣ N := Nat.dvd_of_mod_eq_zero hdiv
        have hcond : ((N : Int)).tmod (I : Int) = 0 := by
          rw [natCast_tmod, hdiv]; rfl
        have hIprime : I.Prime := by
          have hmf := Nat.minFac_prime (by omega : I ≠ 1)
          have h1 := hlow (Nat.minFac I) hmf ((Nat.minFac_dvd I).trans hdvd)
          have h2 := Nat.minFac_le (by omega : 0 < I)
          have : Nat.minFac I = I := by omega
          rw [← this]; exact hmf
        obtain ⟨N', hN', h1, h2, h3, h4, h5⟩ :=
          stripFactor_natCast I hIprime N N hN le_rfl
        have hunf : factorLoop (fuel + 1) (I : Int) (N : Int) fs =
            factorLoop fuel ((I + 1 : Nat) : Int) (N' : Int) (fs ++ [(I : Int)]) := by
          rw [factorLoop, if_pos hsq', if_pos hcond, Int.toNat_natCast, hN', hI1]
        rw [hunf]
        apply ih (I + 1) N' (fs ++ [(I : Int)]) (by omega) h1 (h3.trans hNphi) (by omega)
        · intro q hq hqN'
          have hqI := hlow q hq (hqN'.trans h3)
          have hne : q ≠ I := by
            rintro rfl
            exact h4 hqN'
          omega
        · intro f
          rw [List.mem_append, List.mem_singleton, hmem f]
          constructor
          · rintro (⟨q, hf, hq, hqphi, hlt⟩ | hf)
            · exact ⟨q, hf, hq, hqphi, by omega⟩
            · exact ⟨I, hf, hIprime, hdvd.trans hNphi, by omega⟩
          · rintro ⟨q, hf, hq, hqphi, hlt⟩
            by_cases hqI : q = I
            · right; rw [hf, hqI]
            · exact Or.inl ⟨q, hf, hq, hqphi, by omega⟩
        · intro q hq hqphi
          rcases hall q hq hqphi with h | h
          · left; omega
          · by_cases hqI : q = I
            · left; omega
            · right; exact h5 q hq h hqI
        · rw [List.nodup_append]
          refine ⟨hnd, List.nodup_singleton _, ?_⟩
          intro f hf1 hf2
          rw [List.mem_singleton] at hf2
          obtain ⟨q, hfq, -, -, hqI⟩ := (hmem f).mp hf1
          have : (q : Int) = (I : Int) := by rw [← hfq, hf2]
          have : q = I := by exact_mod_cast this
          omega
      · have hcond : ¬ (((N : Int)).tmod (I : Int) = 0) := by
          rw [natCast_tmod]
          exact_mod_cast hdiv
        have hunf : factorLoop (fuel + 1) (I : Int) (N : Int) fs =
            factorLoop fuel ((I + 1 : Nat) : Int) (N : Int) fs := by
          rw [factorLoop, if_pos hsq', if_neg hcond, hI1]
        rw [hunf]
        have hnotdvd : ¬ I ∣ N := fun h => hdiv (Nat.mod_eq_zero_of_dvd h)
        apply ih (I + 1) N fs (by omega) hN hNphi (by omega)
        · intro q hq hqN
          have hqI := hlow q hq hqN
          have hne : q ≠ I := by
            rintro rfl
            exact hnotdvd hqN
          omega
        · intro f
          rw [hmem f]
          constructor
          · rintro ⟨q, hf, hq, hqphi, hlt⟩
            exact ⟨q, hf, hq, hqphi, by omega⟩
          · rintro ⟨q, hf, hq, hqphi, hlt⟩
            refine ⟨q, hf, hq, hqphi, ?_⟩
            rcases hall q hq hqphi with h | h
            · exact h
            · have hne : q ≠ I := by
                rintro rfl
                exact hnotdvd h
              omega
        · intro q hq hqphi
          rcases hall q hq hqphi with h | h
          · left; omega
          · right; exact h
        · exact hnd
    · have hsq' : ¬ ((I : Int) * (I : Int) ≤ (N : Int)) := by exact_mod_cast hsq
      have hunf : factorLoop (fuel + 1) (I : Int) (N : Int) fs = ((N : Int), fs) := by
        rw [factorLoop, if_neg hsq']
      rw [hunf]
      exact factorList_final phi I N fs hN hNphi (by omega) hlow hmem hall hnd

/-- The vector `factors` of `isGenerator` holds exactly the primes that divide `phi`,
each once. -/
theorem factorList_spec (phi : Nat) (hphi : 1 ≤ phi) :
    (∀ f : Int, f ∈ factorList (phi : Int) ↔ ∃ q : Nat, f = (q : Int) ∧ q.Prime ∧ q ∣ phi) ∧
      (factorList (phi : Int)).Nodup := by
  have h := factorLoop_natCast phi phi 2 phi [] le_rfl hphi (dvd_refl _) le_rfl
    (fun q hq _ => hq.two_le)
    (fun f => by
      constructor
      · intro hf; simp at hf
      · rintro ⟨q, -, hq, -, hlt⟩
        have := hq.two_le
        omega)
    (fun q _ hqphi => Or.inr hqphi) List.nodup_nil
  simp only [factorList, Int.toNat_natCast]
  exact h


/-- Lucas's criterion on the program: `isGenerator g p` tests `g ^ ((p-1)/q) ≠ 1` in
`ZMod p` for every prime `q` dividing `p - 1`. -/
theorem isGenerator_iff_forall_prime (p : Nat) (hp : p.Prime) (g : Int)
    (hg : 1 ≤ g ∧ g < (p : Int)) :
    isGenerator g (p : Int) = true ↔
      ∀ q : Nat, q.Prime → q ∣ p - 1 → ((g : Int) : ZMod p) ^ ((p - 1) / q) ≠ 1 := by
  have hp1 : 1 ≤ p - 1 := by have := hp.two_le; omega
  have hcast : (p : Int) - 1 = ((p - 1 : Nat) : Int) := by
    rw [Nat.cast_sub (by omega : 1 ≤ p)]; simp
  have hspec := (factorList_spec (p - 1) hp1).1
  simp only [isGenerator, List.all_eq_true, hcast]
  constructor
  · intro h q hq hqd
    have := h (q : Int) ((hspec _).mpr ⟨q, rfl, hq, hqd⟩)
    rw [natCast_tdiv] at this
    intro hone
    have hpow := (power_eq_one_iff_zmod p hp g (((p - 1) / q : Nat) : Int) (by omega)
      (Int.natCast_nonneg _)).mpr (by simpa using hone)
    rw [hpow] at this
    simp at this
  · intro h f hf
    obtain ⟨q, rfl, hq, hqd⟩ := (hspec f).mp hf
    rw [natCast_tdiv]
    have hne := h q hq hqd
    rw [bne_iff_ne]
    intro hone
    apply hne
    have := (power_eq_one_iff_zmod p hp g (((p - 1) / q : Nat) : Int) (by omega)
      (Int.natCast_nonneg _)).mp hone
    simpa using this

/-- Over unbounded integers: for every prime p and every g with 1 ≤ g < p, isGenerator(g,
p) returns true if and only if g is a primitive root modulo p (the multiplicative order of
g modulo p is p-1); the trial-division loop collects exactly the distinct prime factors of
p-1. -/
theorem isGenerator_correct (p : Nat) (hp : p.Prime) (g : Int)
    (hg : 1 ≤ g ∧ g < (p : Int)) :
    (isGenerator g (p : Int) = true ↔ orderOf ((g : Int) : ZMod p) = p - 1) ∧
      (∀ f : Int, f ∈ factorList ((p : Int) - 1) ↔
        ∃ q : Nat, f = (q : Int) ∧ q.Prime ∧ q ∣ p - 1) ∧
      (factorList ((p : Int) - 1)).Nodup := by
  haveI : Fact p.Prime := ⟨hp⟩
  have hp1 : 1 ≤ p - 1 := by have := hp.two_le; omega
  have hcast : (p : Int) - 1 = ((p - 1 : Nat) : Int) := by
    rw [Nat.cast_sub (by omega : 1 ≤ p)]; simp
  have hspec := factorList_spec (p - 1) hp1
  rw [hcast]
  refine ⟨?_, hspec.1, hspec.2⟩
  rw [isGenerator_iff_forall_prime p hp g hg]
  have hne := zmod_cast_ne_zero p g hg
  have hf : ((g : Int) : ZMod p) ^ (p - 1) = 1 := ZMod.pow_card_sub_one_eq_one hne
  constructor
  · intro h
    exact orderOf_eq_of_pow_and_pow_div_prime (by omega) hf h
  · intro hord q hq hqd
    have hq2 := hq.two_le
    have hqle : q ≤ p - 1 := Nat.le_of_dvd (by omega) hqd
    apply pow_ne_one_of_lt_orderOf
    · exact (Nat.div_pos hqle (by omega)).ne'
    · rw [hord]
      exact Nat.div_lt_self (by omega) (by omega)

/-! ## Elliptic curve: scalar multiplication at 0 and 1, and the inverted denominators -/

open Elliptic_curve_encryption in
/-- Modulo a prime every doubling returns a point: the denominator `mod(2y, p)` lies in
`[0, p)`, where `modInverse` returns a value. -/
theorem Elliptic_curve_encryption.add_self_ok (p : Nat) (hp : p.Prime) (a b : Int)
    (P : Point) : ∃ R : Point, add ⟨(p : Int), a, b⟩ P P = .ok R := by
  have hp0 : (0 : Int) < (p : Int) := by exact_mod_cast hp.pos
  cases P with
  | infinity => exact ⟨_, rfl⟩
  | affine x y =>
    by_cases hy : y = 0
    · exact ⟨.infinity, by simp [add, hy]⟩
    · obtain ⟨v, hv, -⟩ := modInverse_prime_ok p hp (mod (2 * y) (p : Int))
        (by rw [mod_eq_emod _ _ hp0]
            exact ⟨Int.emod_nonneg _ hp0.ne', Int.emod_lt_of_pos _ hp0⟩)
      have e : ∀ r : Except Fault Point,
          r = add ⟨(p : Int), a, b⟩ (.affine x y) (.affine x y) → ∃ R, r = .ok R := by
        intro r hr
        simp [add, hy, hv] at hr
        exact ⟨_, hr⟩
      exact e _ rfl

open Elliptic_curve_encryption in
/-- C21 (counterexample): on the parameters p = 4, a = 0, b = 1 the point P = (0, 1)
satisfies y² = x³ + a·x + b modulo 4, yet multiply(P, 1) returns no point: after
R = add(identity, P) the loop still doubles P, and that doubling inverts 2 modulo 4. -/
theorem ec_multiply_one_composite_modulus :
    (1 * 1 : Int) % 4 = (0 * 0 * 0 + 0 * 0 + 1) % 4 ∧
      multiply ⟨4, 0, 1⟩ (.affine 0 1) 1 = .error .divByZero := by
  decide

open Elliptic_curve_encryption in
/-- C21 (amended): for every curve (p, a, b) and every point P, multiply(P, 0) is the
identity; for every curve with a prime modulus p and every point P, multiply(P, 1) = P. -/
theorem ec_multiply_zero_one :
    (∀ (c : Curve) (P : Point), multiply c P 0 = .ok .infinity) ∧
      (∀ (p : Nat), p.Prime → ∀ (a b : Int) (P : Point),
        multiply ⟨(p : Int), a, b⟩ P 1 = .ok P) := by
  constructor
  · intro c P
    rfl
  · intro p hp a b P
    obtain ⟨R, hR⟩ := add_self_ok p hp a b P
    have h1 : add ⟨(p : Int), a, b⟩ .infinity P = .ok P := by
      cases P <;> rfl
    simp [multiply, multiplyLoop, h1, hR]

open Elliptic_curve_encryption in
/-- C21 (witness): the curve p = 17, a = 2, b = 2 and the point (5, 1). -/
theorem ec_multiply_zero_one_witness :
    multiply ⟨17, 2, 2⟩ (.affine 5 1) 0 = .ok .infinity ∧
      (Nat.Prime 17 ∧ multiply ⟨((17 : Nat) : Int), 2, 2⟩ (.affine 5 1) 1 = .ok (.affine 5 1)) :=
  ⟨ec_multiply_zero_one.1 ⟨17, 2, 2⟩ (.affine 5 1),
    by norm_num, ec_multiply_zero_one.2 17 (by norm_num) 2 2 (.affine 5 1)⟩

open Elliptic_curve_encryption in
/-- The result of `add` is decided by the value handed to `modInverse`: without such a
value `add` returns a point, and with it `add` fails exactly when `modInverse` does. -/
theorem Elliptic_curve_encryption.add_of_inverseArg (c : Curve) (P Q : Point) :
    (addInverseArg c P Q = none → ∃ R : Point, add c P Q = .ok R) ∧
      (∀ d : Int, addInverseArg c P Q = some d →
        ((∀ f : Fault, modInverse d c.p = .error f → add c P Q = .error f) ∧
          (∀ v : Int, modInverse d c.p = .ok v → ∃ R : Point, add c P Q = .ok R))) := by
  cases P with
  | infinity =>
    exact ⟨fun _ => ⟨Q, by cases Q <;> rfl⟩, fun d h => by simp [addInverseArg] at h⟩
  | affine x1 y1 =>
    cases Q with
    | infinity => exact ⟨fun _ => ⟨.affine x1 y1, rfl⟩, fun d h => by simp [addInverseArg] at h⟩
    | affine x2 y2 =>
      by_cases hinv : x1 = x2 ∧ (y1 ≠ y2 ∨ y1 = 0)
      · refine ⟨fun _ => ⟨.infinity, by simp only [add, if_pos hinv]⟩, fun d h => ?_⟩
        simp only [addInverseArg, if_pos hinv] at h
        exact absurd h (by simp)
      · by_cases hdbl : x1 = x2 ∧ y1 = y2
        · refine ⟨fun h => ?_, fun d h => ?_⟩
          · simp only [addInverseArg, if_neg hinv, if_pos hdbl] at h
            exact absurd h (by simp)
          · simp only [addInverseArg, if_neg hinv, if_pos hdbl, Option.some.injEq] at h
            subst h
            constructor
            · intro f hf
              simp only [add, if_neg hinv, if_pos hdbl, hf]
            · intro v hv
              cases hres : add c (.affine x1 y1) (.affine x2 y2) with
              | ok R => exact ⟨R, rfl⟩
              | error f =>
                simp only [add, if_neg hinv, if_pos hdbl, hv] at hres
                exact absurd hres (by simp)
        · refine ⟨fun h => ?_, fun d h => ?_⟩
          · simp only [addInverseArg, if_neg hinv, if_neg hdbl] at h
            exact absurd h (by simp)
          · simp only [addInverseArg, if_neg hinv, if_neg hdbl, Option.some.injEq] at h
            subst h
            constructor
            · intro f hf
              simp only [add, if_neg hinv, if_neg hdbl, hf]
            · intro v hv
              cases hres : add c (.affine x1 y1) (.affine x2 y2) with
              | ok R => exact ⟨R, rfl⟩
              | error f =>
                simp only [add, if_neg hinv, if_neg hdbl, hv] at hres
                exact absurd hres (by simp)

open Elliptic_curve_encryption in
/-- C26 (counterexample): modulo the prime 2 the doubling of P = (0, 1) hands the value
mod(2 * 1, 2) = 0 to modInverse. -/
theorem ec_add_inverts_zero_mod_two :
    Nat.Prime 2 ∧ addInverseArg ⟨2, 0, 0⟩ (.affine 0 1) (.affine 0 1) = some 0 := by
  exact ⟨Nat.prime_two, by decide⟩

open Elliptic_curve_encryption in
/-- C26 (amended): in add, for every odd prime p and all non-identity points P, Q with
coordinates in [0, p-1], whenever a slope is computed (doubling or distinct-x branch) the
value passed to modInverse is in [1, p-1], so a zero denominator is never inverted and
add returns a point. -/
theorem ec_add_denominator_range (p : Nat) (hp : p.Prime) (hodd : p ≠ 2) (a b : Int)
    (x1 y1 x2 y2 : Int) (hx1 : 0 ≤ x1 ∧ x1 < (p : Int)) (_hy1 : 0 ≤ y1 ∧ y1 < (p : Int))
    (hx2 : 0 ≤ x2 ∧ x2 < (p : Int)) (hy2 : 0 ≤ y2 ∧ y2 < (p : Int)) :
    (∀ d : Int, addInverseArg ⟨(p : Int), a, b⟩ (.affine x1 y1) (.affine x2 y2) = some d →
        1 ≤ d ∧ d ≤ (p : Int) - 1) ∧
      ∃ R : Point, add ⟨(p : Int), a, b⟩ (.affine x1 y1) (.affine x2 y2) = .ok R := by
  have hp2 : (2 : Int) ≤ (p : Int) := by exact_mod_cast hp.two_le
  have hp0 : (0 : Int) < (p : Int) := by omega
  have hp3 : (3 : Int) ≤ (p : Int) := by
    have : 2 ≤ p := hp.two_le
    have : 3 ≤ p := by omega
    exact_mod_cast this
  have hrange : ∀ d : Int,
      addInverseArg ⟨(p : Int), a, b⟩ (.affine x1 y1) (.affine x2 y2) = some d →
        1 ≤ d ∧ d ≤ (p : Int) - 1 := by
    intro d hd
    simp only [addInverseArg] at hd
    split at hd
    · exact absurd hd (by simp)
    · rename_i hinv
      split at hd
      · rename_i hdbl
        simp only [Option.some.injEq] at hd
        subst hd
        rw [mod_eq_emod _ _ hp0]
        have hy0 : y1 ≠ 0 := fun h => hinv ⟨hdbl.1, Or.inr h⟩
        have h1 := Int.emod_nonneg (2 * y1) hp0.ne'
        have h2 := Int.emod_lt_of_pos (2 * y1) hp0
        refine ⟨?_, by omega⟩
        by_contra hlt
        have hz : (2 * y1) % (p : Int) = 0 := by omega
        have hdvd : (p : Int) ∣ 2 * y1 := Int.dvd_of_emod_eq_zero hz
        have hpi : Prime (p : Int) := Nat.prime_iff_prime_int.mp hp
        rcases hpi.dvd_or_dvd hdvd with h | h
        · have := Int.le_of_dvd (by norm_num) h
          omega
        · have := Int.le_of_dvd (by omega) h
          omega
      · rename_i hdbl
        simp only [Option.some.injEq] at hd
        subst hd
        rw [mod_eq_emod _ _ hp0]
        have hx : x1 ≠ x2 := by
          intro hx
          by_cases hy : y1 = y2
          · exact hdbl ⟨hx, hy⟩
          · exact hinv ⟨hx, Or.inl hy⟩
        have h1 := Int.emod_nonneg (x2 - x1) hp0.ne'
        have h2 := Int.emod_lt_of_pos (x2 - x1) hp0
        refine ⟨?_, by omega⟩
        by_contra hlt
        have hz : (x2 - x1) % (p : Int) = 0 := by omega
        have hdvd := Int.dvd_of_emod_eq_zero hz
        rcases lt_or_gt_of_ne hx with h | h
        · have := Int.le_of_dvd (by omega) hdvd
          omega
        · have := Int.le_of_dvd (by omega) ((Int.dvd_neg).mpr hdvd)
          omega
  refine ⟨hrange, ?_⟩
  obtain ⟨hnone, hsome⟩ := add_of_inverseArg ⟨(p : Int), a, b⟩ (.affine x1 y1) (.affine x2 y2)
  cases harg : addInverseArg ⟨(p : Int), a, b⟩ (.affine x1 y1) (.affine x2 y2) with
  | none => exact hnone harg
  | some d =>
    obtain ⟨hd1, hd2⟩ := hrange d harg
    obtain ⟨v, hv, -⟩ := modInverse_prime_ok p hp d ⟨by omega, by omega⟩
    exact (hsome d harg).2 v hv

open Elliptic_curve_encryption in
/-- C26 (witness): p = 17 with the doubling of (5, 1). -/
theorem ec_add_denominator_range_witness :
    Nat.Prime 17 ∧ (17 : Nat) ≠ 2 ∧
      ((∀ d : Int, addInverseArg ⟨((17 : Nat) : Int), 2, 2⟩ (.affine 5 1) (.affine 5 1) = some d →
          1 ≤ d ∧ d ≤ ((17 : Nat) : Int) - 1) ∧
        ∃ R : Point, add ⟨((17 : Nat) : Int), 2, 2⟩ (.affine 5 1) (.affine 5 1) = .ok R) :=
  ⟨by norm_num, by decide,
    ec_add_denominator_range 17 (by norm_num) (by decide) 2 2 5 1 5 1 (by decide) (by decide)
      (by decide) (by decide)⟩

/-! ## Rerandomization demo: the two key scans -/

/-- A key scan that starts at or below `p - 2` ends at a key coprime to `p - 1`; a scan
that starts above `p - 2` returns its start value unchanged. -/
theorem Elgamal_Product_Rerandomization.keyScan_spec (start p : Int) (hp : 2 ≤ p)
    (hs : 1 ≤ start) :
    (start ≤ p - 2 → ∃ k : Int, Elgamal_Product_Rerandomization.keyScan start p = .ok k ∧
        start ≤ k ∧ k ≤ p - 2 ∧ Int.gcd k (p - 1) = 1) ∧
      (p - 2 < start → Elgamal_Product_Rerandomization.keyScan start p = .ok start) := by
  have hcond : ∀ k : Int, 0 ≤ k →
      ((decide (k ≤ p - 2) && decide (gcd k (p - 1) ≠ 1)) = true ↔
        (k ≤ p - 2 ∧ Int.gcd k (p - 1) ≠ 1)) := by
    intro k hk
    simp [gcd_eq_one_iff k (p - 1) hk (by omega)]
  have hcondf : ∀ k : Int, 0 ≤ k →
      ((decide (k ≤ p - 2) && decide (gcd k (p - 1) ≠ 1)) = false ↔
        (p - 2 < k ∨ Int.gcd k (p - 1) = 1)) := by
    intro k hk
    rw [← Bool.not_eq_true, hcond k hk]
    constructor
    · intro hn
      by_cases h1 : k ≤ p - 2
      · right
        by_contra h2
        exact hn ⟨h1, h2⟩
      · left; omega
    · rintro (h1 | h1) ⟨h2, h3⟩
      · omega
      · exact h3 h1
  have hlast : Int.gcd (p - 2) (p - 1) = 1 := by
    apply Int.isCoprime_iff_gcd_eq_one.mp
    exact ⟨-1, 1, by ring⟩
  obtain ⟨w, hsc, hw1, hw2, -, hw4⟩ :=
    scanLoop_step_one (fun k => decide (k ≤ p - 2) && decide (gcd k (p - 1) ≠ 1)) start (p - 2)
      ((p - start).toNat + 1) (by omega) (fun v hv => by
        rcases eq_or_lt_of_le hv with h1 | h1
        · rw [← h1]
          exact (hcondf (p - 2) (by omega)).mpr (Or.inr hlast)
        · exact (hcondf v (by omega)).mpr (Or.inl h1))
  have hw2' := (hcondf w (by omega)).mp hw2
  constructor
  · intro hle
    refine ⟨w, hsc, hw1, by omega, ?_⟩
    rcases hw2' with h | h
    · omega
    · exact h
  · intro hgt
    have hws : w = start := by omega
    rw [hws] at hsc
    exact hsc

/-- For every prime p the first key of the rerandomization demo is coprime to p - 1, and
so is the second one whenever the first key plus 27 is at most p - 2. -/
theorem Elgamal_Product_Rerandomization.sessionKeys_spec (p : Nat) (hp : p.Prime) :
    ∃ key1 key2 : Int,
      Elgamal_Product_Rerandomization.sessionKeys (p : Int) = .ok (key1, key2) ∧
      Int.gcd key1 ((p : Int) - 1) = 1 ∧
      (key1 + 27 ≤ (p : Int) - 2 → Int.gcd key2 ((p : Int) - 1) = 1) ∧
      ((p : Int) - 2 < key1 + 27 → key2 = key1 + 27) := by
  have hp2 : (2 : Int) ≤ (p : Int) := by exact_mod_cast hp.two_le
  obtain ⟨h1a, h1b⟩ := Elgamal_Product_Rerandomization.keyScan_spec 13 (p : Int) hp2 (by norm_num)
  have hkey1 : ∃ key1 : Int, Elgamal_Product_Rerandomization.keyScan 13 (p : Int) = .ok key1 ∧
      13 ≤ key1 ∧ Int.gcd key1 ((p : Int) - 1) = 1 := by
    by_cases hle : (13 : Int) ≤ (p : Int) - 2
    · obtain ⟨k, hk, hk1, -, hk3⟩ := h1a hle
      exact ⟨k, hk, hk1, hk3⟩
    · refine ⟨13, h1b (by omega), le_rfl, ?_⟩
      -- here 1 ≤ p - 1 < 13 and 13 is prime
      have h14 : p ≠ 14 := by
        rintro rfl
        norm_num at hp
      have h14' : (p : Int) ≠ 14 := by exact_mod_cast h14
      have hlt : (p : Int) - 1 < 13 := by omega
      have hpos : (0 : Int) < (p : Int) - 1 := by omega
      have h1p : 1 ≤ p := hp.one_lt.le
      have hcast : (p : Int) - 1 = ((p - 1 : Nat) : Int) := by
        rw [Nat.cast_sub h1p]; simp
      rw [hcast] at hlt hpos ⊢
      have hlt' : p - 1 < 13 := by exact_mod_cast hlt
      have hpos' : 0 < p - 1 := by exact_mod_cast hpos
      have h13 : Nat.Prime 13 := by norm_num
      have : Nat.Coprime 13 (p - 1) := by
        rw [Nat.Prime.coprime_iff_not_dvd h13]
        intro hd
        have := Nat.le_of_dvd hpos' hd
        omega
      simpa [Int.gcd] using this
  obtain ⟨key1, hk1, hk1ge, hk1c⟩ := hkey1
  obtain ⟨h2a, h2b⟩ := Elgamal_Product_Rerandomization.keyScan_spec (key1 + 27) (p : Int) hp2
    (by omega)
  by_cases hle : key1 + 27 ≤ (p : Int) - 2
  · obtain ⟨k2, hk2, -, -, hk2c⟩ := h2a hle
    refine ⟨key1, k2, ?_, hk1c, fun _ => hk2c, fun h => by omega⟩
    simp only [Elgamal_Product_Rerandomization.sessionKeys, hk1, hk2]
  · have hk2 := h2b (by omega)
    refine ⟨key1, key1 + 27, ?_, hk1c, fun h => by omega, fun _ => rfl⟩
    simp only [Elgamal_Product_Rerandomization.sessionKeys, hk1, hk2]

/-- C27: for the prime p = 17 the scans end with key1 = 13 and key2 = 40, and
gcd(40, 16) = 8: the second scan starts above p - 2, its loop is not entered, and no test
follows the loop. -/
theorem rerandomization_key2_not_coprime :
    Nat.Prime 17 ∧ Elgamal_Product_Rerandomization.sessionKeys 17 = .ok (13, 40) ∧
      SecurityLab.gcd 40 (17 - 1) = 8 ∧ Int.gcd 40 (17 - 1) ≠ 1 := by
  refine ⟨by norm_num, by decide, by decide, by decide⟩

/-! ## RSA: equivalent private exponents -/

/-- Specification of `modInverse` for a coprime argument of any size, also above the
modulus. -/
theorem modInverse_spec_of_coprime (a m : Int) (hm : 1 < m) (ha0 : 0 ≤ a)
    (hg : Int.gcd a m = 1) :
    ∃ x, modInverse a m = .ok x ∧ 0 ≤ x ∧ x ≤ m - 1 ∧ (a * x) % m = 1 := by
  obtain ⟨A, rfl⟩ := Int.eq_ofNat_of_zero_le ha0
  obtain ⟨M, rfl⟩ := Int.eq_ofNat_of_zero_le (by omega : (0 : Int) ≤ m)
  have hgn : Nat.gcd A M = 1 := by simpa [Int.gcd] using hg
  have hM1 : 1 < M := by exact_mod_cast hm
  have hA1 : 1 ≤ A := by
    rcases Nat.eq_zero_or_pos A with h | h
    · subst h
      simp at hgn
      omega
    · exact h
  obtain ⟨r, hr, hl, hu, hinv⟩ := modInverseLoop_coprime (A : Int) (M : Int) (M + 1) A M 1 0
    (by omega) hA1 hgn (by simp) (by simp [Int.ModEq]) (Or.inl ⟨by norm_num, le_rfl, by simp⟩)
    (by omega) (by omega)
  have hne : ¬ ((M : Int) = 1) := by omega
  have hval : modInverse (A : Int) (M : Int) = .ok (if r < 0 then r + (M : Int) else r) := by
    simp only [modInverse, if_neg hne, Int.natAbs_ofNat, hr]
  refine ⟨_, hval, ?_, ?_, ?_⟩
  · split <;> omega
  · split <;> omega
  · have h2 : (if r < 0 then r + (M : Int) else r) ≡ r [ZMOD (M : Int)] := by
      split
      · exact Int.add_modEq_right
      · exact Int.ModEq.refl _
    have h1 : (A : Int) * (if r < 0 then r + (M : Int) else r) ≡ 1 [ZMOD (M : Int)] :=
      ((Int.ModEq.mul_left _ h2).trans (by rw [mul_comm])).trans hinv
    rw [h1]
    exact Int.emod_eq_of_lt (by norm_num) (by omega)

/-- Decryption with an inverse `b1` of `e` modulo `phi` and with `b1 + phi`. -/
theorem rsa_two_exponents (p q : Nat) (hp : p.Prime) (hq : q.Prime) (hpq : p ≠ q)
    (e m : Int) (he : 0 ≤ e)
    (hcop : Int.gcd e (((p : Int) - 1) * ((q : Int) - 1)) = 1)
    (hm : 0 ≤ m ∧ m < (p : Int) * (q : Int)) :
    ∃ b1 : Int, modInverse e (((p : Int) - 1) * ((q : Int) - 1)) = .ok b1 ∧
      power (power m e ((p : Int) * (q : Int))) b1 ((p : Int) * (q : Int)) = m ∧
      power (power m e ((p : Int) * (q : Int))) (b1 + ((p : Int) - 1) * ((q : Int) - 1))
        ((p : Int) * (q : Int)) = m := by
  obtain ⟨-, hphi2⟩ := phi_even_of_distinct_primes p q hp hq hpq
  obtain ⟨b1, hb1, hb0, -, hone⟩ :=
    modInverse_spec_of_coprime e _ (by omega) he hcop
  refine ⟨b1, hb1, ?_, ?_⟩
  · exact rsa_inverse_exponents p q hp hq hpq e b1 m he hb0 hone hm.1 hm.2
  · apply rsa_inverse_exponents p q hp hq hpq e _ m he (by omega) _ hm.1 hm.2
    rw [mul_add, Int.add_mul_emod_self]
    exact hone

/-- The program of Rsa_signature_plaintext_attack.cpp prints the message twice: for
distinct primes its scan ends at a coprime exponent and both decryptions return `m`. -/
theorem Rsa_signature_plaintext_attack.decryptTwice_spec (p q : Nat) (hp : p.Prime)
    (hq : q.Prime) (hpq : p ≠ q) (m : Int) (hm : 0 ≤ m ∧ m < (p : Int) * (q : Int)) :
    Rsa_signature_plaintext_attack.decryptTwice (p : Int) (q : Int) m = .ok (m, m) := by
  obtain ⟨hev, hphi2⟩ := phi_even_of_distinct_primes p q hp hq hpq
  obtain ⟨j, hj, hmin, hb, -⟩ := exists_first_coprime 13 _ (by decide) (by decide) hev hphi2
  have hcond : ∀ e : Int, 0 ≤ e →
      (decide (gcd e (((p : Int) - 1) * ((q : Int) - 1)) ≠ 1) = true ↔
        Int.gcd e (((p : Int) - 1) * ((q : Int) - 1)) ≠ 1) := by
    intro e he
    have h := gcd_eq_one_iff e (((p : Int) - 1) * ((q : Int) - 1)) he (by omega)
    simp [h]
  have hsc := scanLoop_of_first
    (fun e => decide (gcd e (((p : Int) - 1) * ((q : Int) - 1)) ≠ 1)) 2 j
    ((13 * (((p : Int) - 1) * ((q : Int) - 1))).toNat + 1) 13 (by omega)
    (fun i hi => (hcond _ (by omega)).mpr (hmin i hi))
    (by
      have := (hcond (13 + 2 * (j : Int)) (by omega)).not.mpr (fun h => h hj)
      simpa using this)
  obtain ⟨b1, hb1, h1, h2⟩ :=
    rsa_two_exponents p q hp hq hpq (13 + 2 * (j : Int)) m (by omega) hj hm
  simp only [Rsa_signature_plaintext_attack.decryptTwice, Rsa_signature_plaintext_attack.findE,
    hsc, hb1, h1, h2]

/-! ## `power` on 64-bit machine integers -/

/-- A product in `[0, 2^63)` is not changed by the 64-bit wrap-around. -/
theorem wrap64_of_range (x : Int) (h0 : 0 ≤ x) (h1 : x < 2 ^ 63) : wrap64 x = x := by
  unfold wrap64
  have e63 : (2 : Int) ^ 63 = 9223372036854775808 := by norm_num
  have e64 : (2 : Int) ^ 64 = 18446744073709551616 := by norm_num
  rw [e63] at h1 ⊢
  rw [e64]
  omega

/-- The product of two residues of a modulus of at most 3037000500 fits in 63 bits. -/
theorem mul_lt_two_pow_63 (x y : Int) (hx : 0 ≤ x ∧ x ≤ 3037000499)
    (hy : 0 ≤ y ∧ y ≤ 3037000499) : 0 ≤ x * y ∧ x * y < 2 ^ 63 := by
  have e63 : (2 : Int) ^ 63 = 9223372036854775808 := by norm_num
  rw [e63]
  refine ⟨mul_nonneg hx.1 hy.1, ?_⟩
  have h1 : x * y ≤ 3037000499 * 3037000499 := mul_le_mul hx.2 hy.2 hy.1 (by norm_num)
  have h2 : (3037000499 : Int) * 3037000499 < 9223372036854775808 := by norm_num
  omega

/-- Invariant of the machine loop: with both operands in `[0, 3037000499]` every product
stays in `[0, 2^63)`, so the machine loop returns what the exact loop returns. -/
theorem powerLoop64_spec (m : Int) (hm : 1 ≤ m ∧ m ≤ 3037000500) :
    ∀ (fuel : Nat) (res a b : Int) (products : List Int),
      (0 ≤ res ∧ res ≤ 3037000499) → (0 ≤ a ∧ a ≤ 3037000499) →
      (∀ x ∈ products, 0 ≤ x ∧ x < 2 ^ 63) →
      (powerLoop64 fuel res a b m products).1 = powerLoop fuel res a b m ∧
        ∀ x ∈ (powerLoop64 fuel res a b m products).2, 0 ≤ x ∧ x < 2 ^ 63 := by
  intro fuel
  induction fuel with
  | zero =>
    intro res a b products _ _ hpr
    exact ⟨rfl, hpr⟩
  | succ fuel ih =>
    intro res a b products hres ha hpr
    by_cases hb : 0 < b
    · have hra := mul_lt_two_pow_63 res a hres ha
      have haa := mul_lt_two_pow_63 a a ha ha
      have hres' : 0 ≤ (if b % 2 = 1 then (wrap64 (res * a)).tmod m else res) ∧
          (if b % 2 = 1 then (wrap64 (res * a)).tmod m else res) ≤ 3037000499 := by
        split
        · rw [wrap64_of_range _ hra.1 hra.2]
          have h1 := Int.tmod_nonneg m hra.1
          have h2 := Int.tmod_lt_of_pos (res * a) (by omega : 0 < m)
          omega
        · exact hres
      have ha' : 0 ≤ (wrap64 (a * a)).tmod m ∧ (wrap64 (a * a)).tmod m ≤ 3037000499 := by
        rw [wrap64_of_range _ haa.1 haa.2]
        have h1 := Int.tmod_nonneg m haa.1
        have h2 := Int.tmod_lt_of_pos (a * a) (by omega : 0 < m)
        omega
      have hpr' : ∀ x ∈ (if b % 2 = 1 then products ++ [res * a, a * a]
          else products ++ [a * a]), 0 ≤ x ∧ x < 2 ^ 63 := by
        intro x hx
        split at hx
        · simp only [List.mem_append, List.mem_cons, List.mem_singleton, List.not_mem_nil,
            or_false] at hx
          rcases hx with h | h | h
          · exact hpr x h
          · rw [h]; exact hra
          · rw [h]; exact haa
        · simp only [List.mem_append, List.mem_singleton] at hx
          rcases hx with h | h
          · exact hpr x h
          · rw [h]; exact haa
      have h := ih _ _ (b / 2) _ hres' ha' hpr'
      simp only [powerLoop64, powerLoop, if_pos hb]
      rw [wrap64_of_range _ hra.1 hra.2, wrap64_of_range _ haa.1 haa.2] at h
      rw [wrap64_of_range _ hra.1 hra.2, wrap64_of_range _ haa.1 haa.2]
      exact h
    · simp only [powerLoop64, powerLoop, if_neg hb]
      exact ⟨trivial, hpr⟩

/-- C29: with 64-bit signed wrap-around arithmetic, for every modulus m with
1 ≤ m ≤ 3037000500, every base a with 0 ≤ a < 2^63 and every exponent b ≥ 0, each
intermediate product in power(a, b, m) lies in [0, 2^63), so the machine result equals the
exact result, which is a^b mod m for m ≥ 2. -/
theorem power64_exact (a b m : Int) (hm : 1 ≤ m ∧ m ≤ 3037000500)
    (ha : 0 ≤ a ∧ a < 2 ^ 63) (hb : 0 ≤ b) :
    (∀ x ∈ (power64 a b m).2, 0 ≤ x ∧ x < 2 ^ 63) ∧
      (power64 a b m).1 = power a b m ∧
      (2 ≤ m → (power64 a b m).1 = a ^ b.toNat % m) := by
  have h1 := Int.tmod_nonneg m ha.1
  have h2 := Int.tmod_lt_of_pos a (by omega : 0 < m)
  obtain ⟨hval, hprod⟩ := powerLoop64_spec m hm b.toNat 1 (a.tmod m) b []
    ⟨by norm_num, by norm_num⟩ ⟨h1, by omega⟩ (fun x hx => by simp at hx)
  refine ⟨hprod, hval, fun hm2 => ?_⟩
  have : (power64 a b m).1 = power a b m := hval
  rw [this]
  exact power_eq_pow_emod a b m ha.1 hb hm2

/-- C29 (witness): the largest admitted modulus with a base near 2^63. -/
theorem power64_exact_witness :
    ((1 : Int) ≤ 3037000500 ∧ (3037000500 : Int) ≤ 3037000500) ∧
      ((0 : Int) ≤ 9223372036854775807 ∧ (9223372036854775807 : Int) < 2 ^ 63) ∧
      (0 : Int) ≤ 5 ∧
      (∀ x ∈ (power64 9223372036854775807 5 3037000500).2, 0 ≤ x ∧ x < 2 ^ 63) ∧
      (power64 9223372036854775807 5 3037000500).1 = power 9223372036854775807 5 3037000500 :=
  ⟨by decide, by norm_num, by decide,
    (power64_exact 9223372036854775807 5 3037000500 (by decide) (by norm_num) (by decide)).1,
    (power64_exact 9223372036854775807 5 3037000500 (by decide) (by norm_num) (by decide)).2.1⟩

/-! ## Elliptic curve: `findBasePoint` -/

/-- The test of `findBasePoint` is the curve equation modulo `p`. -/
theorem Elliptic_curve_encryption.findBasePoint_test_iff (c : Elliptic_curve_encryption.Curve)
    (hp : 0 < c.p) (x y : Int) (hx : 0 ≤ x) :
    Elliptic_curve_encryption.mod (y * y) c.p =
        Elliptic_curve_encryption.mod (((x * x).tmod c.p * x).tmod c.p + c.a * x + c.b) c.p ↔
      (y * y) % c.p = (x * x * x + c.a * x + c.b) % c.p := by
  rw [Elliptic_curve_encryption.mod_eq_emod _ _ hp, Elliptic_curve_encryption.mod_eq_emod _ _ hp]
  have h1 : (x * x).tmod c.p ≡ x * x [ZMOD c.p] := tmod_modEq _ _ (mul_nonneg hx hx) hp
  have h0 : 0 ≤ (x * x).tmod c.p * x := mul_nonneg (Int.tmod_nonneg _ (mul_nonneg hx hx)) hx
  have h2 : ((x * x).tmod c.p * x).tmod c.p ≡ x * x * x [ZMOD c.p] :=
    (tmod_modEq _ _ h0 hp).trans (h1.mul_right x)
  have h3 : (((x * x).tmod c.p * x).tmod c.p + c.a * x + c.b) % c.p
      = (x * x * x + c.a * x + c.b) % c.p := (h2.add_right (c.a * x)).add_right c.b
  rw [h3]

/-- The inner loop returns the first `y` at or after its start that passes the test. -/
theorem Elliptic_curve_encryption.findY_spec (c : Elliptic_curve_encryption.Curve)
    (x rhs : Int) :
    ∀ (fuel : Nat) (y : Int), c.p ≤ y + fuel →
      (∃ y1, Elliptic_curve_encryption.findY c x rhs fuel y = some (.affine x y1) ∧
          y ≤ y1 ∧ y1 < c.p ∧ Elliptic_curve_encryption.mod (y1 * y1) c.p = rhs ∧
          ∀ y2, y ≤ y2 → y2 < y1 → Elliptic_curve_encryption.mod (y2 * y2) c.p ≠ rhs) ∨
      (Elliptic_curve_encryption.findY c x rhs fuel y = none ∧
        ∀ y2, y ≤ y2 → y2 < c.p → Elliptic_curve_encryption.mod (y2 * y2) c.p ≠ rhs) := by
  intro fuel
  induction fuel with
  | zero =>
    intro y hf
    right
    refine ⟨rfl, fun y2 h1 h2 => ?_⟩
    simp only [Nat.cast_zero, add_zero] at hf
    omega
  | succ fuel ih =>
    intro y hf
    by_cases hy : y < c.p
    · by_cases ht : Elliptic_curve_encryption.mod (y * y) c.p = rhs
      · left
        refine ⟨y, ?_, le_rfl, hy, ht, fun y2 h1 h2 => by omega⟩
        simp only [Elliptic_curve_encryption.findY, if_pos hy, if_pos ht]
      · have hstep : Elliptic_curve_encryption.findY c x rhs (fuel + 1) y
            = Elliptic_curve_encryption.findY c x rhs fuel (y + 1) := by
          simp only [Elliptic_curve_encryption.findY, if_pos hy, if_neg ht]
        rw [hstep]
        rcases ih (y + 1) (by push_cast at hf; omega) with ⟨y1, h1, h2, h3, h4, h5⟩ | ⟨h1, h2⟩
        · left
          refine ⟨y1, h1, by omega, h3, h4, fun y2 h6 h7 => ?_⟩
          rcases eq_or_lt_of_le h6 with h | h
          · rw [← h]; exact ht
          · exact h5 y2 (by omega) h7
        · right
          refine ⟨h1, fun y2 h6 h7 => ?_⟩
          rcases eq_or_lt_of_le h6 with h | h
          · rw [← h]; exact ht
          · exact h2 y2 (by omega) h7
    · right
      refine ⟨?_, fun y2 h1 h2 => by omega⟩
      simp only [Elliptic_curve_encryption.findY, if_neg hy]

/-- The outer loop returns the first solution in scan order at or after its start column,
or the point at infinity when there is none. -/
theorem Elliptic_curve_encryption.findX_spec (c : Elliptic_curve_encryption.Curve)
    (hp : 0 < c.p) :
    ∀ (fuel : Nat) (x : Int), 0 ≤ x → c.p ≤ x + fuel →
      (∃ x1 y1, Elliptic_curve_encryption.findX c fuel x = .affine x1 y1 ∧
          (x ≤ x1 ∧ x1 < c.p) ∧ (0 ≤ y1 ∧ y1 < c.p) ∧
          (y1 * y1) % c.p = (x1 * x1 * x1 + c.a * x1 + c.b) % c.p ∧
          ∀ x2 y2, x ≤ x2 → x2 < c.p → 0 ≤ y2 → y2 < c.p →
            (y2 * y2) % c.p = (x2 * x2 * x2 + c.a * x2 + c.b) % c.p →
            x1 < x2 ∨ (x1 = x2 ∧ y1 ≤ y2)) ∨
      (Elliptic_curve_encryption.findX c fuel x = .infinity ∧
        ∀ x2 y2, x ≤ x2 → x2 < c.p → 0 ≤ y2 → y2 < c.p →
          (y2 * y2) % c.p ≠ (x2 * x2 * x2 + c.a * x2 + c.b) % c.p) := by
  intro fuel
  induction fuel with
  | zero =>
    intro x _ hf
    right
    refine ⟨rfl, fun x2 y2 h1 h2 => ?_⟩
    simp only [Nat.cast_zero, add_zero] at hf
    omega
  | succ fuel ih =>
    intro x hx hf
    by_cases hxp : x < c.p
    · have hfy : c.p ≤ (0 : Int) + (c.p.toNat : Int) := by
        rw [Int.toNat_of_nonneg hp.le]; omega
      rcases Elliptic_curve_encryption.findY_spec c x
          (Elliptic_curve_encryption.mod (((x * x).tmod c.p * x).tmod c.p + c.a * x + c.b) c.p)
          c.p.toNat 0 hfy with ⟨y1, h1, h2, h3, h4, h5⟩ | ⟨h1, h2⟩
      · left
        refine ⟨x, y1, ?_, ⟨le_rfl, hxp⟩, ⟨h2, h3⟩,
          (Elliptic_curve_encryption.findBasePoint_test_iff c hp x y1 hx).mp h4, ?_⟩
        · simp only [Elliptic_curve_encryption.findX, if_pos hxp, h1]
        · intro x2 y2 hx2 _ hy2 _ hsol
          rcases eq_or_lt_of_le hx2 with h | h
          · right
            refine ⟨h, ?_⟩
            by_contra hlt
            rw [← h] at hsol
            exact h5 y2 hy2 (by omega)
              ((Elliptic_curve_encryption.findBasePoint_test_iff c hp x y2 hx).mpr hsol)
          · left
            exact h
      · have hstep : Elliptic_curve_encryption.findX c (fuel + 1) x
            = Elliptic_curve_encryption.findX c fuel (x + 1) := by
          simp only [Elliptic_curve_encryption.findX, if_pos hxp, h1]
        have hcol : ∀ y2, 0 ≤ y2 → y2 < c.p →
            (y2 * y2) % c.p ≠ (x * x * x + c.a * x + c.b) % c.p := fun y2 h6 h7 hsol =>
          h2 y2 h6 h7 ((Elliptic_curve_encryption.findBasePoint_test_iff c hp x y2 hx).mpr hsol)
        rw [hstep]
        rcases ih (x + 1) (by omega) (by push_cast at hf; omega) with
          ⟨x1, y1, g1, g2, g3, g4, g5⟩ | ⟨g1, g2⟩
        · left
          refine ⟨x1, y1, g1, ⟨by omega, g2.2⟩, g3, g4, fun x2 y2 hx2 hx2p hy2 hy2p hsol => ?_⟩
          rcases eq_or_lt_of_le hx2 with h | h
          · rw [← h] at hsol
            exact absurd hsol (hcol y2 hy2 hy2p)
          · exact g5 x2 y2 (by omega) hx2p hy2 hy2p hsol
        · right
          refine ⟨g1, fun x2 y2 hx2 hx2p hy2 hy2p => ?_⟩
          rcases eq_or_lt_of_le hx2 with h | h
          · rw [← h]
            exact hcol y2 hy2 hy2p
          · exact g2 x2 y2 (by omega) hx2p hy2 hy2p
    · right
      refine ⟨?_, fun x2 y2 h1 h2 => by omega⟩
      simp only [Elliptic_curve_encryption.findX, if_neg hxp]

/-- Over unbounded integers: for every p ≥ 1 and all integers a, b, findBasePoint()
returns a non-identity point exactly when some (x, y) with 0 ≤ x, y ≤ p-1 satisfies y² ≡
x³ + a·x + b (mod p); the returned point then has coordinates in range, satisfies the
equation and is the first solution in scan order (smallest x, then smallest y); otherwise
it returns the identity. -/
theorem findBasePoint_correct (p a b : Int) (hp : 1 ≤ p) :
    (Elliptic_curve_encryption.findBasePoint ⟨p, a, b⟩ ≠ .infinity ↔
      ∃ x y, (0 ≤ x ∧ x < p) ∧ (0 ≤ y ∧ y < p) ∧
        (y * y) % p = (x * x * x + a * x + b) % p) ∧
    (∀ x y, Elliptic_curve_encryption.findBasePoint ⟨p, a, b⟩ = .affine x y →
      (0 ≤ x ∧ x < p) ∧ (0 ≤ y ∧ y < p) ∧ (y * y) % p = (x * x * x + a * x + b) % p ∧
      ∀ x2 y2, 0 ≤ x2 → x2 < p → 0 ≤ y2 → y2 < p →
        (y2 * y2) % p = (x2 * x2 * x2 + a * x2 + b) % p → x < x2 ∨ (x = x2 ∧ y ≤ y2)) ∧
    ((¬ ∃ x y, (0 ≤ x ∧ x < p) ∧ (0 ≤ y ∧ y < p) ∧
        (y * y) % p = (x * x * x + a * x + b) % p) →
      Elliptic_curve_encryption.findBasePoint ⟨p, a, b⟩ = .infinity) := by
  have hfuel : p ≤ (0 : Int) + (p.toNat : Int) := by
    rw [Int.toNat_of_nonneg (by omega)]; omega
  have hspec := Elliptic_curve_encryption.findX_spec ⟨p, a, b⟩ (by show 0 < p; omega)
    p.toNat 0 le_rfl hfuel
  simp only [Elliptic_curve_encryption.findBasePoint]
  rcases hspec with ⟨x1, y1, g1, g2, g3, g4, g5⟩ | ⟨g1, g2⟩
  · rw [g1]
    refine ⟨⟨fun _ => ⟨x1, y1, g2, g3, g4⟩, fun _ => by simp⟩, ?_, ?_⟩
    · intro x y hxy
      injection hxy with hx hy
      subst hx
      subst hy
      exact ⟨g2, g3, g4, g5⟩
    · intro hno
      exact absurd ⟨x1, y1, g2, g3, g4⟩ hno
  · rw [g1]
    refine ⟨⟨fun h => absurd rfl h, ?_⟩, ?_, fun _ => rfl⟩
    · rintro ⟨x, y, hx, hy, hsol⟩
      exact absurd hsol (g2 x y hx.1 hx.2 hy.1 hy.2)
    · intro x y hxy
      exact absurd hxy (by simp)

/-! ## Elliptic curve: the group law -/

/-- The residue of `mod x p` in `ZMod p` is the residue of `x`. -/
theorem Elliptic_curve_encryption.cast_mod (p : Nat) (hp : 0 < p) (x : Int) :
    ((Elliptic_curve_encryption.mod x (p : Int) : Int) : ZMod p) = (x : ZMod p) := by
  rw [Elliptic_curve_encryption.mod_eq_emod _ _ (by exact_mod_cast hp)]
  exact ZMod.intCast_mod x p

/-- For a positive modulus `mod` returns a value in `[0, p)`. -/
theorem Elliptic_curve_encryption.mod_range (p : Nat) (hp : 0 < p) (x : Int) :
    0 ≤ Elliptic_curve_encryption.mod x (p : Int) ∧
      Elliptic_curve_encryption.mod x (p : Int) < (p : Int) := by
  have hp0 : (0 : Int) < (p : Int) := by exact_mod_cast hp
  rw [Elliptic_curve_encryption.mod_eq_emod _ _ hp0]
  exact ⟨Int.emod_nonneg _ hp0.ne', Int.emod_lt_of_pos _ hp0⟩

/-- Two integers of `[0, p)` with the same residue are equal. -/
theorem Elliptic_curve_encryption.eq_of_cast_eq (p : Nat) (x y : Int)
    (hx : 0 ≤ x ∧ x < (p : Int)) (hy : 0 ≤ y ∧ y < (p : Int))
    (h : (x : ZMod p) = (y : ZMod p)) : x = y := by
  have h1 := (ZMod.intCast_eq_intCast_iff x y p).mp h
  have h2 : x % (p : Int) = y % (p : Int) := h1
  rw [Int.emod_eq_of_lt hx.1 hx.2, Int.emod_eq_of_lt hy.1 hy.2] at h2
  exact h2

/-- The curve equation over `ZMod p` is the congruence tested on integers. -/
theorem Elliptic_curve_encryption.equation_iff_emod (p : Nat) (a b x y : Int) :
    (Elliptic_curve_encryption.weierstrass p a b).Equation (x : ZMod p) (y : ZMod p) ↔
      (y * y) % (p : Int) = (x * x * x + a * x + b) % (p : Int) := by
  rw [WeierstrassCurve.Affine.equation_iff]
  simp only [Elliptic_curve_encryption.weierstrass]
  have h : (y * y) % (p : Int) = (x * x * x + a * x + b) % (p : Int) ↔
      ((y * y : Int) : ZMod p) = ((x * x * x + a * x + b : Int) : ZMod p) :=
    (ZMod.intCast_eq_intCast_iff _ _ p).symm
  rw [h]
  push_cast
  constructor
  · intro h1
    linear_combination h1
  · intro h1
    linear_combination h1

/-- The discriminant of the curve is `-16 (4a³ + 27b²)`. -/
theorem Elliptic_curve_encryption.weierstrass_discriminant (p : Nat) (a b : Int) :
    (Elliptic_curve_encryption.weierstrass p a b).Δ
      = -16 * (((4 * a ^ 3 + 27 * b ^ 2 : Int)) : ZMod p) := by
  simp only [Elliptic_curve_encryption.weierstrass, WeierstrassCurve.Δ, WeierstrassCurve.b₂,
    WeierstrassCurve.b₄, WeierstrassCurve.b₆, WeierstrassCurve.b₈]
  push_cast
  ring

/-- For an odd prime `p` the discriminant is non-zero when `4a³ + 27b²` is not divisible
by `p`. -/
theorem Elliptic_curve_encryption.weierstrass_discriminant_ne_zero (p : Nat) [Fact p.Prime]
    (hodd : p ≠ 2) (a b : Int) (hns : (4 * a ^ 3 + 27 * b ^ 2) % (p : Int) ≠ 0) :
    (Elliptic_curve_encryption.weierstrass p a b).Δ ≠ 0 := by
  rw [Elliptic_curve_encryption.weierstrass_discriminant]
  have h2 : ((2 : Nat) : ZMod p) ≠ 0 := by
    intro h
    have hd := (ZMod.natCast_zmod_eq_zero_iff_dvd 2 p).mp h
    have hp := (Fact.out : p.Prime)
    have := (Nat.prime_dvd_prime_iff_eq hp Nat.prime_two).mp hd
    exact hodd this
  have h16 : (-16 : ZMod p) ≠ 0 := by
    have : (-16 : ZMod p) = -(((2 : Nat) : ZMod p) ^ 4) := by push_cast; norm_num
    rw [this]
    exact neg_ne_zero.mpr (pow_ne_zero 4 h2)
  refine mul_ne_zero h16 ?_
  intro h
  exact hns (Int.emod_eq_zero_of_dvd ((ZMod.intCast_zmod_eq_zero_iff_dvd _ p).mp h))

/-- In `ZMod p` for an odd prime `p`, twice a non-zero residue is not zero. -/
theorem Elliptic_curve_encryption.two_mul_cast_ne_zero (p : Nat) [Fact p.Prime]
    (hodd : p ≠ 2) (y : Int) (hy : 1 ≤ y ∧ y < (p : Int)) : (2 : ZMod p) * (y : ZMod p) ≠ 0 := by
  have h2 : (2 : ZMod p) ≠ 0 := by
    intro h
    have h' : ((2 : Nat) : ZMod p) = 0 := by exact_mod_cast h
    have hd := (ZMod.natCast_zmod_eq_zero_iff_dvd 2 p).mp h'
    exact hodd ((Nat.prime_dvd_prime_iff_eq (Fact.out : p.Prime) Nat.prime_two).mp hd)
  exact mul_ne_zero h2 (zmod_cast_ne_zero p y hy)

/-- The value returned by `modInverse` modulo a prime on a residue of `[1, p)` is the
inverse in the field `ZMod p`. -/
theorem Elliptic_curve_encryption.modInverse_cast (p : Nat) [Fact p.Prime] (d : Int)
    (hd : 0 ≤ d ∧ d < (p : Int)) (hne : (d : ZMod p) ≠ 0) :
    ∃ v : Int, modInverse d (p : Int) = .ok v ∧ (v : ZMod p) = (d : ZMod p)⁻¹ := by
  obtain ⟨v, hv, hinv⟩ := modInverse_prime_ok p (Fact.out : p.Prime) d hd
  refine ⟨v, hv, ?_⟩
  have h1 : 1 ≤ d := by
    rcases eq_or_lt_of_le hd.1 with h | h
    · rw [← h] at hne
      simp at hne
    · omega
  have h2 : ((d * v : Int) : ZMod p) = ((1 : Int) : ZMod p) := by
    rw [ZMod.intCast_eq_intCast_iff]
    have hp2 : (2 : Int) ≤ (p : Int) := by exact_mod_cast (Fact.out : p.Prime).two_le
    show (d * v) % (p : Int) = 1 % (p : Int)
    rw [hinv h1, Int.emod_eq_of_lt (by norm_num) (by omega)]
  push_cast at h2
  exact eq_inv_of_mul_eq_one_right h2

/-- On two affine points with coordinates in `[0, p)` that the program does not treat as
an inverse pair, `add` modulo an odd prime returns the affine point whose residues are
given by the slope formulas of the group law. -/
theorem Elliptic_curve_encryption.add_affine_spec (p : Nat) [Fact p.Prime] (hodd : p ≠ 2)
    (a b x1 y1 x2 y2 : Int) (hx1 : 0 ≤ x1 ∧ x1 < (p : Int)) (hy1 : 0 ≤ y1 ∧ y1 < (p : Int))
    (hx2 : 0 ≤ x2 ∧ x2 < (p : Int)) (hy2 : 0 ≤ y2 ∧ y2 < (p : Int))
    (hnot : ¬ (x1 = x2 ∧ (y1 ≠ y2 ∨ y1 = 0))) :
    ((x1 : ZMod p) = (x2 : ZMod p) →
      (y1 : ZMod p) ≠ (Elliptic_curve_encryption.weierstrass p a b).negY x2 y2) ∧
    ∃ x3 y3 : Int,
      Elliptic_curve_encryption.add ⟨(p : Int), a, b⟩ (.affine x1 y1) (.affine x2 y2)
        = .ok (.affine x3 y3) ∧
      (0 ≤ x3 ∧ x3 < (p : Int)) ∧ (0 ≤ y3 ∧ y3 < (p : Int)) ∧
      (x3 : ZMod p) = (Elliptic_curve_encryption.weierstrass p a b).addX x1 x2
        ((Elliptic_curve_encryption.weierstrass p a b).slope x1 x2 y1 y2) ∧
      (y3 : ZMod p) = (Elliptic_curve_encryption.weierstrass p a b).addY x1 x2 y1
        ((Elliptic_curve_encryption.weierstrass p a b).slope x1 x2 y1 y2) := by
  have hp : 0 < p := (Fact.out : p.Prime).pos
  by_cases hx : x1 = x2
  · -- doubling
    have hy : y1 = y2 := by
      by_contra h
      exact hnot ⟨hx, Or.inl h⟩
    have hy0 : y1 ≠ 0 := fun h => hnot ⟨hx, Or.inr h⟩
    subst hx
    subst hy
    have h2y := Elliptic_curve_encryption.two_mul_cast_ne_zero p hodd y1 ⟨by omega, hy1.2⟩
    have hneg : (y1 : ZMod p) ≠ (Elliptic_curve_encryption.weierstrass p a b).negY x1 y1 := by
      intro h
      apply h2y
      simp only [WeierstrassCurve.Affine.negY, Elliptic_curve_encryption.weierstrass] at h
      linear_combination h
    refine ⟨fun _ => hneg, ?_⟩
    obtain ⟨v, hv, hvinv⟩ := Elliptic_curve_encryption.modInverse_cast p
      (Elliptic_curve_encryption.mod (2 * y1) (p : Int))
      (Elliptic_curve_encryption.mod_range p hp _)
      (by rw [Elliptic_curve_encryption.cast_mod p hp]; push_cast; exact h2y)
    rw [Elliptic_curve_encryption.cast_mod p hp] at hvinv
    push_cast at hvinv
    have hadd : Elliptic_curve_encryption.add ⟨(p : Int), a, b⟩ (.affine x1 y1) (.affine x1 y1)
        = .ok (.affine
          (Elliptic_curve_encryption.mod
            (Elliptic_curve_encryption.mod
                (Elliptic_curve_encryption.mod (3 * x1 * x1 + a) (p : Int) * v) (p : Int) *
              Elliptic_curve_encryption.mod
                (Elliptic_curve_encryption.mod (3 * x1 * x1 + a) (p : Int) * v) (p : Int)
              - x1 - x1) (p : Int))
          (Elliptic_curve_encryption.mod
            (Elliptic_curve_encryption.mod
                (Elliptic_curve_encryption.mod (3 * x1 * x1 + a) (p : Int) * v) (p : Int) *
              (x1 - Elliptic_curve_encryption.mod
                (Elliptic_curve_encryption.mod
                    (Elliptic_curve_encryption.mod (3 * x1 * x1 + a) (p : Int) * v) (p : Int) *
                  Elliptic_curve_encryption.mod
                    (Elliptic_curve_encryption.mod (3 * x1 * x1 + a) (p : Int) * v) (p : Int)
                  - x1 - x1) (p : Int)) - y1) (p : Int))) := by
      simp [Elliptic_curve_encryption.add, hy0, hv]
    have hslope : (Elliptic_curve_encryption.weierstrass p a b).slope x1 x1 y1 y1
        = (3 * (x1 : ZMod p) * x1 + a) * (2 * (y1 : ZMod p))⁻¹ := by
      rw [WeierstrassCurve.Affine.slope_of_Y_ne rfl hneg]
      simp only [WeierstrassCurve.Affine.negY, Elliptic_curve_encryption.weierstrass]
      have hden : (y1 : ZMod p) - (-(y1 : ZMod p) - 0 * (x1 : ZMod p) - 0) = 2 * (y1 : ZMod p) := by
        ring
      rw [hden, div_eq_mul_inv]
      ring
    refine ⟨_, _, hadd, Elliptic_curve_encryption.mod_range p hp _,
      Elliptic_curve_encryption.mod_range p hp _, ?_, ?_⟩
    · rw [hslope]
      simp only [Elliptic_curve_encryption.cast_mod p hp, Int.cast_sub, Int.cast_mul,
        Int.cast_add, Int.cast_ofNat, hvinv, WeierstrassCurve.Affine.addX,
        Elliptic_curve_encryption.weierstrass]
      ring
    · rw [hslope]
      simp only [Elliptic_curve_encryption.cast_mod p hp, Int.cast_sub, Int.cast_mul,
        Int.cast_add, Int.cast_ofNat, hvinv, WeierstrassCurve.Affine.addY,
        WeierstrassCurve.Affine.negAddY, WeierstrassCurve.Affine.addX,
        WeierstrassCurve.Affine.negY, Elliptic_curve_encryption.weierstrass]
      ring
  · -- chord
    have hxz : (x1 : ZMod p) ≠ (x2 : ZMod p) := fun h =>
      hx (Elliptic_curve_encryption.eq_of_cast_eq p x1 x2 hx1 hx2 h)
    refine ⟨fun h => absurd h hxz, ?_⟩
    have hdz : ((x2 - x1 : Int) : ZMod p) ≠ 0 := by
      push_cast
      exact sub_ne_zero.mpr (Ne.symm hxz)
    obtain ⟨v, hv, hvinv⟩ := Elliptic_curve_encryption.modInverse_cast p
      (Elliptic_curve_encryption.mod (x2 - x1) (p : Int))
      (Elliptic_curve_encryption.mod_range p hp _)
      (by rw [Elliptic_curve_encryption.cast_mod p hp]; exact hdz)
    rw [Elliptic_curve_encryption.cast_mod p hp] at hvinv
    push_cast at hvinv
    have hadd := Elliptic_curve_encryption.add_chord ⟨(p : Int), a, b⟩ x1 y1 x2 y2 v hx hv
    have hd1 : (x1 : ZMod p) - (x2 : ZMod p) ≠ 0 := sub_ne_zero.mpr hxz
    have hd2 : (x2 : ZMod p) - (x1 : ZMod p) ≠ 0 := sub_ne_zero.mpr (Ne.symm hxz)
    refine ⟨_, _, hadd, Elliptic_curve_encryption.mod_range p hp _,
      Elliptic_curve_encryption.mod_range p hp _, ?_, ?_⟩
    · rw [WeierstrassCurve.Affine.slope_of_X_ne hxz]
      simp only [Elliptic_curve_encryption.cast_mod p hp, Int.cast_sub, Int.cast_mul,
        Int.cast_add, hvinv, WeierstrassCurve.Affine.addX,
        Elliptic_curve_encryption.weierstrass]
      field_simp
      ring
    · rw [WeierstrassCurve.Affine.slope_of_X_ne hxz]
      simp only [Elliptic_curve_encryption.cast_mod p hp, Int.cast_sub, Int.cast_mul,
        Int.cast_add, hvinv, WeierstrassCurve.Affine.addY,
        WeierstrassCurve.Affine.negAddY, WeierstrassCurve.Affine.addX,
        WeierstrassCurve.Affine.negY, Elliptic_curve_encryption.weierstrass]
      field_simp
      ring

/-- Over unbounded integers: closure of the group law. For every odd prime p, all a, b,
and all non-identity points P = (x1, y1), Q = (x2, y2) with coordinates in [0, p-1]
satisfying y² ≡ x³ + a·x + b (mod p), add(P, Q) is either the identity or a point with
coordinates in [0, p-1] that satisfies the same curve equation. -/
theorem ec_add_closed (p : Nat) (hp : p.Prime) (hodd : p ≠ 2) (a b x1 y1 x2 y2 : Int)
    (hx1 : 0 ≤ x1 ∧ x1 < (p : Int)) (hy1 : 0 ≤ y1 ∧ y1 < (p : Int))
    (hx2 : 0 ≤ x2 ∧ x2 < (p : Int)) (hy2 : 0 ≤ y2 ∧ y2 < (p : Int))
    (hP : (y1 * y1) % (p : Int) = (x1 * x1 * x1 + a * x1 + b) % (p : Int))
    (hQ : (y2 * y2) % (p : Int) = (x2 * x2 * x2 + a * x2 + b) % (p : Int)) :
    Elliptic_curve_encryption.add ⟨(p : Int), a, b⟩ (.affine x1 y1) (.affine x2 y2)
        = .ok .infinity ∨
      ∃ x3 y3 : Int,
        Elliptic_curve_encryption.add ⟨(p : Int), a, b⟩ (.affine x1 y1) (.affine x2 y2)
          = .ok (.affine x3 y3) ∧
        (0 ≤ x3 ∧ x3 < (p : Int)) ∧ (0 ≤ y3 ∧ y3 < (p : Int)) ∧
        (y3 * y3) % (p : Int) = (x3 * x3 * x3 + a * x3 + b) % (p : Int) := by
  haveI : Fact p.Prime := ⟨hp⟩
  by_cases hinv : x1 = x2 ∧ (y1 ≠ y2 ∨ y1 = 0)
  · left
    simp only [Elliptic_curve_encryption.add, if_pos hinv]
  · right
    obtain ⟨hxy, x3, y3, hadd, hx3, hy3, hcx, hcy⟩ :=
      Elliptic_curve_encryption.add_affine_spec p hodd a b x1 y1 x2 y2 hx1 hy1 hx2 hy2 hinv
    refine ⟨x3, y3, hadd, hx3, hy3, ?_⟩
    have h1 := (Elliptic_curve_encryption.equation_iff_emod p a b x1 y1).mpr hP
    have h2 := (Elliptic_curve_encryption.equation_iff_emod p a b x2 y2).mpr hQ
    have h3 := WeierstrassCurve.Affine.equation_add h1 h2 hxy
    rw [← hcx, ← hcy] at h3
    exact (Elliptic_curve_encryption.equation_iff_emod p a b x3 y3).mp h3

/-! ## Elliptic curve: program points and the group of the curve -/

/-- Every point that satisfies the data-model invariant stands for a point of the group,
when the curve is non-singular. -/
theorem Elliptic_curve_encryption.represents_of_onCurve (p : Nat) [Fact p.Prime]
    (hodd : p ≠ 2) (a b : Int) (hns : (4 * a ^ 3 + 27 * b ^ 2) % (p : Int) ≠ 0)
    (P : Elliptic_curve_encryption.Point)
    (hP : Elliptic_curve_encryption.onCurve ⟨(p : Int), a, b⟩ P) :
    ∃ Q, Elliptic_curve_encryption.Represents p a b P Q := by
  cases P with
  | infinity => exact ⟨0, rfl⟩
  | affine x y =>
    obtain ⟨hx, hy, heq⟩ := hP
    have h1 := (Elliptic_curve_encryption.equation_iff_emod p a b x y).mpr heq
    have h2 := WeierstrassCurve.Affine.nonsingular_of_Δ_ne_zero _ h1
      (Elliptic_curve_encryption.weierstrass_discriminant_ne_zero p hodd a b hns)
    exact ⟨.some h2, hx, hy, h2, rfl⟩

/-- A point that stands for a point of the group satisfies the data-model invariant. -/
theorem Elliptic_curve_encryption.onCurve_of_represents (p : Nat) (a b : Int)
    (P : Elliptic_curve_encryption.Point) (Q : (Elliptic_curve_encryption.weierstrass p a b).Point)
    (h : Elliptic_curve_encryption.Represents p a b P Q) :
    Elliptic_curve_encryption.onCurve ⟨(p : Int), a, b⟩ P := by
  cases P with
  | infinity => trivial
  | affine x y =>
    obtain ⟨hx, hy, hn, -⟩ := h
    exact ⟨hx, hy, (Elliptic_curve_encryption.equation_iff_emod p a b x y).mp hn.1⟩

/-- A point of the group is represented by at most one program point. -/
theorem Elliptic_curve_encryption.represents_inj (p : Nat) (a b : Int)
    (P1 P2 : Elliptic_curve_encryption.Point)
    (Q : (Elliptic_curve_encryption.weierstrass p a b).Point)
    (h1 : Elliptic_curve_encryption.Represents p a b P1 Q)
    (h2 : Elliptic_curve_encryption.Represents p a b P2 Q) : P1 = P2 := by
  cases P1 with
  | infinity =>
    cases P2 with
    | infinity => rfl
    | affine x2 y2 =>
      obtain ⟨-, -, hn, hq⟩ := h2
      have h0 : Q = 0 := h1
      rw [h0] at hq
      exact absurd hq.symm (WeierstrassCurve.Affine.Point.some_ne_zero hn)
  | affine x1 y1 =>
    cases P2 with
    | infinity =>
      obtain ⟨-, -, hn, hq⟩ := h1
      have h0 : Q = 0 := h2
      rw [h0] at hq
      exact absurd hq.symm (WeierstrassCurve.Affine.Point.some_ne_zero hn)
    | affine x2 y2 =>
      obtain ⟨hx1, hy1, hn1, hq1⟩ := h1
      obtain ⟨hx2, hy2, hn2, hq2⟩ := h2
      rw [hq1] at hq2
      injection hq2 with hx hy
      rw [Elliptic_curve_encryption.eq_of_cast_eq p x1 x2 hx1 hx2 hx,
        Elliptic_curve_encryption.eq_of_cast_eq p y1 y2 hy1 hy2 hy]

/-- Function `add` computes the sum of the group: on points that stand for `Q1` and `Q2`
it returns a point that stands for `Q1 + Q2`. -/
theorem Elliptic_curve_encryption.represents_add (p : Nat) [Fact p.Prime] (hodd : p ≠ 2)
    (a b : Int) (P1 P2 : Elliptic_curve_encryption.Point)
    (Q1 Q2 : (Elliptic_curve_encryption.weierstrass p a b).Point)
    (h1 : Elliptic_curve_encryption.Represents p a b P1 Q1)
    (h2 : Elliptic_curve_encryption.Represents p a b P2 Q2) :
    ∃ R, Elliptic_curve_encryption.add ⟨(p : Int), a, b⟩ P1 P2 = .ok R ∧
      Elliptic_curve_encryption.Represents p a b R (Q1 + Q2) := by
  cases P1 with
  | infinity =>
    have h0 : Q1 = 0 := h1
    refine ⟨P2, by cases P2 <;> rfl, ?_⟩
    rw [h0, zero_add]
    exact h2
  | affine x1 y1 =>
    cases P2 with
    | infinity =>
      have h0 : Q2 = 0 := h2
      refine ⟨.affine x1 y1, rfl, ?_⟩
      rw [h0, add_zero]
      exact h1
    | affine x2 y2 =>
      obtain ⟨hx1, hy1, hn1, hq1⟩ := h1
      obtain ⟨hx2, hy2, hn2, hq2⟩ := h2
      rw [hq1, hq2]
      by_cases hinv : x1 = x2 ∧ (y1 ≠ y2 ∨ y1 = 0)
      · refine ⟨.infinity, by simp only [Elliptic_curve_encryption.add, if_pos hinv], ?_⟩
        have hx : (x1 : ZMod p) = (x2 : ZMod p) := by rw [hinv.1]
        have hy : (y1 : ZMod p) = (Elliptic_curve_encryption.weierstrass p a b).negY x2 y2 := by
          rcases WeierstrassCurve.Affine.Y_eq_of_X_eq hn1.1 hn2.1 hx with h | h
          · have hyy := Elliptic_curve_encryption.eq_of_cast_eq p y1 y2 hy1 hy2 h
            rcases hinv.2 with h' | h'
            · exact absurd hyy h'
            · rw [← hyy, h']
              simp [Elliptic_curve_encryption.weierstrass]
          · exact h
        exact WeierstrassCurve.Affine.Point.add_of_Y_eq hx hy
      · obtain ⟨hxy, x3, y3, hadd, hx3, hy3, hcx, hcy⟩ :=
          Elliptic_curve_encryption.add_affine_spec p hodd a b x1 y1 x2 y2 hx1 hy1 hx2 hy2 hinv
        refine ⟨.affine x3 y3, hadd, hx3, hy3, ?_⟩
        have key : ∀ X Y : ZMod p,
            X = (Elliptic_curve_encryption.weierstrass p a b).addX x1 x2
              ((Elliptic_curve_encryption.weierstrass p a b).slope x1 x2 y1 y2) →
            Y = (Elliptic_curve_encryption.weierstrass p a b).addY x1 x2 y1
              ((Elliptic_curve_encryption.weierstrass p a b).slope x1 x2 y1 y2) →
            ∃ h : (Elliptic_curve_encryption.weierstrass p a b).Nonsingular X Y,
              WeierstrassCurve.Affine.Point.some hn1 + WeierstrassCurve.Affine.Point.some hn2
                = WeierstrassCurve.Affine.Point.some h := by
          intro X Y hX hY
          subst hX
          subst hY
          exact ⟨WeierstrassCurve.Affine.nonsingular_add hn1 hn2 hxy,
            WeierstrassCurve.Affine.Point.add_of_imp hxy⟩
        exact key _ _ hcx hcy

/-- The negation step of `main` computes the negative of the group. -/
theorem Elliptic_curve_encryption.represents_negate (p : Nat) [Fact p.Prime]
    (a b : Int) (P : Elliptic_curve_encryption.Point)
    (Q : (Elliptic_curve_encryption.weierstrass p a b).Point)
    (h : Elliptic_curve_encryption.Represents p a b P Q) :
    Elliptic_curve_encryption.Represents p a b
      (Elliptic_curve_encryption.negate ⟨(p : Int), a, b⟩ P) (-Q) := by
  have hp : 0 < p := (Fact.out : p.Prime).pos
  cases P with
  | infinity =>
    have h0 : Q = 0 := h
    rw [h0]
    exact neg_zero
  | affine x y =>
    obtain ⟨hx, hy, hn, hq⟩ := h
    rw [hq]
    refine ⟨hx, Elliptic_curve_encryption.mod_range p hp _, ?_⟩
    have key : ∀ Y : ZMod p,
        Y = (Elliptic_curve_encryption.weierstrass p a b).negY x y →
        ∃ h : (Elliptic_curve_encryption.weierstrass p a b).Nonsingular (x : ZMod p) Y,
          -WeierstrassCurve.Affine.Point.some hn = WeierstrassCurve.Affine.Point.some h := by
      intro Y hY
      subst hY
      exact ⟨WeierstrassCurve.Affine.nonsingular_neg hn, rfl⟩
    apply key
    rw [Elliptic_curve_encryption.cast_mod p hp]
    simp [Elliptic_curve_encryption.weierstrass]

/-- The k-fold sum of the specification stands for `k • Q`. -/
theorem Elliptic_curve_encryption.represents_repeatedAdd (p : Nat) [Fact p.Prime]
    (hodd : p ≠ 2) (a b : Int) (P : Elliptic_curve_encryption.Point)
    (Q : (Elliptic_curve_encryption.weierstrass p a b).Point)
    (h : Elliptic_curve_encryption.Represents p a b P Q) (k : Nat) :
    ∃ R, Elliptic_curve_encryption.repeatedAdd ⟨(p : Int), a, b⟩ P k = .ok R ∧
      Elliptic_curve_encryption.Represents p a b R (k • Q) := by
  induction k with
  | zero =>
    refine ⟨.infinity, rfl, ?_⟩
    rw [zero_nsmul]
    rfl
  | succ k ih =>
    obtain ⟨R, hR, hrep⟩ := ih
    obtain ⟨R2, hR2, hrep2⟩ :=
      Elliptic_curve_encryption.represents_add p hodd a b R P _ _ hrep h
    refine ⟨R2, ?_, ?_⟩
    · simp only [Elliptic_curve_encryption.repeatedAdd, hR, hR2]
    · rw [succ_nsmul]
      exact hrep2

/-- Invariant of the loop of `multiply`: with `R` standing for `QR` and `P` for `QP`, the
loop with at least `n` rounds of fuel returns a point that stands for `QR + n • QP`. -/
theorem Elliptic_curve_encryption.represents_multiplyLoop (p : Nat) [Fact p.Prime]
    (hodd : p ≠ 2) (a b : Int) :
    ∀ (fuel n : Nat) (R P : Elliptic_curve_encryption.Point)
      (QR QP : (Elliptic_curve_encryption.weierstrass p a b).Point), n ≤ fuel →
      Elliptic_curve_encryption.Represents p a b R QR →
      Elliptic_curve_encryption.Represents p a b P QP →
      ∃ R2, Elliptic_curve_encryption.multiplyLoop ⟨(p : Int), a, b⟩ fuel R P (n : Int)
          = .ok R2 ∧
        Elliptic_curve_encryption.Represents p a b R2 (QR + n • QP) := by
  intro fuel
  induction fuel with
  | zero =>
    intro n R P QR QP hn hR _
    have h0 : n = 0 := by omega
    subst h0
    refine ⟨R, rfl, ?_⟩
    rw [zero_nsmul, add_zero]
    exact hR
  | succ fuel ih =>
    intro n R P QR QP hn hR hP
    by_cases hpos : 0 < n
    · have hk : (0 : Int) < (n : Int) := by exact_mod_cast hpos
      have hdiv : (n : Int) / 2 = ((n / 2 : Nat) : Int) := by norm_cast
      obtain ⟨P1, hP1, hrepP1⟩ :=
        Elliptic_curve_encryption.represents_add p hodd a b P P QP QP hP hP
      have hsplit : n • QP = (n % 2) • QP + (n / 2) • (QP + QP) := by
        rw [← two_nsmul, smul_smul, ← add_nsmul]
        congr 1
        omega
      by_cases hodd2 : (n : Int) % 2 = 1
      · obtain ⟨R1, hR1, hrepR1⟩ :=
          Elliptic_curve_encryption.represents_add p hodd a b R P QR QP hR hP
        obtain ⟨R2, hR2, hrepR2⟩ := ih (n / 2) R1 P1 _ _ (by omega) hrepR1 hrepP1
        refine ⟨R2, ?_, ?_⟩
        · simp only [Elliptic_curve_encryption.multiplyLoop, if_pos hk, if_pos hodd2, hR1, hP1,
            hdiv, hR2]
        · have hm : n % 2 = 1 := by omega
          rw [hsplit, hm, one_nsmul, ← add_assoc]
          exact hrepR2
      · obtain ⟨R2, hR2, hrepR2⟩ := ih (n / 2) R P1 _ _ (by omega) hR hrepP1
        refine ⟨R2, ?_, ?_⟩
        · simp only [Elliptic_curve_encryption.multiplyLoop, if_pos hk, if_neg hodd2, hP1,
            hdiv, hR2]
        · have hm : n % 2 = 0 := by omega
          rw [hsplit, hm, zero_nsmul, zero_add]
          exact hrepR2
    · have h0 : n = 0 := by omega
      subst h0
      refine ⟨R, ?_, ?_⟩
      · simp [Elliptic_curve_encryption.multiplyLoop]
      · rw [zero_nsmul, add_zero]
        exact hR

/-- Function `multiply` computes the scalar multiple of the group for every `k ≥ 0`. -/
theorem Elliptic_curve_encryption.represents_multiply (p : Nat) [Fact p.Prime]
    (hodd : p ≠ 2) (a b : Int) (P : Elliptic_curve_encryption.Point)
    (Q : (Elliptic_curve_encryption.weierstrass p a b).Point)
    (h : Elliptic_curve_encryption.Represents p a b P Q) (k : Int) (hk : 0 ≤ k) :
    ∃ R, Elliptic_curve_encryption.multiply ⟨(p : Int), a, b⟩ P k = .ok R ∧
      Elliptic_curve_encryption.Represents p a b R (k.toNat • Q) := by
  obtain ⟨n, rfl⟩ := Int.eq_ofNat_of_zero_le hk
  obtain ⟨R, hR, hrep⟩ := Elliptic_curve_encryption.represents_multiplyLoop p hodd a b n n
    .infinity P 0 Q le_rfl rfl h
  refine ⟨R, ?_, ?_⟩
  · simp only [Elliptic_curve_encryption.multiply, Int.toNat_ofNat]
    exact hR
  · rw [Int.toNat_ofNat]
    rw [zero_add] at hrep
    exact hrep

/-- Double-and-add and the k-fold sum return the same point, which stands for `k • Q`. -/
theorem Elliptic_curve_encryption.multiply_repeatedAdd (p : Nat) [Fact p.Prime]
    (hodd : p ≠ 2) (a b : Int) (P : Elliptic_curve_encryption.Point)
    (Q : (Elliptic_curve_encryption.weierstrass p a b).Point)
    (h : Elliptic_curve_encryption.Represents p a b P Q) (k : Int) (hk : 0 ≤ k) :
    ∃ R, Elliptic_curve_encryption.multiply ⟨(p : Int), a, b⟩ P k = .ok R ∧
      Elliptic_curve_encryption.repeatedAdd ⟨(p : Int), a, b⟩ P k.toNat = .ok R ∧
      Elliptic_curve_encryption.Represents p a b R (k.toNat • Q) := by
  obtain ⟨R1, h1, hr1⟩ := Elliptic_curve_encryption.represents_multiply p hodd a b P Q h k hk
  obtain ⟨R2, h2, hr2⟩ :=
    Elliptic_curve_encryption.represents_repeatedAdd p hodd a b P Q h k.toNat
  have heq := Elliptic_curve_encryption.represents_inj p a b R1 R2 _ hr1 hr2
  subst heq
  exact ⟨R1, h1, h2, hr1⟩

/-! ## Machine integers: wrap-around, `power` and prime moduli -/

/-- A value of the 64-bit range is not changed by the wrap-around. -/
theorem wrap64_of_bounds (x : Int) (h0 : -2 ^ 63 ≤ x) (h1 : x < 2 ^ 63) : wrap64 x = x := by
  unfold wrap64
  have e63 : (2 : Int) ^ 63 = 9223372036854775808 := by norm_num
  have e64 : (2 : Int) ^ 64 = 18446744073709551616 := by norm_num
  rw [e63] at h0 h1 ⊢
  rw [e64]
  omega

/-- The product of two residues of a modulus of at most 3037000500 is not wrapped. -/
theorem wrap64_mul_residues (m x y : Int) (hm : m ≤ 3037000500) (hx : 0 ≤ x ∧ x < m)
    (hy : 0 ≤ y ∧ y < m) : wrap64 (x * y) = x * y := by
  obtain ⟨h0, h1⟩ := mul_lt_two_pow_63 x y ⟨hx.1, by omega⟩ ⟨hy.1, by omega⟩
  exact wrap64_of_range _ h0 h1

/-- For a modulus of at most 3037000500 and a non-negative base the machine `power`
returns the value of the exact `power`. -/
theorem power64_fst_eq (a b m : Int) (hm : 1 ≤ m ∧ m ≤ 3037000500) (ha : 0 ≤ a) :
    (power64 a b m).1 = power a b m := by
  have h1 := Int.tmod_nonneg m ha
  have h2 := Int.tmod_lt_of_pos a (by omega : 0 < m)
  exact (powerLoop64_spec m hm b.toNat 1 (a.tmod m) b []
    ⟨by norm_num, by norm_num⟩ ⟨h1, by omega⟩ (fun x hx => by simp at hx)).1

/-- The residue of `power a b m` in `ZMod m` is the power of the residue of `a`. -/
theorem cast_power_natCast (m : Nat) (hm : 2 ≤ m) (a b : Nat) :
    ((power (a : Int) (b : Int) (m : Int) : Int) : ZMod m) = (a : ZMod m) ^ b := by
  rw [power_eq_pow_emod (a : Int) (b : Int) (m : Int) (Int.natCast_nonneg a)
    (Int.natCast_nonneg b) (by exact_mod_cast hm), Int.toNat_natCast, ZMod.intCast_mod]
  push_cast
  rfl

/-- Lucas test run with `power`: `p` is prime when `a ^ (p - 1)` is 1 and
`a ^ ((p - 1) / q)` is not 1 modulo `p` for every prime `q` dividing `p - 1`. -/
theorem prime_of_power_test (p a : Nat) (fs : List Nat) (hp : 2 ≤ p)
    (h1 : power (a : Int) ((p - 1 : Nat) : Int) (p : Int) = 1)
    (hfs : ∀ q : Nat, q.Prime → q ∣ p - 1 → q ∈ fs)
    (hne : ∀ q ∈ fs, power (a : Int) (((p - 1) / q : Nat) : Int) (p : Int) ≠ 1) :
    p.Prime := by
  apply lucas_primality p (a : ZMod p)
  · rw [← cast_power_natCast p hp a (p - 1), h1]
    simp
  · intro q hq hd hpow
    apply hne q (hfs q hq hd)
    rw [← cast_power_natCast p hp a ((p - 1) / q)] at hpow
    have hr := power_nonneg_lt (a : Int) (((p - 1) / q : Nat) : Int) (p : Int)
      (Int.natCast_nonneg a) (Int.natCast_nonneg _) (by exact_mod_cast hp)
    have h1' : ((1 : Int) : ZMod p) = 1 := by simp
    rw [← h1'] at hpow
    exact Elliptic_curve_encryption.eq_of_cast_eq p _ 1 hr ⟨by norm_num, by exact_mod_cast hp⟩ hpow

/-- A prime that divides a product with a prime first factor is that factor or divides
the rest. -/
theorem prime_dvd_mul_cases (q a b : Nat) (hq : q.Prime) (ha : a.Prime) (h : q ∣ a * b) :
    q = a ∨ q ∣ b := by
  rcases hq.dvd_mul.mp h with h1 | h1
  · exact Or.inl ((Nat.prime_dvd_prime_iff_eq hq ha).mp h1)
  · exact Or.inr h1

/-- The modulus 10000000019 of the overflow examples is prime. -/
theorem prime_10000000019 : Nat.Prime 10000000019 := by
  apply prime_of_power_test 10000000019 2 [2, 131, 521, 73259] (by norm_num) (by decide)
  · intro q hq hd
    have e : 10000000019 - 1 = 2 * (131 * (521 * 73259)) := by norm_num
    rw [e] at hd
    rcases prime_dvd_mul_cases q _ _ hq Nat.prime_two hd with h | hd
    · simp [h]
    rcases prime_dvd_mul_cases q _ _ hq (by norm_num) hd with h | hd
    · simp [h]
    rcases prime_dvd_mul_cases q _ _ hq (by norm_num) hd with h | hd
    · simp [h]
    have := (Nat.prime_dvd_prime_iff_eq hq (by norm_num : Nat.Prime 73259)).mp hd
    simp [this]
  · decide

/-- The second modulus 922339331 of the key-generation overflow example is prime. -/
theorem prime_922339331 : Nat.Prime 922339331 := by
  apply prime_of_power_test 922339331 2 [2, 5, 11, 23, 37, 59, 167] (by norm_num) (by decide)
  · intro q hq hd
    have e : 922339331 - 1 = 2 * (5 * (11 * (23 * (37 * (59 * 167))))) := by norm_num
    rw [e] at hd
    rcases prime_dvd_mul_cases q _ _ hq Nat.prime_two hd with h | hd
    · simp [h]
    rcases prime_dvd_mul_cases q _ _ hq (by norm_num) hd with h | hd
    · simp [h]
    rcases prime_dvd_mul_cases q _ _ hq (by norm_num) hd with h | hd
    · simp [h]
    rcases prime_dvd_mul_cases q _ _ hq (by norm_num) hd with h | hd
    · simp [h]
    rcases prime_dvd_mul_cases q _ _ hq (by norm_num) hd with h | hd
    · simp [h]
    rcases prime_dvd_mul_cases q _ _ hq (by norm_num) hd with h | hd
    · simp [h]
    have := (Nat.prime_dvd_prime_iff_eq hq (by norm_num : Nat.Prime 167)).mp hd
    simp [this]
  · decide

theorem prime_100003 : Nat.Prime 100003 := by norm_num

theorem prime_100019 : Nat.Prime 100019 := by norm_num

/-! ## RSA on machine integers -/

/-- For positive factors with `p * q < 2^63` neither `n = p * q` nor
`phi = (p - 1) * (q - 1)` is wrapped. -/
theorem wrap64_modulus_phi (p q : Int) (hp : 1 ≤ p) (hq : 1 ≤ q) (hn : p * q < 2 ^ 63) :
    wrap64 (p * q) = p * q ∧ wrap64 ((p - 1) * (q - 1)) = (p - 1) * (q - 1) := by
  have h0 : 0 ≤ p * q := mul_nonneg (by omega) (by omega)
  have h1 : 0 ≤ (p - 1) * (q - 1) := mul_nonneg (by omega) (by omega)
  have h2 : (p - 1) * (q - 1) = p * q - p - q + 1 := by ring
  refine ⟨wrap64_of_range _ h0 hn, wrap64_of_range _ h1 ?_⟩
  rw [h2]
  omega

/-- Key generation of RSA_encryption.cpp on machine integers agrees with exact
arithmetic while `p * q < 2^63`. -/
theorem RSA_encryption.keygen64_eq (p q : Int) (hp : 1 ≤ p) (hq : 1 ≤ q)
    (hn : p * q < 2 ^ 63) : RSA_encryption.keygen64 p q = RSA_encryption.keygen p q := by
  obtain ⟨h1, h2⟩ := wrap64_modulus_phi p q hp hq hn
  simp only [RSA_encryption.keygen64, RSA_encryption.keygen, h1, h2]

/-- Key generation of RSA_Product.cpp on machine integers agrees with exact arithmetic
while `p * q < 2^63`. -/
theorem RSA_Product.productKeygen64_eq (p q : Int) (hp : 1 ≤ p) (hq : 1 ≤ q)
    (hn : p * q < 2 ^ 63) : RSA_Product.keygen64 p q = RSA_Product.keygen p q := by
  obtain ⟨h1, h2⟩ := wrap64_modulus_phi p q hp hq hn
  simp only [RSA_Product.keygen64, RSA_Product.keygen, h1, h2]

/-- Two nested calls of the machine `power` modulo `n ≤ 3037000500` are the two calls of
the exact `power`. -/
theorem power64_nested_eq (M e d n : Int) (hn : 2 ≤ n ∧ n ≤ 3037000500) (hM : 0 ≤ M)
    (he : 0 ≤ e) : (power64 (power64 M e n).1 d n).1 = power (power M e n) d n := by
  rw [power64_fst_eq M e n ⟨by omega, hn.2⟩ hM]
  exact power64_fst_eq _ d n ⟨by omega, hn.2⟩ (power_nonneg_lt M e n hM he hn.1).1

set_option maxRecDepth 100000 in
/-- C5 (counterexample): for the primes p = 100003, q = 100019 the key generation
succeeds with n = 10002200057, e = 5, d = 8001600029, and the message M = 5 encrypts to
3125 and decrypts to -1809890389: the products inside `power` leave the 64-bit range. -/
theorem overflow_rsa_round_trip :
    Nat.Prime 100003 ∧ Nat.Prime 100019 ∧
      RSA_encryption.keygen64 100003 100019 = .ok (10002200057, 5, 8001600029) ∧
      ((0 : Int) ≤ 5 ∧ (5 : Int) < 10002200057) ∧
      (power64 5 5 10002200057).1 = 3125 ∧
      (power64 (power64 5 5 10002200057).1 8001600029 10002200057).1 = -1809890389 :=
  ⟨prime_100003, prime_100019, by decide, by decide, by decide, by decide⟩

/-- C5 (amended): RSA round trip on machine integers. For all distinct primes p, q with
n = p*q ≤ 3037000500 for which the key generation of RSA_encryption.cpp succeeds with
(n, e, d), and every M with 0 ≤ M < n, power(power(M, e, n), d, n) = M; M need not be
coprime to n. -/
theorem machine_rsa_round_trip (p q : Nat) (hp : p.Prime) (hq : q.Prime) (hpq : p ≠ q)
    (hsize : (p : Int) * (q : Int) ≤ 3037000500) (n e d M : Int)
    (hk : RSA_encryption.keygen64 (p : Int) (q : Int) = .ok (n, e, d))
    (hM0 : 0 ≤ M) (hMn : M < n) :
    (power64 (power64 M e n).1 d n).1 = M := by
  have hp1 : (1 : Int) ≤ (p : Int) := by exact_mod_cast hp.one_lt.le
  have hq1 : (1 : Int) ≤ (q : Int) := by exact_mod_cast hq.one_lt.le
  have h63 : (p : Int) * (q : Int) < 2 ^ 63 := by
    have e63 : (2 : Int) ^ 63 = 9223372036854775808 := by norm_num
    rw [e63]; omega
  have hn2' : (2 : Int) ≤ (p : Int) * (q : Int) := by
    have h1 : (2 : Int) ≤ (p : Int) := by exact_mod_cast hp.two_le
    have h2 : (2 : Int) ≤ (q : Int) := by exact_mod_cast hq.two_le
    nlinarith
  rw [RSA_encryption.keygen64_eq _ _ hp1 hq1 h63] at hk
  obtain ⟨hn, he3, -, -, hd0, -, hed⟩ := RSA_encryption.keygen_ok _ _ _ _ _ hk
  subst hn
  rw [power64_nested_eq M e d _ ⟨hn2', hsize⟩ hM0 (by omega)]
  exact rsa_inverse_exponents p q hp hq hpq e d M (by omega) hd0 hed hM0 hMn

/-- C5 (witness): p = 3, q = 11 and the message 22, which shares the factor 11 with
n = 33. -/
theorem machine_rsa_round_trip_witness :
    Nat.Prime 3 ∧ Nat.Prime 11 ∧ (3 : Nat) ≠ 11 ∧
      ((3 : Nat) : Int) * ((11 : Nat) : Int) ≤ 3037000500 ∧
      RSA_encryption.keygen64 ((3 : Nat) : Int) ((11 : Nat) : Int) = .ok (33, 3, 7) ∧
      (0 : Int) ≤ 22 ∧ (22 : Int) < 33 ∧ (power64 (power64 22 3 33).1 7 33).1 = 22 :=
  ⟨Nat.prime_three, by norm_num, by decide, by decide, by decide, by decide, by decide,
    machine_rsa_round_trip 3 11 Nat.prime_three (by norm_num) (by decide) (by decide)
      33 3 7 22 (by decide) (by decide) (by decide)⟩

set_option maxRecDepth 100000 in
/-- C7 (counterexample): the key generation of RSA_Product.cpp returns e = 13 for
p = 3, q = 11 although 3 qualifies, and fails for p = 2, q = 5 although 3 qualifies; and
for the primes p = 10000000019, q = 922339331 the product (p-1)(q-1) leaves the 64-bit
range, `phi` is negative and the key generation of RSA_encryption.cpp fails although
e = 3 qualifies. -/
theorem overflow_rsa_keygen :
    (RSA_Product.keygen64 3 11 = .ok (33, 13, 17) ∧ Int.gcd 3 20 = 1 ∧
      RSA_Product.keygen64 2 5 = .error .noValidE ∧ Int.gcd 3 4 = 1) ∧
    (Nat.Prime 10000000019 ∧ Nat.Prime 922339331 ∧
      RSA_encryption.keygen64 10000000019 922339331 = .error .noValidE ∧
      (3 : Int) < (10000000019 - 1) * (922339331 - 1) ∧
      Int.gcd 3 ((10000000019 - 1) * (922339331 - 1)) = 1) :=
  ⟨⟨by decide, by decide, by decide, by decide⟩,
    prime_10000000019, prime_922339331, by decide, by decide, by decide⟩

/-- C7 (amended): for all distinct primes p, q with p*q < 2^63 and phi = (p-1)(q-1), the
key generation of RSA_encryption.cpp and RSA_signature.cpp fails exactly when no e with
3 ≤ e < phi is coprime to phi and otherwise returns n = p*q and the smallest such e; the
key generation of RSA_Product.cpp does the same with 13 in the place of 3. -/
theorem machine_rsa_keygen_search (p q : Nat) (hp : p.Prime) (hq : q.Prime) (hpq : p ≠ q)
    (hsize : (p : Int) * (q : Int) < 2 ^ 63) :
    ((RSA_encryption.keygen64 (p : Int) (q : Int) = .error .noValidE ↔
        ¬ ∃ e : Int, 3 ≤ e ∧ e < ((p : Int) - 1) * ((q : Int) - 1) ∧
          Int.gcd e (((p : Int) - 1) * ((q : Int) - 1)) = 1) ∧
      ((∃ e : Int, 3 ≤ e ∧ e < ((p : Int) - 1) * ((q : Int) - 1) ∧
          Int.gcd e (((p : Int) - 1) * ((q : Int) - 1)) = 1) →
        ∃ e d : Int,
          RSA_encryption.keygen64 (p : Int) (q : Int) = .ok ((p : Int) * (q : Int), e, d) ∧
          3 ≤ e ∧ e < ((p : Int) - 1) * ((q : Int) - 1) ∧
          Int.gcd e (((p : Int) - 1) * ((q : Int) - 1)) = 1 ∧
          ∀ e' : Int, 3 ≤ e' → e' < ((p : Int) - 1) * ((q : Int) - 1) →
            Int.gcd e' (((p : Int) - 1) * ((q : Int) - 1)) = 1 → e ≤ e')) ∧
    ((RSA_Product.keygen64 (p : Int) (q : Int) = .error .noValidE ↔
        ¬ ∃ e : Int, 13 ≤ e ∧ e < ((p : Int) - 1) * ((q : Int) - 1) ∧
          Int.gcd e (((p : Int) - 1) * ((q : Int) - 1)) = 1) ∧
      ((∃ e : Int, 13 ≤ e ∧ e < ((p : Int) - 1) * ((q : Int) - 1) ∧
          Int.gcd e (((p : Int) - 1) * ((q : Int) - 1)) = 1) →
        ∃ e d : Int,
          RSA_Product.keygen64 (p : Int) (q : Int) = .ok ((p : Int) * (q : Int), e, d) ∧
          13 ≤ e ∧ e < ((p : Int) - 1) * ((q : Int) - 1) ∧
          Int.gcd e (((p : Int) - 1) * ((q : Int) - 1)) = 1 ∧
          ∀ e' : Int, 13 ≤ e' → e' < ((p : Int) - 1) * ((q : Int) - 1) →
            Int.gcd e' (((p : Int) - 1) * ((q : Int) - 1)) = 1 → e ≤ e')) := by
  have hp1 : (1 : Int) ≤ (p : Int) := by exact_mod_cast hp.one_lt.le
  have hq1 : (1 : Int) ≤ (q : Int) := by exact_mod_cast hq.one_lt.le
  rw [RSA_encryption.keygen64_eq _ _ hp1 hq1 hsize, RSA_Product.productKeygen64_eq _ _ hp1 hq1 hsize]
  exact rsa_keygen_exponent_search p q hp hq hpq

/-- C7 (witness): p = 3, q = 11, where RSA_encryption.cpp finds e = 3 and RSA_Product.cpp
finds e = 13. -/
theorem machine_rsa_keygen_search_witness :
    Nat.Prime 3 ∧ Nat.Prime 11 ∧ (3 : Nat) ≠ 11 ∧
      ((3 : Nat) : Int) * ((11 : Nat) : Int) < 2 ^ 63 ∧
      RSA_encryption.keygen64 ((3 : Nat) : Int) ((11 : Nat) : Int) = .ok (33, 3, 7) ∧
      RSA_Product.keygen64 ((3 : Nat) : Int) ((11 : Nat) : Int) = .ok (33, 13, 17) ∧
      (RSA_encryption.keygen64 ((3 : Nat) : Int) ((11 : Nat) : Int) = .error .noValidE ↔
        ¬ ∃ e : Int, 3 ≤ e ∧ e < (((3 : Nat) : Int) - 1) * (((11 : Nat) : Int) - 1) ∧
          Int.gcd e ((((3 : Nat) : Int) - 1) * (((11 : Nat) : Int) - 1)) = 1) :=
  ⟨Nat.prime_three, by norm_num, by decide, by norm_num, by decide, by decide,
    (machine_rsa_keygen_search 3 11 Nat.prime_three (by norm_num) (by decide)
      (by norm_num)).1.1⟩

set_option maxRecDepth 100000 in
/-- C8 (counterexample): for the primes p = 100003, q = 100019 with the key
(10002200057, 5, 8001600029) the message M = 9999999999 is signed as S = 5938711426 and
the verification recovers -7833006644, so the signature of M does not verify for M. -/
theorem overflow_rsa_signature :
    Nat.Prime 100003 ∧ Nat.Prime 100019 ∧
      RSA_encryption.keygen64 100003 100019 = .ok (10002200057, 5, 8001600029) ∧
      ((0 : Int) ≤ 9999999999 ∧ (9999999999 : Int) < 10002200057) ∧
      (power64 9999999999 8001600029 10002200057).1 = 5938711426 ∧
      (power64 (power64 9999999999 8001600029 10002200057).1 5 10002200057).1
        = -7833006644 :=
  ⟨prime_100003, prime_100019, by decide, by decide, by decide, by decide⟩

/-- C8 (amended): RSA signature soundness on machine integers. For every key (n, e, d)
generated from distinct primes p, q with n = p*q ≤ 3037000500 and all M, M' in [0, n),
with S = power(M, d, n) the verification power(S, e, n) == M' holds if and only if
M' = M; and for every S' in [0, n) with S' ≠ S, power(S', e, n) ≠ M. -/
theorem machine_rsa_signature_sound (p q : Nat) (hp : p.Prime) (hq : q.Prime) (hpq : p ≠ q)
    (hsize : (p : Int) * (q : Int) ≤ 3037000500) (n e d M M' S' : Int)
    (hk : RSA_encryption.keygen64 (p : Int) (q : Int) = .ok (n, e, d))
    (hM : 0 ≤ M ∧ M < n) (hM' : 0 ≤ M' ∧ M' < n) (hS' : 0 ≤ S' ∧ S' < n) :
    ((power64 (power64 M d n).1 e n).1 = M' ↔ M' = M) ∧
      (S' ≠ (power64 M d n).1 → (power64 S' e n).1 ≠ M) := by
  have hp1 : (1 : Int) ≤ (p : Int) := by exact_mod_cast hp.one_lt.le
  have hq1 : (1 : Int) ≤ (q : Int) := by exact_mod_cast hq.one_lt.le
  have h63 : (p : Int) * (q : Int) < 2 ^ 63 := by
    have e63 : (2 : Int) ^ 63 = 9223372036854775808 := by norm_num
    rw [e63]; omega
  have hn2' : (2 : Int) ≤ (p : Int) * (q : Int) := by
    have h1 : (2 : Int) ≤ (p : Int) := by exact_mod_cast hp.two_le
    have h2 : (2 : Int) ≤ (q : Int) := by exact_mod_cast hq.two_le
    nlinarith
  rw [RSA_encryption.keygen64_eq _ _ hp1 hq1 h63] at hk
  obtain ⟨hn, he3, -, -, hd0, -, -⟩ := RSA_encryption.keygen_ok _ _ _ _ _ hk
  have hn2 : 2 ≤ n ∧ n ≤ 3037000500 := by
    rw [hn]; exact ⟨hn2', hsize⟩
  rw [power64_nested_eq M d e n hn2 hM.1 hd0, power64_fst_eq M d n ⟨by omega, hn2.2⟩ hM.1,
    power64_fst_eq S' e n ⟨by omega, hn2.2⟩ hS'.1]
  exact rsa_signature_sound p q hp hq hpq n e d M M' S' hk hM hM' hS'

/-- C8 (witness): p = 3, q = 11, key (33, 3, 7), M = 5, M' = 6 and S' = 15. -/
theorem machine_rsa_signature_sound_witness :
    Nat.Prime 3 ∧ Nat.Prime 11 ∧ (3 : Nat) ≠ 11 ∧
      ((3 : Nat) : Int) * ((11 : Nat) : Int) ≤ 3037000500 ∧
      RSA_encryption.keygen64 ((3 : Nat) : Int) ((11 : Nat) : Int) = .ok (33, 3, 7) ∧
      (((power64 (power64 5 7 33).1 3 33).1 = 6 ↔ (6 : Int) = 5) ∧
        ((15 : Int) ≠ (power64 5 7 33).1 → (power64 15 3 33).1 ≠ 5)) :=
  ⟨Nat.prime_three, by norm_num, by decide, by decide, by decide,
    machine_rsa_signature_sound 3 11 Nat.prime_three (by norm_num) (by decide) (by decide)
      33 3 7 5 6 15 (by decide) (by decide) (by decide) (by decide)⟩

set_option maxRecDepth 100000 in
/-- C9 (counterexample): for n = 10002200057, e = 5, m1 = 9999999999, m2 = 9999999998 the
encryption of the product is -7729374935 and the product of the encryptions is
-962174617: `m1 * m2` and the products inside `power` leave the 64-bit range. -/
theorem overflow_rsa_mul_homomorphism :
    (2 : Int) ≤ 10002200057 ∧ (0 : Int) ≤ 5 ∧
      ((0 : Int) ≤ 9999999999 ∧ (9999999999 : Int) < 10002200057) ∧
      ((0 : Int) ≤ 9999999998 ∧ (9999999998 : Int) < 10002200057) ∧
      RSA_Product.encryptProduct64 10002200057 5 9999999999 9999999998 = -7729374935 ∧
      RSA_Product.productOfEncryptions64 10002200057 5 9999999999 9999999998 = -962174617 := by
  decide

/-- C9 (amended): RSA multiplicative homomorphism on machine integers. For every n with
2 ≤ n ≤ 3037000500, e ≥ 0 and all m1, m2 in [0, n),
power((m1*m2) % n, e, n) = (power(m1, e, n) * power(m2, e, n)) % n. -/
theorem machine_rsa_mul_homomorphism (n e m1 m2 : Int) (hn : 2 ≤ n ∧ n ≤ 3037000500)
    (he : 0 ≤ e) (h1 : 0 ≤ m1 ∧ m1 < n) (h2 : 0 ≤ m2 ∧ m2 < n) :
    RSA_Product.encryptProduct64 n e m1 m2 = RSA_Product.productOfEncryptions64 n e m1 m2 := by
  have hm : 1 ≤ n ∧ n ≤ 3037000500 := ⟨by omega, hn.2⟩
  have hprod : 0 ≤ m1 * m2 := mul_nonneg h1.1 h2.1
  have hr1 := power_nonneg_lt m1 e n h1.1 he hn.1
  have hr2 := power_nonneg_lt m2 e n h2.1 he hn.1
  simp only [RSA_Product.encryptProduct64, RSA_Product.productOfEncryptions64]
  rw [wrap64_mul_residues n m1 m2 hn.2 h1 h2,
    power64_fst_eq _ e n hm (Int.tmod_nonneg _ hprod),
    power64_fst_eq m1 e n hm h1.1, power64_fst_eq m2 e n hm h2.1,
    wrap64_mul_residues n _ _ hn.2 hr1 hr2,
    Int.tmod_eq_emod (mul_nonneg hr1.1 hr2.1) (by omega)]
  exact rsa_mul_homomorphism n e m1 m2 hn.1 he h1 h2

/-- C9 (witness): n = 33, e = 13, m1 = 5, m2 = 10. -/
theorem machine_rsa_mul_homomorphism_witness :
    ((2 : Int) ≤ 33 ∧ (33 : Int) ≤ 3037000500) ∧ (0 : Int) ≤ 13 ∧
      ((0 : Int) ≤ 5 ∧ (5 : Int) < 33) ∧ ((0 : Int) ≤ 10 ∧ (10 : Int) < 33) ∧
      RSA_Product.encryptProduct64 33 13 5 10 = RSA_Product.productOfEncryptions64 33 13 5 10 :=
  ⟨by decide, by decide, by decide, by decide,
    machine_rsa_mul_homomorphism 33 13 5 10 (by decide) (by decide) (by decide) (by decide)⟩

/-- Machine form of the two decryptions of Rsa_signature_plaintext_attack.cpp: for a
modulus of at most 3037000500 the machine `power` undoes the encryption with `b1` and
with `b1 + phi`, and `b1 + phi` is not wrapped. -/
theorem rsa_two_exponents64 (p q : Nat) (hp : p.Prime) (hq : q.Prime) (hpq : p ≠ q)
    (hsize : (p : Int) * (q : Int) ≤ 3037000500) (e m : Int) (he : 0 ≤ e)
    (hcop : Int.gcd e (((p : Int) - 1) * ((q : Int) - 1)) = 1)
    (hm : 0 ≤ m ∧ m < (p : Int) * (q : Int)) :
    ∃ b1 : Int, modInverse e (((p : Int) - 1) * ((q : Int) - 1)) = .ok b1 ∧
      (power64 (power64 m e ((p : Int) * (q : Int))).1 b1 ((p : Int) * (q : Int))).1 = m ∧
      (power64 (power64 m e ((p : Int) * (q : Int))).1
        (wrap64 (b1 + ((p : Int) - 1) * ((q : Int) - 1))) ((p : Int) * (q : Int))).1 = m := by
  have hp2 : (2 : Int) ≤ (p : Int) := by exact_mod_cast hp.two_le
  have hq2 : (2 : Int) ≤ (q : Int) := by exact_mod_cast hq.two_le
  have hn2 : (2 : Int) ≤ (p : Int) * (q : Int) := by nlinarith
  obtain ⟨-, hphi2⟩ := phi_even_of_distinct_primes p q hp hq hpq
  have hphin : ((p : Int) - 1) * ((q : Int) - 1) ≤ (p : Int) * (q : Int) := by nlinarith
  obtain ⟨b1, hb1, hb0, hb2, -⟩ := modInverse_spec_of_coprime e _ (by omega) he hcop
  obtain ⟨b1', hb1', h1, h2⟩ := rsa_two_exponents p q hp hq hpq e m he hcop hm
  rw [hb1] at hb1'
  injection hb1' with hbb
  subst hbb
  have hw : wrap64 (b1 + ((p : Int) - 1) * ((q : Int) - 1))
      = b1 + ((p : Int) - 1) * ((q : Int) - 1) :=
    wrap64_of_range _ (by omega) (by
      have e63 : (2 : Int) ^ 63 = 9223372036854775808 := by norm_num
      rw [e63]; omega)
  refine ⟨b1, hb1, ?_, ?_⟩
  · rw [power64_nested_eq m e b1 _ ⟨hn2, hsize⟩ hm.1 he]
    exact h1
  · rw [hw, power64_nested_eq m e _ _ ⟨hn2, hsize⟩ hm.1 he]
    exact h2

set_option maxRecDepth 100000 in
/-- C28 (counterexample): for the primes p = 100003, q = 100019 (n = 10002200057,
phi = 10002000036) the scan from 13 stops at e = 13, which is coprime to phi, and
b1 = modInverse(13, phi) = 4616307709; the message m = 5 is encrypted to 1220703125 and
decrypted to 1937034318 with b1 and to -1343562176 with b1 + phi: the products inside
`power` leave the 64-bit range. -/
theorem overflow_rsa_private_exponents :
    Nat.Prime 100003 ∧ Nat.Prime 100019 ∧
      Rsa_signature_plaintext_attack.findE ((100003 - 1) * (100019 - 1)) = .ok 13 ∧
      Int.gcd 13 ((100003 - 1) * (100019 - 1)) = 1 ∧
      modInverse 13 ((100003 - 1) * (100019 - 1)) = .ok 4616307709 ∧
      ((0 : Int) ≤ 5 ∧ (5 : Int) < 100003 * 100019) ∧
      (power64 (power64 5 13 (100003 * 100019)).1 4616307709 (100003 * 100019)).1
        = 1937034318 ∧
      (power64 (power64 5 13 (100003 * 100019)).1
        (4616307709 + (100003 - 1) * (100019 - 1)) (100003 * 100019)).1 = -1343562176 ∧
      Rsa_signature_plaintext_attack.decryptTwice64 100003 100019 5
        = .ok (1937034318, -1343562176) :=
  ⟨prime_100003, prime_100019, by decide, by decide, by decide, by decide, by decide,
    by decide, by decide⟩

/-- C28 (amended): private exponents are equivalent modulo phi on machine integers. For
all distinct primes p, q with n = p*q ≤ 3037000500, phi = (p-1)(q-1), every exponent
e ≥ 0 coprime to phi, b1 = modInverse(e, phi) and every m in [0, n), with
en = power(m, e, n) both power(en, b1, n) and power(en, b1 + phi, n) equal m; and the
program, with the e that its scan from 13 finds, returns m twice. -/
theorem machine_rsa_private_exponents (p q : Nat) (hp : p.Prime) (hq : q.Prime)
    (hpq : p ≠ q) (hsize : (p : Int) * (q : Int) ≤ 3037000500) (e m : Int) (he : 0 ≤ e)
    (hcop : Int.gcd e (((p : Int) - 1) * ((q : Int) - 1)) = 1)
    (hm : 0 ≤ m ∧ m < (p : Int) * (q : Int)) :
    (∃ b1 : Int, modInverse e (((p : Int) - 1) * ((q : Int) - 1)) = .ok b1 ∧
      (power64 (power64 m e ((p : Int) * (q : Int))).1 b1 ((p : Int) * (q : Int))).1 = m ∧
      (power64 (power64 m e ((p : Int) * (q : Int))).1
        (wrap64 (b1 + ((p : Int) - 1) * ((q : Int) - 1))) ((p : Int) * (q : Int))).1 = m) ∧
    Rsa_signature_plaintext_attack.decryptTwice64 (p : Int) (q : Int) m = .ok (m, m) := by
  refine ⟨rsa_two_exponents64 p q hp hq hpq hsize e m he hcop hm, ?_⟩
  have hp1 : (1 : Int) ≤ (p : Int) := by exact_mod_cast hp.one_lt.le
  have hq1 : (1 : Int) ≤ (q : Int) := by exact_mod_cast hq.one_lt.le
  have h63 : (p : Int) * (q : Int) < 2 ^ 63 := by
    have e63 : (2 : Int) ^ 63 = 9223372036854775808 := by norm_num
    rw [e63]; omega
  obtain ⟨hw1, hw2⟩ := wrap64_modulus_phi (p : Int) (q : Int) hp1 hq1 h63
  obtain ⟨hev, hphi2⟩ := phi_even_of_distinct_primes p q hp hq hpq
  obtain ⟨j, hj, hmin, hb, -⟩ := exists_first_coprime 13 _ (by decide) (by decide) hev hphi2
  have hcond : ∀ e : Int, 0 ≤ e →
      (decide (gcd e (((p : Int) - 1) * ((q : Int) - 1)) ≠ 1) = true ↔
        Int.gcd e (((p : Int) - 1) * ((q : Int) - 1)) ≠ 1) := by
    intro e he
    have h := gcd_eq_one_iff e (((p : Int) - 1) * ((q : Int) - 1)) he (by omega)
    simp [h]
  have hsc := scanLoop_of_first
    (fun e => decide (gcd e (((p : Int) - 1) * ((q : Int) - 1)) ≠ 1)) 2 j
    ((13 * (((p : Int) - 1) * ((q : Int) - 1))).toNat + 1) 13 (by omega)
    (fun i hi => (hcond _ (by omega)).mpr (hmin i hi))
    (by
      have := (hcond (13 + 2 * (j : Int)) (by omega)).not.mpr (fun h => h hj)
      simpa using this)
  obtain ⟨b1, hb1, h1, h2⟩ :=
    rsa_two_exponents64 p q hp hq hpq hsize (13 + 2 * (j : Int)) m (by omega) hj hm
  simp only [Rsa_signature_plaintext_attack.decryptTwice64,
    Rsa_signature_plaintext_attack.findE, hw1, hw2, hsc, hb1, h1, h2]

/-- C28 (witness): p = 3, q = 5, where `main` finds e = 13 > phi = 8, and m = 7. -/
theorem machine_rsa_private_exponents_witness :
    Nat.Prime 3 ∧ Nat.Prime 5 ∧ (3 : Nat) ≠ 5 ∧
      ((3 : Nat) : Int) * ((5 : Nat) : Int) ≤ 3037000500 ∧
      Rsa_signature_plaintext_attack.findE ((((3 : Nat) : Int) - 1) * (((5 : Nat) : Int) - 1))
        = .ok 13 ∧
      Int.gcd 13 ((((3 : Nat) : Int) - 1) * (((5 : Nat) : Int) - 1)) = 1 ∧
      Rsa_signature_plaintext_attack.decryptTwice64 ((3 : Nat) : Int) ((5 : Nat) : Int) 7
        = .ok (7, 7) :=
  ⟨Nat.prime_three, by norm_num, by decide, by decide, by decide, by decide,
    (machine_rsa_private_exponents 3 5 Nat.prime_three (by norm_num) (by decide) (by decide)
      13 7 (by decide) (by decide) (by decide)).2⟩

/-! ## ElGamal on machine integers -/

/-- The exact `power` returns a residue for every exponent, also a negative one (where
the loop is not entered and it returns 1). -/
theorem power_range_any (a b m : Int) (ha : 0 ≤ a) (hm : 2 ≤ m) :
    0 ≤ power a b m ∧ power a b m < m := by
  by_cases hb : 0 ≤ b
  · exact power_nonneg_lt a b m ha hb hm
  · have h0 : b.toNat = 0 := Int.toNat_eq_zero.mpr (by omega)
    have h1 : power a b m = 1 := by
      simp only [power, h0, powerLoop]
    rw [h1]
    omega

/-- Modulo a prime every value that `modInverse` returns on a residue is a residue. -/
theorem modInverse_prime_range (p : Nat) (hp : p.Prime) (d v : Int)
    (hd : 0 ≤ d ∧ d < (p : Int)) (hv : modInverse d (p : Int) = .ok v) :
    0 ≤ v ∧ v < (p : Int) := by
  have hp2 : (2 : Int) ≤ (p : Int) := by exact_mod_cast hp.two_le
  rcases eq_or_lt_of_le hd.1 with h0 | hpos
  · subst h0
    have hne : ¬ ((p : Int) = 1) := by omega
    have h1 : modInverse 0 (p : Int) = .ok 1 := by simp [modInverse, hne, modInverseLoop]
    rw [h1] at hv
    injection hv with hv
    omega
  · have hnd : ¬ ((p : Int) ∣ d) := by
      intro h
      have := Int.le_of_dvd hpos h
      omega
    have hgcd : Int.gcd d (p : Int) = 1 := by
      apply Int.isCoprime_iff_gcd_eq_one.mp
      rw [isCoprime_comm]
      exact (Prime.coprime_iff_not_dvd (Nat.prime_iff_prime_int.mp hp)).mpr hnd
    obtain ⟨x, hx, hx0, hx1, -⟩ := modInverse_spec d (p : Int) (by omega) hd.1 hd.2 hgcd
    rw [hx] at hv
    injection hv with hv
    omega

/-- Encryption of Elgamal_encryption.cpp on machine integers agrees with exact arithmetic
for a modulus of at most 3037000500. -/
theorem Elgamal_encryption.encrypt64_eq (p g h k M : Int) (hp : 2 ≤ p ∧ p ≤ 3037000500)
    (hg : 0 ≤ g) (hh : 0 ≤ h) (hM : 0 ≤ M ∧ M < p) :
    Elgamal_encryption.encrypt64 p g h k M = Elgamal_encryption.encrypt p g h k M := by
  have hm : 1 ≤ p ∧ p ≤ 3037000500 := ⟨by omega, hp.2⟩
  simp only [Elgamal_encryption.encrypt64, Elgamal_encryption.encrypt]
  rw [power64_fst_eq g k p hm hg, power64_fst_eq h k p hm hh,
    wrap64_mul_residues p M _ hp.2 hM (power_range_any h k p hh hp.1)]

/-- Decryption of Elgamal_encryption.cpp on machine integers agrees with exact
arithmetic for a prime modulus of at most 3037000500. -/
theorem Elgamal_encryption.decrypt64_eq (p : Nat) (hp : p.Prime)
    (hsize : (p : Int) ≤ 3037000500) (x C1 C2 : Int) (hC1 : 0 ≤ C1)
    (hC2 : 0 ≤ C2 ∧ C2 < (p : Int)) :
    Elgamal_encryption.decrypt64 (p : Int) x C1 C2
      = Elgamal_encryption.decrypt (p : Int) x C1 C2 := by
  have hp2 : (2 : Int) ≤ (p : Int) := by exact_mod_cast hp.two_le
  simp only [Elgamal_encryption.decrypt64, Elgamal_encryption.decrypt]
  rw [power64_fst_eq C1 x _ ⟨by omega, hsize⟩ hC1]
  cases hinv : modInverse (power C1 x (p : Int)) (p : Int) with
  | error f => rfl
  | ok v =>
    have hv := modInverse_prime_range p hp _ v (power_range_any C1 x _ hC1 hp2) hinv
    simp only [wrap64_mul_residues (p : Int) C2 v hsize hC2 hv]

set_option maxRecDepth 100000 in
/-- C10 (counterexample): for the prime p = 10000000019 with g = 100, x = 7, k = 12345
(coprime to p - 1) and M = 10 the ciphertext is (-6366994922, 1993295880) and it decrypts
to 2665302832: the products inside `power` leave the 64-bit range. -/
theorem overflow_elgamal_round_trip :
    Nat.Prime 10000000019 ∧ ((1 : Int) ≤ 100 ∧ (100 : Int) < 10000000019) ∧
      Int.gcd 12345 (10000000019 - 1) = 1 ∧ ((0 : Int) ≤ 10 ∧ (10 : Int) < 10000000019) ∧
      Elgamal_encryption.encrypt64 10000000019 100 (power64 100 7 10000000019).1 12345 10
        = (-6366994922, 1993295880) ∧
      Elgamal_encryption.decrypt64 10000000019 7 (-6366994922) 1993295880
        = .ok 2665302832 :=
  ⟨prime_10000000019, by decide, by decide, by decide, by decide, by decide⟩

/-- C10 (amended): ElGamal round trip on machine integers. For every prime
p ≤ 3037000500, every g with 1 ≤ g < p, every private key x ≥ 0, every k ≥ 0 coprime to
p-1 and every M with 0 ≤ M < p, with h = power(g,x,p), C1 = power(g,k,p),
C2 = (M * power(h,k,p)) % p, the decryption (C2 * modInverse(power(C1,x,p), p)) % p
returns M. -/
theorem machine_elgamal_round_trip (p : Nat) (hp : p.Prime) (hsize : (p : Int) ≤ 3037000500)
    (g x k M : Int) (hg : 1 ≤ g ∧ g < (p : Int)) (hx : 0 ≤ x) (hk : 0 ≤ k)
    (_hkc : Int.gcd k ((p : Int) - 1) = 1) (hM : 0 ≤ M ∧ M < (p : Int)) :
    Elgamal_encryption.decrypt64 (p : Int) x
      (Elgamal_encryption.encrypt64 (p : Int) g (power64 g x (p : Int)).1 k M).1
      (Elgamal_encryption.encrypt64 (p : Int) g (power64 g x (p : Int)).1 k M).2 = .ok M := by
  have hp2 : (2 : Int) ≤ (p : Int) := by exact_mod_cast hp.two_le
  have hh := power_range_any g x (p : Int) (by omega) hp2
  rw [power64_fst_eq g x _ ⟨by omega, hsize⟩ (by omega),
    Elgamal_encryption.encrypt64_eq _ g _ k M ⟨hp2, hsize⟩ (by omega) hh.1 hM]
  have hC1 : 0 ≤ (Elgamal_encryption.encrypt (p : Int) g (power g x (p : Int)) k M).1 :=
    (power_range_any g k (p : Int) (by omega) hp2).1
  have hC2 : 0 ≤ (Elgamal_encryption.encrypt (p : Int) g (power g x (p : Int)) k M).2 ∧
      (Elgamal_encryption.encrypt (p : Int) g (power g x (p : Int)) k M).2 < (p : Int) :=
    tmod_nonneg_lt _ _ (mul_nonneg hM.1 (power_range_any _ k _ hh.1 hp2).1) (by omega)
  rw [Elgamal_encryption.decrypt64_eq p hp hsize x _ _ hC1 hC2]
  exact Elgamal_encryption.decrypt_encrypt p hp g x k M hg hx hk hM

/-- C10 (witness): p = 23, g = 5, x = 6, k = 3, M = 7. -/
theorem machine_elgamal_round_trip_witness :
    Nat.Prime 23 ∧ ((23 : Nat) : Int) ≤ 3037000500 ∧
      Elgamal_encryption.encrypt64 ((23 : Nat) : Int) 5 (power64 5 6 ((23 : Nat) : Int)).1 3 7
        = (10, 19) ∧
      Elgamal_encryption.decrypt64 ((23 : Nat) : Int) 6
        (Elgamal_encryption.encrypt64 ((23 : Nat) : Int) 5
          (power64 5 6 ((23 : Nat) : Int)).1 3 7).1
        (Elgamal_encryption.encrypt64 ((23 : Nat) : Int) 5
          (power64 5 6 ((23 : Nat) : Int)).1 3 7).2 = .ok 7 :=
  ⟨by norm_num, by decide, by decide,
    machine_elgamal_round_trip 23 (by norm_num) (by decide) 5 6 3 7 (by decide) (by decide)
      (by decide) (by decide) (by decide)⟩

/-- Encryption of Elgamal_Product_Rerandomization.cpp on machine integers agrees with
exact arithmetic for a modulus of at most 3037000500. -/
theorem Elgamal_Product_Rerandomization.rerandEncrypt64_eq (p g h key m : Int)
    (hp : 2 ≤ p ∧ p ≤ 3037000500) (hg : 0 ≤ g) (hh : 0 ≤ h) (hm : 0 ≤ m ∧ m < p) :
    Elgamal_Product_Rerandomization.encrypt64 p g h key m
      = Elgamal_Product_Rerandomization.encrypt p g h key m := by
  have hm1 : 1 ≤ p ∧ p ≤ 3037000500 := ⟨by omega, hp.2⟩
  simp only [Elgamal_Product_Rerandomization.encrypt64, Elgamal_Product_Rerandomization.encrypt]
  rw [power64_fst_eq g key p hm1 hg, power64_fst_eq h key p hm1 hh,
    wrap64_mul_residues p m _ hp.2 hm (power_range_any h key p hh hp.1)]

/-- The componentwise product of residues of a modulus of at most 3037000500 is not
wrapped. -/
theorem Elgamal_Product_Rerandomization.combine64_eq (p c11 c21 c12 c22 : Int)
    (hp : p ≤ 3037000500) (h11 : 0 ≤ c11 ∧ c11 < p) (h21 : 0 ≤ c21 ∧ c21 < p)
    (h12 : 0 ≤ c12 ∧ c12 < p) (h22 : 0 ≤ c22 ∧ c22 < p) :
    Elgamal_Product_Rerandomization.combine64 p c11 c21 c12 c22
      = ((c11 * c12).tmod p, (c21 * c22).tmod p) := by
  simp only [Elgamal_Product_Rerandomization.combine64]
  rw [wrap64_mul_residues p c11 c12 hp h11 h12, wrap64_mul_residues p c21 c22 hp h21 h22]

/-- Rerandomization on machine integers agrees with exact arithmetic for a modulus of at
most 3037000500. -/
theorem Elgamal_Product_Rerandomization.rerandomize64_eq (p g h key2 c11 c21 : Int)
    (hp : 2 ≤ p ∧ p ≤ 3037000500) (hg : 0 ≤ g) (hh : 0 ≤ h) (h11 : 0 ≤ c11 ∧ c11 < p)
    (h21 : 0 ≤ c21 ∧ c21 < p) :
    Elgamal_Product_Rerandomization.rerandomize64 p g h key2 c11 c21
      = Elgamal_Product_Rerandomization.rerandomize p g h key2 c11 c21 := by
  have hm1 : 1 ≤ p ∧ p ≤ 3037000500 := ⟨by omega, hp.2⟩
  simp only [Elgamal_Product_Rerandomization.rerandomize64,
    Elgamal_Product_Rerandomization.rerandomize]
  rw [power64_fst_eq g key2 p hm1 hg, power64_fst_eq h key2 p hm1 hh,
    Elgamal_Product_Rerandomization.combine64_eq p c11 c21 _ _ hp.2 h11 h21
      (power_range_any g key2 p hg hp.1) (power_range_any h key2 p hh hp.1)]

/-- Decryption of Elgamal_Product_Rerandomization.cpp on machine integers agrees with
exact arithmetic for a prime modulus of at most 3037000500. -/
theorem Elgamal_Product_Rerandomization.rerandDecrypt64_eq (p : Nat) (hp : p.Prime)
    (hsize : (p : Int) ≤ 3037000500) (x c1 c2 : Int) (hc1 : 0 ≤ c1)
    (hc2 : 0 ≤ c2 ∧ c2 < (p : Int)) :
    Elgamal_Product_Rerandomization.decrypt64 (p : Int) x c1 c2
      = Elgamal_Product_Rerandomization.decrypt (p : Int) x c1 c2 :=
  Elgamal_encryption.decrypt64_eq p hp hsize x c1 c2 hc1 hc2

/-- The components of an exact ciphertext are residues. -/
theorem Elgamal_Product_Rerandomization.encrypt_range (p g h key m : Int) (hp : 2 ≤ p)
    (hg : 0 ≤ g) (hh : 0 ≤ h) (hm : 0 ≤ m) :
    (0 ≤ (Elgamal_Product_Rerandomization.encrypt p g h key m).1 ∧
      (Elgamal_Product_Rerandomization.encrypt p g h key m).1 < p) ∧
    (0 ≤ (Elgamal_Product_Rerandomization.encrypt p g h key m).2 ∧
      (Elgamal_Product_Rerandomization.encrypt p g h key m).2 < p) :=
  ⟨power_range_any g key p hg hp,
    tmod_nonneg_lt _ _ (mul_nonneg hm (power_range_any h key p hh hp).1) (by omega)⟩

set_option maxRecDepth 100000 in
/-- C11 (counterexample): for the prime p = 10000000019 with g = 2, x = 7 (h = 128),
k1 = 13, k2 = 41, m1 = 10, m2 = 11 the product of the two ciphertexts decrypts to
-2757345143, not to 110. -/
theorem overflow_elgamal_product :
    Nat.Prime 10000000019 ∧ ((1 : Int) ≤ 2 ∧ (2 : Int) < 10000000019) ∧
      (power64 2 7 10000000019).1 = 128 ∧
      Elgamal_Product_Rerandomization.encrypt64 10000000019 2 128 13 10
        = (8192, -2090074729) ∧
      Elgamal_Product_Rerandomization.encrypt64 10000000019 2 128 41 11
        = (9023251391, -541076578) ∧
      Elgamal_Product_Rerandomization.combine64 10000000019 8192 (-2090074729)
        9023251391 (-541076578) = (8475254643, 9982905469) ∧
      Elgamal_Product_Rerandomization.decrypt64 10000000019 7 8475254643 9982905469
        = .ok (-2757345143) ∧
      ((10 : Int) * 11) % 10000000019 = 110 :=
  ⟨prime_10000000019, by decide, by decide, by decide, by decide, by decide, by decide,
    by decide⟩

/-- C11 (amended): ElGamal homomorphic product on machine integers. For every prime
p ≤ 3037000500, g in [1, p-1], x ≥ 0, m1, m2 in [0, p) and any k1, k2 ≥ 0, the
componentwise product mod p of the ciphertexts of m1 under k1 and of m2 under k2
decrypts with x to (m1*m2) mod p, independent of k1 and k2. -/
theorem machine_elgamal_product (p : Nat) (hp : p.Prime) (hsize : (p : Int) ≤ 3037000500)
    (g x m1 m2 k1 k2 : Int) (hg : 1 ≤ g ∧ g < (p : Int)) (hx : 0 ≤ x)
    (hm1 : 0 ≤ m1 ∧ m1 < (p : Int)) (hm2 : 0 ≤ m2 ∧ m2 < (p : Int)) (hk1 : 0 ≤ k1)
    (hk2 : 0 ≤ k2) :
    Elgamal_Product_Rerandomization.decrypt64 (p : Int) x
      (Elgamal_Product_Rerandomization.combine64 (p : Int)
        (Elgamal_Product_Rerandomization.encrypt64 (p : Int) g (power64 g x (p : Int)).1
          k1 m1).1
        (Elgamal_Product_Rerandomization.encrypt64 (p : Int) g (power64 g x (p : Int)).1
          k1 m1).2
        (Elgamal_Product_Rerandomization.encrypt64 (p : Int) g (power64 g x (p : Int)).1
          k2 m2).1
        (Elgamal_Product_Rerandomization.encrypt64 (p : Int) g (power64 g x (p : Int)).1
          k2 m2).2).1
      (Elgamal_Product_Rerandomization.combine64 (p : Int)
        (Elgamal_Product_Rerandomization.encrypt64 (p : Int) g (power64 g x (p : Int)).1
          k1 m1).1
        (Elgamal_Product_Rerandomization.encrypt64 (p : Int) g (power64 g x (p : Int)).1
          k1 m1).2
        (Elgamal_Product_Rerandomization.encrypt64 (p : Int) g (power64 g x (p : Int)).1
          k2 m2).1
        (Elgamal_Product_Rerandomization.encrypt64 (p : Int) g (power64 g x (p : Int)).1
          k2 m2).2).2
      = .ok ((m1 * m2) % (p : Int)) := by
  have hp2 : (2 : Int) ≤ (p : Int) := by exact_mod_cast hp.two_le
  have hg0 : 0 ≤ g := by omega
  have hh := power_range_any g x (p : Int) hg0 hp2
  have hr1 := Elgamal_Product_Rerandomization.encrypt_range (p : Int) g
    (power g x (p : Int)) k1 m1 hp2 hg0 hh.1 hm1.1
  have hr2 := Elgamal_Product_Rerandomization.encrypt_range (p : Int) g
    (power g x (p : Int)) k2 m2 hp2 hg0 hh.1 hm2.1
  rw [power64_fst_eq g x _ ⟨by omega, hsize⟩ hg0,
    Elgamal_Product_Rerandomization.rerandEncrypt64_eq _ g _ k1 m1 ⟨hp2, hsize⟩ hg0 hh.1 hm1,
    Elgamal_Product_Rerandomization.rerandEncrypt64_eq _ g _ k2 m2 ⟨hp2, hsize⟩ hg0 hh.1 hm2,
    Elgamal_Product_Rerandomization.combine64_eq _ _ _ _ _ hsize hr1.1 hr1.2 hr2.1 hr2.2]
  rw [Elgamal_Product_Rerandomization.rerandDecrypt64_eq p hp hsize x _ _
    (Int.tmod_nonneg _ (mul_nonneg hr1.1.1 hr2.1.1))
    (tmod_nonneg_lt _ _ (mul_nonneg hr1.2.1 hr2.2.1) (by omega))]
  exact Elgamal_Product_Rerandomization.decrypt_product p hp g x m1 m2 k1 k2 hg hx hm1 hm2 hk1 hk2

/-- C11 (witness): p = 23, g = 5, x = 6, m1 = 3, m2 = 4, k1 = 3, k2 = 5. -/
theorem machine_elgamal_product_witness :
    Nat.Prime 23 ∧ ((23 : Nat) : Int) ≤ 3037000500 ∧
      Elgamal_Product_Rerandomization.decrypt64 ((23 : Nat) : Int) 6
      (Elgamal_Product_Rerandomization.combine64 ((23 : Nat) : Int)
        (Elgamal_Product_Rerandomization.encrypt64 ((23 : Nat) : Int) 5
          (power64 5 6 ((23 : Nat) : Int)).1 3 3).1
        (Elgamal_Product_Rerandomization.encrypt64 ((23 : Nat) : Int) 5
          (power64 5 6 ((23 : Nat) : Int)).1 3 3).2
        (Elgamal_Product_Rerandomization.encrypt64 ((23 : Nat) : Int) 5
          (power64 5 6 ((23 : Nat) : Int)).1 5 4).1
        (Elgamal_Product_Rerandomization.encrypt64 ((23 : Nat) : Int) 5
          (power64 5 6 ((23 : Nat) : Int)).1 5 4).2).1
      (Elgamal_Product_Rerandomization.combine64 ((23 : Nat) : Int)
        (Elgamal_Product_Rerandomization.encrypt64 ((23 : Nat) : Int) 5
          (power64 5 6 ((23 : Nat) : Int)).1 3 3).1
        (Elgamal_Product_Rerandomization.encrypt64 ((23 : Nat) : Int) 5
          (power64 5 6 ((23 : Nat) : Int)).1 3 3).2
        (Elgamal_Product_Rerandomization.encrypt64 ((23 : Nat) : Int) 5
          (power64 5 6 ((23 : Nat) : Int)).1 5 4).1
        (Elgamal_Product_Rerandomization.encrypt64 ((23 : Nat) : Int) 5
          (power64 5 6 ((23 : Nat) : Int)).1 5 4).2).2
      = .ok (((3 : Int) * 4) % ((23 : Nat) : Int)) :=
  ⟨by norm_num, by decide,
    machine_elgamal_product 23 (by norm_num) (by decide) 5 6 3 4 3 5 (by decide) (by decide)
      (by decide) (by decide) (by decide) (by decide)⟩

set_option maxRecDepth 100000 in
/-- C12 (counterexample): for the prime p = 10000000019 with g = 2, x = 7 (h = 128),
m = 10, k1 = 13, k2 = 41 the ciphertext is (8192, -2090074729), the rerandomized
ciphertext is (8475254643, 1337708010) and it decrypts to 4261751406, not to 10. -/
theorem overflow_elgamal_rerandomize :
    Nat.Prime 10000000019 ∧ ((1 : Int) ≤ 2 ∧ (2 : Int) < 10000000019) ∧
      ((0 : Int) ≤ 10 ∧ (10 : Int) < 10000000019) ∧
      (power64 2 7 10000000019).1 = 128 ∧
      Elgamal_Product_Rerandomization.encrypt64 10000000019 2 128 13 10
        = (8192, -2090074729) ∧
      Elgamal_Product_Rerandomization.rerandomize64 10000000019 2 128 41 8192 (-2090074729)
        = (8475254643, 1337708010) ∧
      Elgamal_Product_Rerandomization.decrypt64 10000000019 7 8475254643 1337708010
        = .ok 4261751406 :=
  ⟨prime_10000000019, by decide, by decide, by decide, by decide, by decide, by decide⟩

/-- C12 (amended): ElGamal rerandomization preserves the plaintext on machine integers.
For every prime p ≤ 3037000500, g in [1, p-1], x ≥ 0, m in [0, p) and k1, k2 ≥ 0, the
ciphertext ((c11*g^k2) % p, (c21*h^k2) % p) obtained from
(c11, c21) = (g^k1 mod p, m*h^k1 mod p) decrypts with x to m. -/
theorem machine_elgamal_rerandomize_decrypts (p : Nat) (hp : p.Prime)
    (hsize : (p : Int) ≤ 3037000500) (g x m k1 k2 : Int)
    (hg : 1 ≤ g ∧ g < (p : Int)) (hx : 0 ≤ x) (hm : 0 ≤ m ∧ m < (p : Int))
    (hk1 : 0 ≤ k1) (hk2 : 0 ≤ k2) :
    Elgamal_Product_Rerandomization.decrypt64 (p : Int) x
      (Elgamal_Product_Rerandomization.rerandomize64 (p : Int) g (power64 g x (p : Int)).1 k2
        (Elgamal_Product_Rerandomization.encrypt64 (p : Int) g (power64 g x (p : Int)).1
          k1 m).1
        (Elgamal_Product_Rerandomization.encrypt64 (p : Int) g (power64 g x (p : Int)).1
          k1 m).2).1
      (Elgamal_Product_Rerandomization.rerandomize64 (p : Int) g (power64 g x (p : Int)).1 k2
        (Elgamal_Product_Rerandomization.encrypt64 (p : Int) g (power64 g x (p : Int)).1
          k1 m).1
        (Elgamal_Product_Rerandomization.encrypt64 (p : Int) g (power64 g x (p : Int)).1
          k1 m).2).2
      = .ok m := by
  have hp2 : (2 : Int) ≤ (p : Int) := by exact_mod_cast hp.two_le
  have hg0 : 0 ≤ g := by omega
  have hh := power_range_any g x (p : Int) hg0 hp2
  have hr1 := Elgamal_Product_Rerandomization.encrypt_range (p : Int) g
    (power g x (p : Int)) k1 m hp2 hg0 hh.1 hm.1
  have hg2 := power_range_any g k2 (p : Int) hg0 hp2
  have hh2 := power_range_any (power g x (p : Int)) k2 (p : Int) hh.1 hp2
  rw [power64_fst_eq g x _ ⟨by omega, hsize⟩ hg0,
    Elgamal_Product_Rerandomization.rerandEncrypt64_eq _ g _ k1 m ⟨hp2, hsize⟩ hg0 hh.1 hm,
    Elgamal_Product_Rerandomization.rerandomize64_eq _ g _ k2 _ _ ⟨hp2, hsize⟩ hg0 hh.1
      hr1.1 hr1.2]
  have hc1 : 0 ≤ (Elgamal_Product_Rerandomization.rerandomize (p : Int) g
      (power g x (p : Int)) k2
      (Elgamal_Product_Rerandomization.encrypt (p : Int) g (power g x (p : Int)) k1 m).1
      (Elgamal_Product_Rerandomization.encrypt (p : Int) g (power g x (p : Int)) k1 m).2).1 :=
    Int.tmod_nonneg _ (mul_nonneg hr1.1.1 hg2.1)
  have hc2 : 0 ≤ (Elgamal_Product_Rerandomization.rerandomize (p : Int) g
      (power g x (p : Int)) k2
      (Elgamal_Product_Rerandomization.encrypt (p : Int) g (power g x (p : Int)) k1 m).1
      (Elgamal_Product_Rerandomization.encrypt (p : Int) g (power g x (p : Int)) k1 m).2).2 ∧
      (Elgamal_Product_Rerandomization.rerandomize (p : Int) g
      (power g x (p : Int)) k2
      (Elgamal_Product_Rerandomization.encrypt (p : Int) g (power g x (p : Int)) k1 m).1
      (Elgamal_Product_Rerandomization.encrypt (p : Int) g (power g x (p : Int)) k1 m).2).2
        < (p : Int) :=
    tmod_nonneg_lt _ _ (mul_nonneg hr1.2.1 hh2.1) (by omega)
  rw [Elgamal_Product_Rerandomization.rerandDecrypt64_eq p hp hsize x _ _ hc1 hc2]
  exact elgamal_rerandomize_decrypts p hp g x m k1 k2 hg hx hm hk1 hk2

/-- C12 (witness): p = 23, g = 5, x = 6, m = 7, k1 = 3, k2 = 5. -/
theorem machine_elgamal_rerandomize_decrypts_witness :
    Nat.Prime 23 ∧ ((23 : Nat) : Int) ≤ 3037000500 ∧
      Elgamal_Product_Rerandomization.decrypt64 ((23 : Nat) : Int) 6
      (Elgamal_Product_Rerandomization.rerandomize64 ((23 : Nat) : Int) 5
        (power64 5 6 ((23 : Nat) : Int)).1 5
        (Elgamal_Product_Rerandomization.encrypt64 ((23 : Nat) : Int) 5
          (power64 5 6 ((23 : Nat) : Int)).1 3 7).1
        (Elgamal_Product_Rerandomization.encrypt64 ((23 : Nat) : Int) 5
          (power64 5 6 ((23 : Nat) : Int)).1 3 7).2).1
      (Elgamal_Product_Rerandomization.rerandomize64 ((23 : Nat) : Int) 5
        (power64 5 6 ((23 : Nat) : Int)).1 5
        (Elgamal_Product_Rerandomization.encrypt64 ((23 : Nat) : Int) 5
          (power64 5 6 ((23 : Nat) : Int)).1 3 7).1
        (Elgamal_Product_Rerandomization.encrypt64 ((23 : Nat) : Int) 5
          (power64 5 6 ((23 : Nat) : Int)).1 3 7).2).2
      = .ok 7 :=
  ⟨by norm_num, by decide,
    machine_elgamal_rerandomize_decrypts 23 (by norm_num) (by decide) 5 6 7 3 5 (by decide)
      (by decide) (by decide) (by decide) (by decide)⟩

/-- C13 (counterexample): with the base g = 1 modulo 5 and k2 = 3, which is coprime to 4
and not 0, the rerandomized ciphertext of m = 2 is the original one; and modulo the
prime 2, where g = 1 passes the generator test, the same happens with k2 = 1. -/
theorem machine_rerandomize_unchanged :
    (Int.gcd 3 (5 - 1) = 1 ∧
      Elgamal_Product_Rerandomization.rerandomize64 5 1 (power64 1 1 5).1 3
        (Elgamal_Product_Rerandomization.encrypt64 5 1 (power64 1 1 5).1 1 2).1
        (Elgamal_Product_Rerandomization.encrypt64 5 1 (power64 1 1 5).1 1 2).2
        = Elgamal_Product_Rerandomization.encrypt64 5 1 (power64 1 1 5).1 1 2) ∧
    (isGenerator64 1 2 = true ∧ Int.gcd 1 (2 - 1) = 1 ∧
      Elgamal_Product_Rerandomization.rerandomize64 2 1 (power64 1 1 2).1 1
        (Elgamal_Product_Rerandomization.encrypt64 2 1 (power64 1 1 2).1 1 1).1
        (Elgamal_Product_Rerandomization.encrypt64 2 1 (power64 1 1 2).1 1 1).2
        = Elgamal_Product_Rerandomization.encrypt64 2 1 (power64 1 1 2).1 1 1) := by
  decide

/-- C13 (amended): for every prime p ≤ 3037000500, g in [1, p-1], x ≥ 0, m in [1, p-1]
and k1, k2 ≥ 0, the rerandomized ciphertext equals the original one exactly when
power(g, k2, p) = 1; hence it differs from the original whenever p > 2, g is a primitive
root modulo p and k2 is coprime to p-1. -/
theorem machine_elgamal_rerandomize_changes (p : Nat) (hp : p.Prime)
    (hsize : (p : Int) ≤ 3037000500) (g x m k1 k2 : Int)
    (hg : 1 ≤ g ∧ g < (p : Int)) (hx : 0 ≤ x) (hm : 1 ≤ m ∧ m < (p : Int))
    (hk1 : 0 ≤ k1) (hk2 : 0 ≤ k2) :
    (Elgamal_Product_Rerandomization.rerandomize64 (p : Int) g (power64 g x (p : Int)).1 k2
        (Elgamal_Product_Rerandomization.encrypt64 (p : Int) g (power64 g x (p : Int)).1
          k1 m).1
        (Elgamal_Product_Rerandomization.encrypt64 (p : Int) g (power64 g x (p : Int)).1
          k1 m).2
        = Elgamal_Product_Rerandomization.encrypt64 (p : Int) g (power64 g x (p : Int)).1 k1 m
      ↔ (power64 g k2 (p : Int)).1 = 1) ∧
    (2 < p → orderOf ((g : Int) : ZMod p) = p - 1 → Int.gcd k2 ((p : Int) - 1) = 1 →
      Elgamal_Product_Rerandomization.rerandomize64 (p : Int) g (power64 g x (p : Int)).1 k2
        (Elgamal_Product_Rerandomization.encrypt64 (p : Int) g (power64 g x (p : Int)).1
          k1 m).1
        (Elgamal_Product_Rerandomization.encrypt64 (p : Int) g (power64 g x (p : Int)).1
          k1 m).2
        ≠ Elgamal_Product_Rerandomization.encrypt64 (p : Int) g (power64 g x (p : Int)).1
          k1 m) := by
  have hp2 : (2 : Int) ≤ (p : Int) := by exact_mod_cast hp.two_le
  have hg0 : 0 ≤ g := by omega
  have hh := power_range_any g x (p : Int) hg0 hp2
  have hr1 := Elgamal_Product_Rerandomization.encrypt_range (p : Int) g
    (power g x (p : Int)) k1 m hp2 hg0 hh.1 (by omega)
  rw [power64_fst_eq g x _ ⟨by omega, hsize⟩ hg0,
    Elgamal_Product_Rerandomization.rerandEncrypt64_eq _ g _ k1 m ⟨hp2, hsize⟩ hg0 hh.1
      ⟨by omega, hm.2⟩,
    Elgamal_Product_Rerandomization.rerandomize64_eq _ g _ k2 _ _ ⟨hp2, hsize⟩ hg0 hh.1
      hr1.1 hr1.2,
    power64_fst_eq g k2 _ ⟨by omega, hsize⟩ hg0]
  exact elgamal_rerandomize_changes p hp g x m k1 k2 hg hx hm hk1 hk2

/-- C13 (witness): p = 23, g = 5 (a primitive root), x = 6, m = 7, k1 = 3, k2 = 5. -/
theorem machine_elgamal_rerandomize_changes_witness :
    Nat.Prime 23 ∧ ((23 : Nat) : Int) ≤ 3037000500 ∧
      (power64 5 5 ((23 : Nat) : Int)).1 = 20 ∧
      (Elgamal_Product_Rerandomization.rerandomize64 ((23 : Nat) : Int) 5
          (power64 5 6 ((23 : Nat) : Int)).1 5
          (Elgamal_Product_Rerandomization.encrypt64 ((23 : Nat) : Int) 5
            (power64 5 6 ((23 : Nat) : Int)).1 3 7).1
          (Elgamal_Product_Rerandomization.encrypt64 ((23 : Nat) : Int) 5
            (power64 5 6 ((23 : Nat) : Int)).1 3 7).2
          = Elgamal_Product_Rerandomization.encrypt64 ((23 : Nat) : Int) 5
            (power64 5 6 ((23 : Nat) : Int)).1 3 7
        ↔ (power64 5 5 ((23 : Nat) : Int)).1 = 1) :=
  ⟨by norm_num, by decide, by decide,
    (machine_elgamal_rerandomize_changes 23 (by norm_num) (by decide) 5 6 7 3 5 (by decide)
      (by decide) (by decide) (by decide) (by decide)).1⟩

/-- The modulus 3037056991 of the example below is prime. -/
theorem prime_3037056991 : Nat.Prime 3037056991 := by
  apply prime_of_power_test 3037056991 3 [2, 3, 5, 11, 167, 55109] (by norm_num) (by decide)
  · intro q hq hd
    have e : 3037056991 - 1 = 2 * (3 * (5 * (11 * (167 * 55109)))) := by norm_num
    rw [e] at hd
    rcases prime_dvd_mul_cases q _ _ hq Nat.prime_two hd with h | hd
    · simp [h]
    rcases prime_dvd_mul_cases q _ _ hq Nat.prime_three hd with h | hd
    · simp [h]
    rcases prime_dvd_mul_cases q _ _ hq (by norm_num) hd with h | hd
    · simp [h]
    rcases prime_dvd_mul_cases q _ _ hq (by norm_num) hd with h | hd
    · simp [h]
    rcases prime_dvd_mul_cases q _ _ hq (by norm_num) hd with h | hd
    · simp [h]
    have := (Nat.prime_dvd_prime_iff_eq hq (by norm_num : Nat.Prime 55109)).mp hd
    simp [this]
  · decide

set_option maxRecDepth 100000 in
/-- Above 3037000500 the equivalence of the rerandomization claim fails: for the prime
p = 3037056991 with g = 55109, x = 2, m = 1, k1 = 1, k2 = 3 the machine `power` gives
power(g, k2, p) = 1, yet the second component changes from 3037001881 to -2432896709. -/
theorem overflow_rerandomize_equivalence :
    Nat.Prime 3037056991 ∧ (power64 55109 3 3037056991).1 = 1 ∧
      (power64 55109 2 3037056991).1 = 3037001881 ∧
      Elgamal_Product_Rerandomization.encrypt64 3037056991 55109 3037001881 1 1
        = (55109, 3037001881) ∧
      Elgamal_Product_Rerandomization.rerandomize64 3037056991 55109 3037001881 3
        55109 3037001881 = (55109, -2432896709) :=
  ⟨prime_3037056991, by decide, by decide, by decide, by decide⟩

/-! ## ElGamal signature and the generator test on machine integers -/

/-- Signature generation on machine integers agrees with exact arithmetic when
`p ≤ 3037000500`, `x * (p - 1) < 2^63` and `(p - 2) * (M + p - 1) < 2^63`: then neither
`x * r` nor `k_inv * (...)` leaves the 64-bit range. -/
theorem Elgamal_signature.sign64_eq (p : Nat) (hsize : (p : Int) ≤ 3037000500)
    (g x k M : Int) (hg : 0 ≤ g) (hx : 0 ≤ x) (hM : 0 ≤ M)
    (hk : 1 ≤ k ∧ k ≤ (p : Int) - 2) (hkc : Int.gcd k ((p : Int) - 1) = 1)
    (hxb : x * ((p : Int) - 1) < 2 ^ 63)
    (hMb : ((p : Int) - 2) * (M + (p : Int) - 1) < 2 ^ 63) :
    Elgamal_signature.sign64 (p : Int) g x k M = Elgamal_signature.sign (p : Int) g x k M := by
  have e63 : (2 : Int) ^ 63 = 9223372036854775808 := by norm_num
  have hp3 : (3 : Int) ≤ (p : Int) := by omega
  have hr := power_range_any g k (p : Int) hg (by omega)
  obtain ⟨kinv, hkinv, hk0, hk1, -⟩ :=
    modInverse_spec k ((p : Int) - 1) (by omega) (by omega) (by omega) hkc
  simp only [Elgamal_signature.sign64, Elgamal_signature.sign, hkinv]
  rw [power64_fst_eq g k _ ⟨by omega, hsize⟩ hg]
  have hxr0 : 0 ≤ x * power g k (p : Int) := mul_nonneg hx hr.1
  have hxr1 : x * power g k (p : Int) ≤ x * ((p : Int) - 1) :=
    mul_le_mul_of_nonneg_left (by omega) hx
  have hw1 : wrap64 (x * power g k (p : Int)) = x * power g k (p : Int) :=
    wrap64_of_range _ hxr0 (by omega)
  rw [hw1]
  have ht := tmod_nonneg_lt (x * power g k (p : Int)) ((p : Int) - 1) hxr0 (by omega)
  have hMp : M + (p : Int) - 1 ≤ ((p : Int) - 2) * (M + (p : Int) - 1) := by
    have h1 : (1 : Int) ≤ (p : Int) - 2 := by omega
    have h2 : 0 ≤ M + (p : Int) - 1 := by omega
    nlinarith
  have hw2 : wrap64 (M - (x * power g k (p : Int)).tmod ((p : Int) - 1))
      = M - (x * power g k (p : Int)).tmod ((p : Int) - 1) :=
    wrap64_of_bounds _ (by rw [e63]; omega) (by rw [e63] at hMb ⊢; omega)
  rw [hw2]
  have hw3 : wrap64 (M - (x * power g k (p : Int)).tmod ((p : Int) - 1) + ((p : Int) - 1))
      = M - (x * power g k (p : Int)).tmod ((p : Int) - 1) + ((p : Int) - 1) :=
    wrap64_of_range _ (by omega) (by rw [e63] at hMb ⊢; omega)
  rw [hw3]
  have hin0 : 0 ≤ M - (x * power g k (p : Int)).tmod ((p : Int) - 1) + ((p : Int) - 1) := by
    omega
  have hprod : kinv * (M - (x * power g k (p : Int)).tmod ((p : Int) - 1) + ((p : Int) - 1))
      ≤ ((p : Int) - 2) * (M + (p : Int) - 1) :=
    mul_le_mul (by omega) (by omega) hin0 (by omega)
  have hw4 : wrap64 (kinv *
      (M - (x * power g k (p : Int)).tmod ((p : Int) - 1) + ((p : Int) - 1)))
      = kinv * (M - (x * power g k (p : Int)).tmod ((p : Int) - 1) + ((p : Int) - 1)) :=
    wrap64_of_range _ (mul_nonneg hk0 hin0) (by omega)
  rw [hw4]

/-- Verification on machine integers agrees with exact arithmetic for a modulus of at
most 3037000500. -/
theorem Elgamal_signature.verify64_eq (p g y M r s : Int) (hp : 2 ≤ p ∧ p ≤ 3037000500)
    (hg : 0 ≤ g) (hy : 0 ≤ y) (hr : 0 ≤ r) :
    Elgamal_signature.verify64 p g y M r s = Elgamal_signature.verify p g y M r s := by
  have hm : 1 ≤ p ∧ p ≤ 3037000500 := ⟨by omega, hp.2⟩
  simp only [Elgamal_signature.verify64, Elgamal_signature.verify]
  rw [power64_fst_eq g M p hm hg, power64_fst_eq y r p hm hy, power64_fst_eq r s p hm hr,
    wrap64_mul_residues p _ _ hp.2 (power_range_any y r p hy hp.1)
      (power_range_any r s p hr hp.1)]

set_option maxRecDepth 100000 in
/-- C14 (counterexample): for the prime p = 103 with g = 101, x = 7, the nonce k = 55
(coprime to 102) and the message M = 10^18 the product k_inv * (...) leaves the 64-bit
range: the signature is (87, -39), so s < 0, and it does not verify. -/
theorem overflow_elgamal_signature :
    Nat.Prime 103 ∧ ((1 : Int) ≤ 101 ∧ (101 : Int) < 103) ∧
      ((1 : Int) ≤ 55 ∧ (55 : Int) ≤ 103 - 2) ∧ Int.gcd 55 (103 - 1) = 1 ∧
      Elgamal_signature.sign64 103 101 7 55 1000000000000000000 = .ok (87, -39) ∧
      Elgamal_signature.verify64 103 101 (power64 101 7 103).1 1000000000000000000 87 (-39)
        = false :=
  ⟨by norm_num, by decide, by decide, by decide, by decide, by decide⟩

/-- C14 (amended): ElGamal signature validity on machine integers. For every prime
p ≤ 3037000500, g in [1, p-1], private key x ≥ 0 with x*(p-1) < 2^63, message M ≥ 0
with (p-2)*(M+p-1) < 2^63 and nonce k with 1 ≤ k ≤ p-2 and gcd(k, p-1) = 1, the pair
r = power(g,k,p), s = (modInverse(k,p-1) * ((M - (x*r) % (p-1)) + (p-1))) % (p-1)
satisfies s ≥ 0 and power(g,M,p) = (power(y,r,p) * power(r,s,p)) % p where
y = power(g,x,p). -/
theorem machine_elgamal_signature_valid (p : Nat) (hp : p.Prime)
    (hsize : (p : Int) ≤ 3037000500) (g x M k : Int)
    (hg : 1 ≤ g ∧ g < (p : Int)) (hx : 0 ≤ x) (hM : 0 ≤ M)
    (hk : 1 ≤ k ∧ k ≤ (p : Int) - 2) (hkc : Int.gcd k ((p : Int) - 1) = 1)
    (hxb : x * ((p : Int) - 1) < 2 ^ 63)
    (hMb : ((p : Int) - 2) * (M + (p : Int) - 1) < 2 ^ 63) :
    ∃ r s : Int, Elgamal_signature.sign64 (p : Int) g x k M = .ok (r, s) ∧
      r = (power64 g k (p : Int)).1 ∧ 0 ≤ s ∧
      (power64 g M (p : Int)).1 =
        (wrap64 ((power64 (power64 g x (p : Int)).1 r (p : Int)).1 *
          (power64 r s (p : Int)).1)).tmod (p : Int) ∧
      Elgamal_signature.verify64 (p : Int) g (power64 g x (p : Int)).1 M r s = true := by
  have hp2 : (2 : Int) ≤ (p : Int) := by exact_mod_cast hp.two_le
  have hg0 : 0 ≤ g := by omega
  have hm : 1 ≤ (p : Int) ∧ (p : Int) ≤ 3037000500 := ⟨by omega, hsize⟩
  obtain ⟨r, s, hsign, hr, hs0, heq, hver⟩ :=
    elgamal_signature_valid p hp g x M k hg hx hM hk hkc
  have hy := power_range_any g x (p : Int) hg0 hp2
  have hr0 : 0 ≤ r := by rw [hr]; exact (power_range_any g k (p : Int) hg0 hp2).1
  refine ⟨r, s, ?_, ?_, hs0, ?_, ?_⟩
  · rw [Elgamal_signature.sign64_eq p hsize g x k M hg0 hx hM hk hkc hxb hMb]
    exact hsign
  · rw [power64_fst_eq g k _ hm hg0]
    exact hr
  · rw [power64_fst_eq g M _ hm hg0, power64_fst_eq g x _ hm hg0,
      power64_fst_eq _ r _ hm hy.1, power64_fst_eq r s _ hm hr0,
      wrap64_mul_residues _ _ _ hsize (power_range_any _ r _ hy.1 hp2)
        (power_range_any r s _ hr0 hp2)]
    exact heq
  · rw [power64_fst_eq g x _ hm hg0,
      Elgamal_signature.verify64_eq _ g _ M r s ⟨hp2, hsize⟩ hg0 hy.1 hr0]
    exact hver

set_option maxRecDepth 100000 in
/-- C14 (witness): p = 103, g = 101, x = 7, M = 10, k = 55, with the signature
(87, 67). -/
theorem machine_elgamal_signature_valid_witness :
    Nat.Prime 103 ∧ ((103 : Nat) : Int) ≤ 3037000500 ∧
      (7 : Int) * (((103 : Nat) : Int) - 1) < 2 ^ 63 ∧
      (((103 : Nat) : Int) - 2) * (10 + ((103 : Nat) : Int) - 1) < 2 ^ 63 ∧
      Elgamal_signature.sign64 ((103 : Nat) : Int) 101 7 55 10 = .ok (87, 67) ∧
      ∃ r s : Int, Elgamal_signature.sign64 ((103 : Nat) : Int) 101 7 55 10 = .ok (r, s) ∧
        r = (power64 101 55 ((103 : Nat) : Int)).1 ∧ 0 ≤ s ∧
        (power64 101 10 ((103 : Nat) : Int)).1 =
          (wrap64 ((power64 (power64 101 7 ((103 : Nat) : Int)).1 r ((103 : Nat) : Int)).1 *
            (power64 r s ((103 : Nat) : Int)).1)).tmod ((103 : Nat) : Int) ∧
        Elgamal_signature.verify64 ((103 : Nat) : Int) 101
          (power64 101 7 ((103 : Nat) : Int)).1 10 r s = true :=
  ⟨by norm_num, by decide, by norm_num, by norm_num, by decide,
    machine_elgamal_signature_valid 103 (by norm_num) (by decide) 101 7 10 55 (by decide)
      (by decide) (by decide) (by decide) (by decide) (by norm_num) (by norm_num)⟩

set_option maxRecDepth 100000 in
/-- C15 (counterexample): for p = 103 with g = 101 (which passes the generator test),
x = 7 and the nonce k = 55 found by `main`, the signature (87, 67) of M = 10 also
verifies for the altered message M' = 112 = M + (p - 1); and the signature (87, -39) that
the wrapped product yields for M = 10^18 verifies for M' = 99, which is not congruent to
M modulo p - 1. -/
theorem machine_signature_accepts_shifted_message :
    (isGenerator64 101 103 = true ∧ scalarSearch 55 103 = .ok 55 ∧
      Elgamal_signature.sign64 103 101 7 55 10 = .ok (87, 67) ∧ (112 : Int) ≠ 10 ∧
      Elgamal_signature.verify64 103 101 (power64 101 7 103).1 112 87 67 = true) ∧
    (Elgamal_signature.sign64 103 101 7 55 1000000000000000000 = .ok (87, -39) ∧
      (99 : Int) % (103 - 1) ≠ 1000000000000000000 % (103 - 1) ∧
      Elgamal_signature.verify64 103 101 (power64 101 7 103).1 99 87 (-39) = true) := by
  decide

/-- C15 (amended): for every prime p ≤ 3037000500, valid key and signature (r, s)
produced for a message M ≥ 0 (with x*(p-1) < 2^63 and (p-2)*(M+p-1) < 2^63) and every
message M' ≥ 0, the verification power(g,M',p) == (power(y,r,p) * power(r,s,p)) % p
succeeds exactly when power(g,M',p) = power(g,M,p); when g is a primitive root modulo p
that is exactly when M' is congruent to M modulo p-1, so the verification is false for
every M' ≠ M with M and M' both in [0, p-2]. -/
theorem machine_elgamal_signature_altered (p : Nat) (hp : p.Prime)
    (hsize : (p : Int) ≤ 3037000500) (g x M k r s M' : Int)
    (hg : 1 ≤ g ∧ g < (p : Int)) (hx : 0 ≤ x) (hM : 0 ≤ M)
    (hk : 1 ≤ k ∧ k ≤ (p : Int) - 2) (hkc : Int.gcd k ((p : Int) - 1) = 1)
    (hxb : x * ((p : Int) - 1) < 2 ^ 63)
    (hMb : ((p : Int) - 2) * (M + (p : Int) - 1) < 2 ^ 63)
    (hsign : Elgamal_signature.sign64 (p : Int) g x k M = .ok (r, s)) (hM' : 0 ≤ M') :
    (Elgamal_signature.verify64 (p : Int) g (power64 g x (p : Int)).1 M' r s = true ↔
        (power64 g M' (p : Int)).1 = (power64 g M (p : Int)).1) ∧
    (orderOf ((g : Int) : ZMod p) = p - 1 →
      ((Elgamal_signature.verify64 (p : Int) g (power64 g x (p : Int)).1 M' r s = true ↔
          M' ≡ M [ZMOD ((p : Int) - 1)]) ∧
        (M < (p : Int) - 1 → M' < (p : Int) - 1 → M' ≠ M →
          Elgamal_signature.verify64 (p : Int) g (power64 g x (p : Int)).1 M' r s
            = false))) := by
  have hp2 : (2 : Int) ≤ (p : Int) := by exact_mod_cast hp.two_le
  have hg0 : 0 ≤ g := by omega
  have hm : 1 ≤ (p : Int) ∧ (p : Int) ≤ 3037000500 := ⟨by omega, hsize⟩
  rw [Elgamal_signature.sign64_eq p hsize g x k M hg0 hx hM hk hkc hxb hMb] at hsign
  obtain ⟨s0, hs0, -, -, -⟩ := Elgamal_signature.sign_spec p hp g x M k hg hx hM hk hkc
  have hr0 : 0 ≤ r := by
    rw [hsign] at hs0
    injection hs0 with h
    injection h with h1 h2
    rw [h1]
    exact (power_range_any g k (p : Int) hg0 hp2).1
  have hy := power_range_any g x (p : Int) hg0 hp2
  rw [power64_fst_eq g x _ hm hg0,
    Elgamal_signature.verify64_eq _ g _ M' r s ⟨hp2, hsize⟩ hg0 hy.1 hr0,
    power64_fst_eq g M' _ hm hg0, power64_fst_eq g M _ hm hg0]
  exact elgamal_signature_altered_message p hp g x M k r s M' hg hx hM hk hkc hsign hM'

set_option maxRecDepth 100000 in
/-- C15 (witness): p = 103, g = 101, x = 7, k = 55, the signature (87, 67) of M = 10 and
the altered message M' = 11. -/
theorem machine_elgamal_signature_altered_witness :
    Nat.Prime 103 ∧ ((103 : Nat) : Int) ≤ 3037000500 ∧
      Elgamal_signature.sign64 ((103 : Nat) : Int) 101 7 55 10 = .ok (87, 67) ∧
      (Elgamal_signature.verify64 ((103 : Nat) : Int) 101
          (power64 101 7 ((103 : Nat) : Int)).1 11 87 67 = true ↔
        (power64 101 11 ((103 : Nat) : Int)).1 = (power64 101 10 ((103 : Nat) : Int)).1) :=
  ⟨by norm_num, by decide, by decide,
    (machine_elgamal_signature_altered 103 (by norm_num) (by decide) 101 7 10 55 87 67 11
      (by decide) (by decide) (by decide) (by decide) (by decide) (by norm_num) (by norm_num)
      (by decide) (by decide)).1⟩

/-- Stripping a factor from a non-negative number does not increase it. -/
theorem stripFactor_le (i : Int) (hi : 0 ≤ i) :
    ∀ (fuel : Nat) (n : Int), 0 ≤ n → stripFactor fuel n i ≤ n := by
  intro fuel
  induction fuel with
  | zero => intro n _; simp [stripFactor]
  | succ fuel ih =>
    intro n hn
    rw [stripFactor]
    split
    · have e : n.tdiv i = n / i := Int.tdiv_eq_ediv hn hi
      have h1 : n.tdiv i ≤ n := by rw [e]; exact Int.ediv_le_self i hn
      have h0 : 0 ≤ n.tdiv i := by rw [e]; exact Int.ediv_nonneg hn hi
      exact le_trans (ih _ h0) h1
    · exact le_rfl

/-- While `n < 3037000499²` the product `i * i` of the trial division is never wrapped:
the machine loop is the exact loop. -/
theorem factorLoop64_eq :
    ∀ (fuel : Nat) (i n : Int) (fs : List Int), 0 ≤ i → i ≤ 3037000499 →
      n ≤ 9223372030926249000 → factorLoop64 fuel i n fs = factorLoop fuel i n fs := by
  intro fuel
  induction fuel with
  | zero => intro i n fs _ _ _; rfl
  | succ fuel ih =>
    intro i n fs hi0 hi hn
    have e63 : (2 : Int) ^ 63 = 9223372036854775808 := by norm_num
    have hw : wrap64 (i * i) = i * i :=
      wrap64_of_range _ (mul_nonneg hi0 hi0) (by rw [e63]; nlinarith)
    rw [factorLoop64, factorLoop, hw]
    by_cases hsq : i * i ≤ n
    · have hi1 : i + 1 ≤ 3037000499 := by
        by_contra hcon
        have : 3037000499 ≤ i := by omega
        nlinarith
      have hn0 : 0 ≤ n := le_trans (mul_nonneg hi0 hi0) hsq
      rw [if_pos hsq, if_pos hsq, ih (i + 1) _ _ (by omega) hi1
        (le_trans (stripFactor_le i hi0 _ n hn0) hn), ih (i + 1) n _ (by omega) hi1 hn]
    · rw [if_neg hsq, if_neg hsq]

/-- The factor list on machine integers is the exact factor list while
`phi < 3037000499²`. -/
theorem factorList64_eq (phi : Int) (hphi : phi ≤ 9223372030926249000) :
    factorList64 phi = factorList phi := by
  simp only [factorList64, factorList,
    factorLoop64_eq phi.toNat 2 phi [] (by decide) (by decide) hphi]

/-- The generator test on machine integers agrees with exact arithmetic for a modulus of
at most 3037000500. -/
theorem isGenerator64_eq (g p : Int) (hp : 1 ≤ p ∧ p ≤ 3037000500) (hg : 0 ≤ g) :
    isGenerator64 g p = isGenerator g p := by
  have h : ∀ b : Int, (power64 g b p).1 = power g b p := fun b => power64_fst_eq g b p hp hg
  simp only [isGenerator64, isGenerator, h, factorList64_eq (p - 1) (by omega)]

set_option maxRecDepth 1000000 in
/-- C16 (counterexample): for the prime p = 10000000019 the machine test accepts g = 100,
although 100 is a square and 100^((p-1)/2) = 1 modulo p, so its order is not p - 1. -/
theorem overflow_isGenerator :
    Nat.Prime 10000000019 ∧ ((1 : Int) ≤ 100 ∧ (100 : Int) < 10000000019) ∧
      isGenerator64 100 10000000019 = true ∧
      orderOf (((100 : Int)) : ZMod 10000000019) ≠ 10000000019 - 1 := by
  refine ⟨prime_10000000019, by decide, by decide, ?_⟩
  have h1 : power ((100 : Nat) : Int) ((5000000009 : Nat) : Int) ((10000000019 : Nat) : Int) = 1 := by
    decide
  have h2 := cast_power_natCast 10000000019 (by norm_num) 100 5000000009
  rw [h1] at h2
  have h3 : (((100 : Int)) : ZMod 10000000019) ^ 5000000009 = 1 := by
    rw [← Int.cast_one (R := ZMod 10000000019)]
    rw [h2]
    push_cast
    rfl
  have h4 := orderOf_dvd_of_pow_eq_one h3
  intro h5
  rw [h5] at h4
  have := Nat.le_of_dvd (by norm_num) h4
  omega

/-- C16 (amended): for every prime p ≤ 3037000500 and every g with 1 ≤ g < p,
isGenerator(g, p) returns true if and only if g is a primitive root modulo p (the
multiplicative order of g mod p is p - 1); the trial-division loop collects exactly the
distinct prime factors of p - 1. -/
theorem machine_isGenerator_correct (p : Nat) (hp : p.Prime)
    (hsize : (p : Int) ≤ 3037000500) (g : Int) (hg : 1 ≤ g ∧ g < (p : Int)) :
    (isGenerator64 g (p : Int) = true ↔ orderOf ((g : Int) : ZMod p) = p - 1) ∧
      (∀ f : Int, f ∈ factorList64 ((p : Int) - 1) ↔
        ∃ q : Nat, f = (q : Int) ∧ q.Prime ∧ q ∣ p - 1) ∧
      (factorList64 ((p : Int) - 1)).Nodup := by
  have hp1 : (1 : Int) ≤ (p : Int) := by exact_mod_cast hp.one_lt.le
  rw [isGenerator64_eq g _ ⟨hp1, hsize⟩ (by omega), factorList64_eq _ (by omega)]
  exact isGenerator_correct p hp g hg

set_option maxRecDepth 100000 in
/-- C16 (witness): 3 is a primitive root modulo 7 and 2 is not; the factor list of 6
is [2, 3]. -/
theorem machine_isGenerator_correct_witness :
    Nat.Prime 7 ∧ ((7 : Nat) : Int) ≤ 3037000500 ∧
      isGenerator64 3 ((7 : Nat) : Int) = true ∧ isGenerator64 2 ((7 : Nat) : Int) = false ∧
      factorList64 (((7 : Nat) : Int) - 1) = [2, 3] ∧
      (isGenerator64 3 ((7 : Nat) : Int) = true ↔ orderOf (((3 : Int)) : ZMod 7) = 7 - 1) :=
  ⟨by norm_num, by decide, by decide, by decide, by decide,
    (machine_isGenerator_correct 7 (by norm_num) (by decide) 3 (by decide)).1⟩

/-! ## Elliptic curve on machine integers -/

/-- The product of two values of absolute value at most 3037000499 is not wrapped, and
its absolute value is at most 3037000499². -/
theorem wrap64_mul_signed (x y : Int) (hx : -3037000499 ≤ x ∧ x ≤ 3037000499)
    (hy : -3037000499 ≤ y ∧ y ≤ 3037000499) :
    wrap64 (x * y) = x * y ∧ -9223372030926249001 ≤ x * y ∧ x * y ≤ 9223372030926249001 := by
  have hax : |x| ≤ 3037000499 := abs_le.mpr hx
  have hay : |y| ≤ 3037000499 := abs_le.mpr hy
  have h : |x * y| ≤ 3037000499 * 3037000499 := by
    rw [abs_mul]
    exact mul_le_mul hax hay (abs_nonneg y) (by norm_num)
  have h2 := abs_le.mp h
  have e : (3037000499 : Int) * 3037000499 = 9223372030926249001 := by norm_num
  rw [e] at h2
  have e63 : (2 : Int) ^ 63 = 9223372036854775808 := by norm_num
  exact ⟨wrap64_of_bounds _ (by rw [e63]; omega) (by rw [e63]; omega), h2.1, h2.2⟩

/-- The tail of `add`, from the slope `lam` to the result, is not changed by the
wrap-around when the slope and the coordinates are residues of a modulus of at most
3037000500. -/
theorem Elliptic_curve_encryption.add64_tail_eq (p : Nat) (hp0 : 0 < p)
    (hsize : (p : Int) ≤ 3037000500) (lam x1 y1 x2 : Int)
    (hl : 0 ≤ lam ∧ lam < (p : Int)) (hx1 : 0 ≤ x1 ∧ x1 < (p : Int))
    (hy1 : 0 ≤ y1 ∧ y1 < (p : Int)) (hx2 : 0 ≤ x2 ∧ x2 < (p : Int)) :
    wrap64 (wrap64 (wrap64 (lam * lam) - x1) - x2) = lam * lam - x1 - x2 ∧
    ∀ xr : Int, 0 ≤ xr ∧ xr < (p : Int) →
      wrap64 (wrap64 (lam * wrap64 (x1 - xr)) - y1) = lam * (x1 - xr) - y1 := by
  have e63 : (2 : Int) ^ 63 = 9223372036854775808 := by norm_num
  obtain ⟨h1, h2, h3⟩ := wrap64_mul_signed lam lam ⟨by omega, by omega⟩ ⟨by omega, by omega⟩
  have h0 : 0 ≤ lam * lam := mul_nonneg hl.1 hl.1
  constructor
  · rw [h1, wrap64_of_bounds (lam * lam - x1) (by rw [e63]; omega) (by rw [e63]; omega),
      wrap64_of_bounds (lam * lam - x1 - x2) (by rw [e63]; omega) (by rw [e63]; omega)]
  · intro xr hxr
    obtain ⟨h4, h5, h6⟩ := wrap64_mul_signed lam (x1 - xr) ⟨by omega, by omega⟩
      ⟨by omega, by omega⟩
    rw [wrap64_of_bounds (x1 - xr) (by rw [e63]; omega) (by rw [e63]; omega), h4,
      wrap64_of_bounds (lam * (x1 - xr) - y1) (by rw [e63]; omega) (by rw [e63]; omega)]

/-- In the chord case `add` on machine integers agrees with exact arithmetic for a prime
modulus of at most 3037000500 and coordinates in `[0, p)`. -/
theorem Elliptic_curve_encryption.add64_chord_eq (p : Nat) (hp : p.Prime)
    (hsize : (p : Int) ≤ 3037000500) (a b x1 y1 x2 y2 : Int)
    (hx1 : 0 ≤ x1 ∧ x1 < (p : Int)) (hy1 : 0 ≤ y1 ∧ y1 < (p : Int))
    (hx2 : 0 ≤ x2 ∧ x2 < (p : Int)) (hy2 : 0 ≤ y2 ∧ y2 < (p : Int)) (hx : x1 ≠ x2) :
    Elliptic_curve_encryption.add64 ⟨(p : Int), a, b⟩ (.affine x1 y1) (.affine x2 y2)
      = Elliptic_curve_encryption.add ⟨(p : Int), a, b⟩ (.affine x1 y1) (.affine x2 y2) := by
  have e63 : (2 : Int) ^ 63 = 9223372036854775808 := by norm_num
  have hp0 : 0 < p := hp.pos
  have hinv : ¬ (x1 = x2 ∧ (y1 ≠ y2 ∨ y1 = 0)) := fun h => hx h.1
  have hdbl : ¬ (x1 = x2 ∧ y1 = y2) := fun h => hx h.1
  have hw1 : wrap64 (x2 - x1) = x2 - x1 :=
    wrap64_of_bounds _ (by rw [e63]; omega) (by rw [e63]; omega)
  have hw2 : wrap64 (y2 - y1) = y2 - y1 :=
    wrap64_of_bounds _ (by rw [e63]; omega) (by rw [e63]; omega)
  simp only [Elliptic_curve_encryption.add64, Elliptic_curve_encryption.add, if_neg hinv,
    if_neg hdbl, hw1, hw2]
  cases hden : modInverse (Elliptic_curve_encryption.mod (x2 - x1) (p : Int)) (p : Int) with
  | error f => rfl
  | ok den =>
    have hd := modInverse_prime_range p hp _ den
      (Elliptic_curve_encryption.mod_range p hp0 (x2 - x1)) hden
    have hnum := Elliptic_curve_encryption.mod_range p hp0 (y2 - y1)
    have hw3 := wrap64_mul_residues (p : Int) _ _ hsize hnum hd
    have hl := Elliptic_curve_encryption.mod_range p hp0
      (Elliptic_curve_encryption.mod (y2 - y1) (p : Int) * den)
    obtain ⟨hw4, hw5⟩ := Elliptic_curve_encryption.add64_tail_eq p hp0 hsize _ x1 y1 x2
      hl hx1 hy1 hx2
    simp only [hw3, hw4, hw5 _ (Elliptic_curve_encryption.mod_range p hp0 _)]

/-- The size condition on the curve: `3 * (p - 1)² + |a| < 2^63` puts the modulus below
3037000500. -/
theorem Elliptic_curve_encryption.modulus_le_of_curve_bound (p : Nat) (a : Int)
    (hcurve : 3 * ((p : Int) - 1) ^ 2 + |a| < 2 ^ 63) : (p : Int) ≤ 3037000500 := by
  have e63 : (2 : Int) ^ 63 = 9223372036854775808 := by norm_num
  rw [e63] at hcurve
  have ha := abs_nonneg a
  by_contra hlt
  have h1 : (3037000500 : Int) ≤ (p : Int) - 1 := by omega
  have h2 : (3037000500 : Int) * 3037000500 ≤ ((p : Int) - 1) ^ 2 := by nlinarith
  omega

/-- In the doubling case `add` on machine integers agrees with exact arithmetic when
`3 * (p - 1)² + |a| < 2^63`. -/
theorem Elliptic_curve_encryption.add64_double_eq (p : Nat) (hp : p.Prime) (a b x1 y1 : Int)
    (hcurve : 3 * ((p : Int) - 1) ^ 2 + |a| < 2 ^ 63)
    (hx1 : 0 ≤ x1 ∧ x1 < (p : Int)) (hy1 : 0 ≤ y1 ∧ y1 < (p : Int)) :
    Elliptic_curve_encryption.add64 ⟨(p : Int), a, b⟩ (.affine x1 y1) (.affine x1 y1)
      = Elliptic_curve_encryption.add ⟨(p : Int), a, b⟩ (.affine x1 y1) (.affine x1 y1) := by
  have e63 : (2 : Int) ^ 63 = 9223372036854775808 := by norm_num
  have hp0 : 0 < p := hp.pos
  have hsize := Elliptic_curve_encryption.modulus_le_of_curve_bound p a hcurve
  by_cases hy0 : y1 = 0
  · simp [Elliptic_curve_encryption.add64, Elliptic_curve_encryption.add, hy0]
  · have habs := abs_le.mp (le_refl |a|)
    have ha0 := abs_nonneg a
    have hsq : x1 * x1 ≤ ((p : Int) - 1) ^ 2 := by nlinarith
    have hsq0 : 0 ≤ x1 * x1 := mul_nonneg hx1.1 hx1.1
    have hlin : x1 ≤ x1 * x1 ∨ x1 = 0 := by
      rcases eq_or_lt_of_le hx1.1 with h | h
      · exact Or.inr h.symm
      · left; nlinarith
    rw [e63] at hcurve
    have hw1 : wrap64 (3 * x1) = 3 * x1 :=
      wrap64_of_range _ (by omega) (by rw [e63]; rcases hlin with h | h <;> omega)
    have hmul : 3 * x1 * x1 = 3 * (x1 * x1) := by ring
    have hw2 : wrap64 (3 * x1 * x1) = 3 * x1 * x1 := by
      rw [hmul]
      exact wrap64_of_range _ (by omega) (by rw [e63]; omega)
    have hw3 : wrap64 (3 * x1 * x1 + a) = 3 * x1 * x1 + a := by
      rw [hmul]
      exact wrap64_of_bounds _ (by rw [e63]; omega) (by rw [e63]; omega)
    have hw0 : wrap64 (2 * y1) = 2 * y1 :=
      wrap64_of_range _ (by omega) (by rw [e63]; omega)
    simp only [Elliptic_curve_encryption.add64, Elliptic_curve_encryption.add, ne_eq,
      not_true_eq_false, false_or, true_and, and_self, hy0, if_false, if_true, hw0, hw1, hw2,
      hw3]
    cases hden : modInverse (Elliptic_curve_encryption.mod (2 * y1) (p : Int)) (p : Int) with
    | error f => rfl
    | ok den =>
      have hd := modInverse_prime_range p hp _ den
        (Elliptic_curve_encryption.mod_range p hp0 (2 * y1)) hden
      have hnum := Elliptic_curve_encryption.mod_range p hp0 (3 * x1 * x1 + a)
      have hw4 := wrap64_mul_residues (p : Int) _ _ hsize hnum hd
      have hl := Elliptic_curve_encryption.mod_range p hp0
        (Elliptic_curve_encryption.mod (3 * x1 * x1 + a) (p : Int) * den)
      obtain ⟨hw5, hw6⟩ := Elliptic_curve_encryption.add64_tail_eq p hp0 hsize _ x1 y1 x1
        hl hx1 hy1 hx1
      simp only [hw4, hw5, hw6 _ (Elliptic_curve_encryption.mod_range p hp0 _)]

/-- On points with coordinates in `[0, p)` `add` on machine integers agrees with exact
arithmetic when `3 * (p - 1)² + |a| < 2^63`. -/
theorem Elliptic_curve_encryption.add64_eq (p : Nat) (hp : p.Prime) (a b x1 y1 x2 y2 : Int)
    (hcurve : 3 * ((p : Int) - 1) ^ 2 + |a| < 2 ^ 63)
    (hx1 : 0 ≤ x1 ∧ x1 < (p : Int)) (hy1 : 0 ≤ y1 ∧ y1 < (p : Int))
    (hx2 : 0 ≤ x2 ∧ x2 < (p : Int)) (hy2 : 0 ≤ y2 ∧ y2 < (p : Int)) :
    Elliptic_curve_encryption.add64 ⟨(p : Int), a, b⟩ (.affine x1 y1) (.affine x2 y2)
      = Elliptic_curve_encryption.add ⟨(p : Int), a, b⟩ (.affine x1 y1) (.affine x2 y2) := by
  by_cases hx : x1 = x2
  · subst hx
    by_cases hy : y1 = y2
    · subst hy
      exact Elliptic_curve_encryption.add64_double_eq p hp a b x1 y1 hcurve hx1 hy1
    · simp [Elliptic_curve_encryption.add64, Elliptic_curve_encryption.add, hy]
  · exact Elliptic_curve_encryption.add64_chord_eq p hp
      (Elliptic_curve_encryption.modulus_le_of_curve_bound p a hcurve) a b x1 y1 x2 y2
      hx1 hy1 hx2 hy2 hx

set_option maxRecDepth 100000 in
/-- C20 (counterexample): modulo the prime p = 10000000019 with a = b = 2 the sum of
(1, 2) and (4, 3) is (5783706508, 6732835788) and the sum of (4, 3) and (1, 2) is
(7867154101, 2952903264): `num * den` and `lambda * lambda` leave the 64-bit range. -/
theorem overflow_ec_add_comm :
    Nat.Prime 10000000019 ∧
      Elliptic_curve_encryption.add64 ⟨10000000019, 2, 2⟩ (.affine 1 2) (.affine 4 3)
        = .ok (.affine 5783706508 6732835788) ∧
      Elliptic_curve_encryption.add64 ⟨10000000019, 2, 2⟩ (.affine 4 3) (.affine 1 2)
        = .ok (.affine 7867154101 2952903264) :=
  ⟨prime_10000000019, by decide, by decide⟩

open Elliptic_curve_encryption in
/-- C20 (amended): point addition on machine integers is commutative. For every prime
p ≤ 3037000500, all curve parameters a, b and all points P, Q that are the identity or
have coordinates in [0, p-1], add(P, Q) and add(Q, P) return the same point. -/
theorem machine_ec_add_comm (p : Nat) (hp : p.Prime) (hsize : (p : Int) ≤ 3037000500)
    (a b : Int) (P Q : Elliptic_curve_encryption.Point)
    (hP : ∀ x y : Int, P = .affine x y → (0 ≤ x ∧ x < (p : Int)) ∧ (0 ≤ y ∧ y < (p : Int)))
    (hQ : ∀ x y : Int, Q = .affine x y → (0 ≤ x ∧ x < (p : Int)) ∧ (0 ≤ y ∧ y < (p : Int))) :
    add64 ⟨(p : Int), a, b⟩ P Q = add64 ⟨(p : Int), a, b⟩ Q P ∧
      ∃ R : Point, add64 ⟨(p : Int), a, b⟩ P Q = .ok R := by
  have hp0 : 0 < p := hp.pos
  cases P with
  | infinity =>
    cases Q with
    | infinity => exact ⟨rfl, _, rfl⟩
    | affine x2 y2 => exact ⟨rfl, _, rfl⟩
  | affine x1 y1 =>
    cases Q with
    | infinity => exact ⟨rfl, _, rfl⟩
    | affine x2 y2 =>
      obtain ⟨hx1, hy1⟩ := hP x1 y1 rfl
      obtain ⟨hx2, hy2⟩ := hQ x2 y2 rfl
      by_cases hx : x1 = x2
      · subst hx
        by_cases hinv : y1 ≠ y2 ∨ y1 = 0
        · have hinv' : y2 ≠ y1 ∨ y2 = 0 := by
            rcases hinv with h | h
            · exact Or.inl (Ne.symm h)
            · by_cases hy : y2 = y1
              · right; rw [hy]; exact h
              · exact Or.inl hy
          have e1 : add64 ⟨(p : Int), a, b⟩ (.affine x1 y1) (.affine x1 y2) = .ok .infinity := by
            simp only [add64, true_and, if_pos hinv]
          have e2 : add64 ⟨(p : Int), a, b⟩ (.affine x1 y2) (.affine x1 y1) = .ok .infinity := by
            simp only [add64, true_and, if_pos hinv']
          exact ⟨e1.trans e2.symm, _, e1⟩
        · have hy : y1 = y2 := by
            by_contra hne
            exact hinv (Or.inl hne)
          subst hy
          have hy0 : y1 ≠ 0 := fun h => hinv (Or.inr h)
          refine ⟨rfl, ?_⟩
          obtain ⟨v, hv, -⟩ := modInverse_prime_ok p hp (mod (wrap64 (2 * y1)) (p : Int))
            (mod_range p hp0 _)
          have e : ∀ r : Except Fault Point,
              r = add64 ⟨(p : Int), a, b⟩ (.affine x1 y1) (.affine x1 y1) → ∃ R, r = .ok R := by
            intro r hr
            simp [add64, hy0, hv] at hr
            exact ⟨_, hr⟩
          exact e _ rfl
      · obtain ⟨R, e1, e2⟩ := add_chord_comm p hp a b x1 y1 x2 y2 hx1 hx2 hx
        rw [add64_chord_eq p hp hsize a b x1 y1 x2 y2 hx1 hy1 hx2 hy2 hx,
          add64_chord_eq p hp hsize a b x2 y2 x1 y1 hx2 hy2 hx1 hy1 (Ne.symm hx)]
        exact ⟨e1.trans e2.symm, R, e1⟩

open Elliptic_curve_encryption in
/-- C20 (witness): the curve p = 17, a = 2, b = 2 with P = (5, 1) and Q = (6, 3). -/
theorem machine_ec_add_comm_witness :
    Nat.Prime 17 ∧ ((17 : Nat) : Int) ≤ 3037000500 ∧
      add64 ⟨((17 : Nat) : Int), 2, 2⟩ (.affine 5 1) (.affine 6 3) =
        add64 ⟨((17 : Nat) : Int), 2, 2⟩ (.affine 6 3) (.affine 5 1) ∧
      ∃ R : Point, add64 ⟨((17 : Nat) : Int), 2, 2⟩ (.affine 5 1) (.affine 6 3) = .ok R :=
  ⟨by norm_num, by decide,
    machine_ec_add_comm 17 (by norm_num) (by decide) 2 2 (.affine 5 1) (.affine 6 3)
      (fun x y h => by cases h; decide) (fun x y h => by cases h; decide)⟩

set_option maxRecDepth 100000 in
/-- C25 (counterexample): modulo the odd prime p = 10000000019 with a = b = 2 the points
P = (1, 8068369918) and Q = (2, 2429991099) satisfy the curve equation, and add(P, Q)
returns (7483597102, 3290134630), which does not satisfy it. -/
theorem overflow_ec_add_closed :
    Nat.Prime 10000000019 ∧ (10000000019 : Nat) ≠ 2 ∧
      ((8068369918 : Int) * 8068369918) % 10000000019
        = (1 * 1 * 1 + 2 * 1 + 2) % 10000000019 ∧
      ((2429991099 : Int) * 2429991099) % 10000000019
        = (2 * 2 * 2 + 2 * 2 + 2) % 10000000019 ∧
      Elliptic_curve_encryption.add64 ⟨10000000019, 2, 2⟩ (.affine 1 8068369918)
        (.affine 2 2429991099) = .ok (.affine 7483597102 3290134630) ∧
      ((3290134630 : Int) * 3290134630) % 10000000019
        ≠ (7483597102 * 7483597102 * 7483597102 + 2 * 7483597102 + 2) % 10000000019 :=
  ⟨prime_10000000019, by decide, by decide, by decide, by decide, by decide⟩

/-- C25 (amended): closure of the group law on machine integers. For every odd prime p
and every a with 3*(p-1)² + |a| < 2^63, every b, and all non-identity points
P = (x1, y1), Q = (x2, y2) with coordinates in [0, p-1] satisfying
y² ≡ x³ + a·x + b (mod p), add(P, Q) is either the identity or a point with coordinates in
[0, p-1] that satisfies the same curve equation. -/
theorem machine_ec_add_closed (p : Nat) (hp : p.Prime) (hodd : p ≠ 2) (a b : Int)
    (hcurve : 3 * ((p : Int) - 1) ^ 2 + |a| < 2 ^ 63) (x1 y1 x2 y2 : Int)
    (hx1 : 0 ≤ x1 ∧ x1 < (p : Int)) (hy1 : 0 ≤ y1 ∧ y1 < (p : Int))
    (hx2 : 0 ≤ x2 ∧ x2 < (p : Int)) (hy2 : 0 ≤ y2 ∧ y2 < (p : Int))
    (hP : (y1 * y1) % (p : Int) = (x1 * x1 * x1 + a * x1 + b) % (p : Int))
    (hQ : (y2 * y2) % (p : Int) = (x2 * x2 * x2 + a * x2 + b) % (p : Int)) :
    Elliptic_curve_encryption.add64 ⟨(p : Int), a, b⟩ (.affine x1 y1) (.affine x2 y2)
        = .ok .infinity ∨
      ∃ x3 y3 : Int,
        Elliptic_curve_encryption.add64 ⟨(p : Int), a, b⟩ (.affine x1 y1) (.affine x2 y2)
          = .ok (.affine x3 y3) ∧
        (0 ≤ x3 ∧ x3 < (p : Int)) ∧ (0 ≤ y3 ∧ y3 < (p : Int)) ∧
        (y3 * y3) % (p : Int) = (x3 * x3 * x3 + a * x3 + b) % (p : Int) := by
  rw [Elliptic_curve_encryption.add64_eq p hp a b x1 y1 x2 y2 hcurve hx1 hy1 hx2 hy2]
  exact ec_add_closed p hp hodd a b x1 y1 x2 y2 hx1 hy1 hx2 hy2 hP hQ

/-- C25 (witness): doubling (5, 1) on y² = x³ + 2x + 2 over F_17 gives (6, 3). -/
theorem machine_ec_add_closed_witness :
    Nat.Prime 17 ∧ (17 : Nat) ≠ 2 ∧
      3 * (((17 : Nat) : Int) - 1) ^ 2 + |(2 : Int)| < 2 ^ 63 ∧
      Elliptic_curve_encryption.add64 ⟨((17 : Nat) : Int), 2, 2⟩ (.affine 5 1) (.affine 5 1)
        = .ok (.affine 6 3) ∧
      (Elliptic_curve_encryption.add64 ⟨((17 : Nat) : Int), 2, 2⟩ (.affine 5 1) (.affine 5 1)
          = .ok .infinity ∨
        ∃ x3 y3 : Int,
          Elliptic_curve_encryption.add64 ⟨((17 : Nat) : Int), 2, 2⟩ (.affine 5 1)
            (.affine 5 1) = .ok (.affine x3 y3) ∧
          (0 ≤ x3 ∧ x3 < ((17 : Nat) : Int)) ∧ (0 ≤ y3 ∧ y3 < ((17 : Nat) : Int)) ∧
          (y3 * y3) % ((17 : Nat) : Int) = (x3 * x3 * x3 + 2 * x3 + 2) % ((17 : Nat) : Int)) :=
  ⟨by norm_num, by decide, by norm_num [abs_of_nonneg], by decide,
    machine_ec_add_closed 17 (by norm_num) (by decide) 2 2 (by norm_num [abs_of_nonneg])
      5 1 5 1 (by decide) (by decide) (by decide) (by decide) (by decide) (by decide)⟩

/-! ### Machine `add`, `multiply` and the group of the curve -/

/-- On points that stand for points of the group, `add` on machine integers agrees with
exact arithmetic when `3 * (p - 1)² + |a| < 2^63`. -/
theorem Elliptic_curve_encryption.add64_eq_of_represents (p : Nat) (hp : p.Prime)
    (a b : Int) (hcurve : 3 * ((p : Int) - 1) ^ 2 + |a| < 2 ^ 63)
    (P1 P2 : Elliptic_curve_encryption.Point)
    (Q1 Q2 : (Elliptic_curve_encryption.weierstrass p a b).Point)
    (h1 : Elliptic_curve_encryption.Represents p a b P1 Q1)
    (h2 : Elliptic_curve_encryption.Represents p a b P2 Q2) :
    Elliptic_curve_encryption.add64 ⟨(p : Int), a, b⟩ P1 P2
      = Elliptic_curve_encryption.add ⟨(p : Int), a, b⟩ P1 P2 := by
  cases P1 with
  | infinity => cases P2 <;> rfl
  | affine x1 y1 =>
    cases P2 with
    | infinity => rfl
    | affine x2 y2 =>
      exact Elliptic_curve_encryption.add64_eq p hp a b x1 y1 x2 y2 hcurve h1.1 h1.2.1
        h2.1 h2.2.1

/-- The machine `add` computes the sum of the group. -/
theorem Elliptic_curve_encryption.represents_add64 (p : Nat) [Fact p.Prime] (hodd : p ≠ 2)
    (a b : Int) (hcurve : 3 * ((p : Int) - 1) ^ 2 + |a| < 2 ^ 63)
    (P1 P2 : Elliptic_curve_encryption.Point)
    (Q1 Q2 : (Elliptic_curve_encryption.weierstrass p a b).Point)
    (h1 : Elliptic_curve_encryption.Represents p a b P1 Q1)
    (h2 : Elliptic_curve_encryption.Represents p a b P2 Q2) :
    ∃ R, Elliptic_curve_encryption.add64 ⟨(p : Int), a, b⟩ P1 P2 = .ok R ∧
      Elliptic_curve_encryption.Represents p a b R (Q1 + Q2) := by
  rw [Elliptic_curve_encryption.add64_eq_of_represents p (Fact.out) a b hcurve P1 P2 Q1 Q2
    h1 h2]
  exact Elliptic_curve_encryption.represents_add p hodd a b P1 P2 Q1 Q2 h1 h2

/-- The k-fold sum with the machine `add` stands for `k • Q`. -/
theorem Elliptic_curve_encryption.represents_repeatedAdd64 (p : Nat) [Fact p.Prime]
    (hodd : p ≠ 2) (a b : Int) (hcurve : 3 * ((p : Int) - 1) ^ 2 + |a| < 2 ^ 63)
    (P : Elliptic_curve_encryption.Point)
    (Q : (Elliptic_curve_encryption.weierstrass p a b).Point)
    (h : Elliptic_curve_encryption.Represents p a b P Q) (k : Nat) :
    ∃ R, Elliptic_curve_encryption.repeatedAdd64 ⟨(p : Int), a, b⟩ P k = .ok R ∧
      Elliptic_curve_encryption.Represents p a b R (k • Q) := by
  induction k with
  | zero =>
    refine ⟨.infinity, rfl, ?_⟩
    rw [zero_nsmul]
    rfl
  | succ k ih =>
    obtain ⟨R, hR, hrep⟩ := ih
    obtain ⟨R2, hR2, hrep2⟩ :=
      Elliptic_curve_encryption.represents_add64 p hodd a b hcurve R P _ _ hrep h
    refine ⟨R2, ?_, ?_⟩
    · simp only [Elliptic_curve_encryption.repeatedAdd64, hR, hR2]
    · rw [succ_nsmul]
      exact hrep2

/-- Invariant of the loop of `multiply` with the machine `add`: with `R` standing for
`QR` and `P` for `QP`, the loop with at least `n` rounds of fuel returns a point that
stands for `QR + n • QP`. -/
theorem Elliptic_curve_encryption.represents_multiplyLoop64 (p : Nat) [Fact p.Prime]
    (hodd : p ≠ 2) (a b : Int) (hcurve : 3 * ((p : Int) - 1) ^ 2 + |a| < 2 ^ 63) :
    ∀ (fuel n : Nat) (R P : Elliptic_curve_encryption.Point)
      (QR QP : (Elliptic_curve_encryption.weierstrass p a b).Point), n ≤ fuel →
      Elliptic_curve_encryption.Represents p a b R QR →
      Elliptic_curve_encryption.Represents p a b P QP →
      ∃ R2, Elliptic_curve_encryption.multiplyLoop64 ⟨(p : Int), a, b⟩ fuel R P (n : Int)
          = .ok R2 ∧
        Elliptic_curve_encryption.Represents p a b R2 (QR + n • QP) := by
  intro fuel
  induction fuel with
  | zero =>
    intro n R P QR QP hn hR _
    have h0 : n = 0 := by omega
    subst h0
    refine ⟨R, rfl, ?_⟩
    rw [zero_nsmul, add_zero]
    exact hR
  | succ fuel ih =>
    intro n R P QR QP hn hR hP
    by_cases hpos : 0 < n
    · have hk : (0 : Int) < (n : Int) := by exact_mod_cast hpos
      have hdiv : (n : Int) / 2 = ((n / 2 : Nat) : Int) := by norm_cast
      obtain ⟨P1, hP1, hrepP1⟩ :=
        Elliptic_curve_encryption.represents_add64 p hodd a b hcurve P P QP QP hP hP
      have hsplit : n • QP = (n % 2) • QP + (n / 2) • (QP + QP) := by
        rw [← two_nsmul, smul_smul, ← add_nsmul]
        congr 1
        omega
      by_cases hodd2 : (n : Int) % 2 = 1
      · obtain ⟨R1, hR1, hrepR1⟩ :=
          Elliptic_curve_encryption.represents_add64 p hodd a b hcurve R P QR QP hR hP
        obtain ⟨R2, hR2, hrepR2⟩ := ih (n / 2) R1 P1 _ _ (by omega) hrepR1 hrepP1
        refine ⟨R2, ?_, ?_⟩
        · simp only [Elliptic_curve_encryption.multiplyLoop64, if_pos hk, if_pos hodd2, hR1,
            hP1, hdiv, hR2]
        · have hm : n % 2 = 1 := by omega
          rw [hsplit, hm, one_nsmul, ← add_assoc]
          exact hrepR2
      · obtain ⟨R2, hR2, hrepR2⟩ := ih (n / 2) R P1 _ _ (by omega) hR hrepP1
        refine ⟨R2, ?_, ?_⟩
        · simp only [Elliptic_curve_encryption.multiplyLoop64, if_pos hk, if_neg hodd2, hP1,
            hdiv, hR2]
        · have hm : n % 2 = 0 := by omega
          rw [hsplit, hm, zero_nsmul, zero_add]
          exact hrepR2
    · have h0 : n = 0 := by omega
      subst h0
      refine ⟨R, ?_, ?_⟩
      · simp [Elliptic_curve_encryption.multiplyLoop64]
      · rw [zero_nsmul, add_zero]
        exact hR

/-- Function `multiply` with the machine `add` computes the scalar multiple of the group
for every `k ≥ 0`. -/
theorem Elliptic_curve_encryption.represents_multiply64 (p : Nat) [Fact p.Prime]
    (hodd : p ≠ 2) (a b : Int) (hcurve : 3 * ((p : Int) - 1) ^ 2 + |a| < 2 ^ 63)
    (P : Elliptic_curve_encryption.Point)
    (Q : (Elliptic_curve_encryption.weierstrass p a b).Point)
    (h : Elliptic_curve_encryption.Represents p a b P Q) (k : Int) (hk : 0 ≤ k) :
    ∃ R, Elliptic_curve_encryption.multiply64 ⟨(p : Int), a, b⟩ P k = .ok R ∧
      Elliptic_curve_encryption.Represents p a b R (k.toNat • Q) := by
  obtain ⟨n, rfl⟩ := Int.eq_ofNat_of_zero_le hk
  obtain ⟨R, hR, hrep⟩ := Elliptic_curve_encryption.represents_multiplyLoop64 p hodd a b
    hcurve n n .infinity P 0 Q le_rfl rfl h
  refine ⟨R, ?_, ?_⟩
  · simp only [Elliptic_curve_encryption.multiply64, Int.toNat_ofNat]
    exact hR
  · rw [Int.toNat_ofNat]
    rw [zero_add] at hrep
    exact hrep

/-- Double-and-add and the k-fold sum with the machine `add` return the same point, which
stands for `k • Q`. -/
theorem Elliptic_curve_encryption.multiply64_repeatedAdd64 (p : Nat) [Fact p.Prime]
    (hodd : p ≠ 2) (a b : Int) (hcurve : 3 * ((p : Int) - 1) ^ 2 + |a| < 2 ^ 63)
    (P : Elliptic_curve_encryption.Point)
    (Q : (Elliptic_curve_encryption.weierstrass p a b).Point)
    (h : Elliptic_curve_encryption.Represents p a b P Q) (k : Int) (hk : 0 ≤ k) :
    ∃ R, Elliptic_curve_encryption.multiply64 ⟨(p : Int), a, b⟩ P k = .ok R ∧
      Elliptic_curve_encryption.repeatedAdd64 ⟨(p : Int), a, b⟩ P k.toNat = .ok R ∧
      Elliptic_curve_encryption.Represents p a b R (k.toNat • Q) := by
  obtain ⟨R1, h1, hr1⟩ :=
    Elliptic_curve_encryption.represents_multiply64 p hodd a b hcurve P Q h k hk
  obtain ⟨R2, h2, hr2⟩ :=
    Elliptic_curve_encryption.represents_repeatedAdd64 p hodd a b hcurve P Q h k.toNat
  have heq := Elliptic_curve_encryption.represents_inj p a b R1 R2 _ hr1 hr2
  subst heq
  exact ⟨R1, h1, h2, hr1⟩

set_option maxRecDepth 100000 in
/-- C22 (counterexample): modulo the prime p = 10000000019 with a = b = 2 (non-singular:
4a³ + 27b² = 140) the point P = (1, 8068369918) is on the curve, multiply(P, 3) returns
(8398294079, 8654217114) and the 3-fold sum is (8398294079, 936592776). -/
theorem overflow_ec_multiply :
    Nat.Prime 10000000019 ∧ 3 < 10000000019 ∧
      (4 * (2 : Int) ^ 3 + 27 * (2 : Int) ^ 2) % 10000000019 ≠ 0 ∧
      Elliptic_curve_encryption.onCurve ⟨10000000019, 2, 2⟩ (.affine 1 8068369918) ∧
      Elliptic_curve_encryption.multiply64 ⟨10000000019, 2, 2⟩ (.affine 1 8068369918) 3
        = .ok (.affine 8398294079 8654217114) ∧
      Elliptic_curve_encryption.repeatedAdd64 ⟨10000000019, 2, 2⟩ (.affine 1 8068369918) 3
        = .ok (.affine 8398294079 936592776) :=
  ⟨prime_10000000019, by decide, by decide, ⟨by decide, by decide, by decide⟩, by decide,
    by decide⟩

/-- C22 (amended): double-and-add agrees with repeated addition on machine integers. For
every prime p > 3 and a with 3*(p-1)² + |a| < 2^63, non-singular curve (a, b)
(4a³ + 27b² not divisible by p), point P on the curve and scalar k ≥ 0, multiply(P, k)
returns the k-fold sum obtained by starting from the identity and applying add(., P)
k times, and this point is on the curve; on p = 17, a = 2, b = 2 with G = (5, 1),
multiply(G, 2) = (6, 3). -/
theorem machine_ec_multiply_repeatedAdd (p : Nat) (hp : p.Prime) (h3 : 3 < p) (a b : Int)
    (hcurve : 3 * ((p : Int) - 1) ^ 2 + |a| < 2 ^ 63)
    (hns : (4 * a ^ 3 + 27 * b ^ 2) % (p : Int) ≠ 0) (P : Elliptic_curve_encryption.Point)
    (hP : Elliptic_curve_encryption.onCurve ⟨(p : Int), a, b⟩ P) (k : Int) (hk : 0 ≤ k) :
    (∃ R, Elliptic_curve_encryption.multiply64 ⟨(p : Int), a, b⟩ P k = .ok R ∧
      Elliptic_curve_encryption.repeatedAdd64 ⟨(p : Int), a, b⟩ P k.toNat = .ok R ∧
      Elliptic_curve_encryption.onCurve ⟨(p : Int), a, b⟩ R) ∧
    Elliptic_curve_encryption.multiply64 ⟨17, 2, 2⟩ (.affine 5 1) 2 = .ok (.affine 6 3) := by
  haveI : Fact p.Prime := ⟨hp⟩
  have hodd : p ≠ 2 := by omega
  obtain ⟨Q, hQ⟩ := Elliptic_curve_encryption.represents_of_onCurve p hodd a b hns P hP
  obtain ⟨R, h1, h2, hr⟩ :=
    Elliptic_curve_encryption.multiply64_repeatedAdd64 p hodd a b hcurve P Q hQ k hk
  exact ⟨⟨R, h1, h2, Elliptic_curve_encryption.onCurve_of_represents p a b R _ hr⟩, by decide⟩

/-- C22 (witness): the scenario curve p = 17, a = 2, b = 2 with G = (5, 1) and k = 2. -/
theorem machine_ec_multiply_repeatedAdd_witness :
    Nat.Prime 17 ∧ 3 < 17 ∧ 3 * (((17 : Nat) : Int) - 1) ^ 2 + |(2 : Int)| < 2 ^ 63 ∧
      (4 * (2 : Int) ^ 3 + 27 * (2 : Int) ^ 2) % ((17 : Nat) : Int) ≠ 0 ∧
      Elliptic_curve_encryption.onCurve ⟨((17 : Nat) : Int), 2, 2⟩ (.affine 5 1) ∧
      (0 : Int) ≤ 2 ∧
      ((∃ R, Elliptic_curve_encryption.multiply64 ⟨((17 : Nat) : Int), 2, 2⟩ (.affine 5 1) 2
            = .ok R ∧
          Elliptic_curve_encryption.repeatedAdd64 ⟨((17 : Nat) : Int), 2, 2⟩ (.affine 5 1)
            (2 : Int).toNat = .ok R ∧
          Elliptic_curve_encryption.onCurve ⟨((17 : Nat) : Int), 2, 2⟩ R) ∧
        Elliptic_curve_encryption.multiply64 ⟨17, 2, 2⟩ (.affine 5 1) 2 = .ok (.affine 6 3)) :=
  ⟨by norm_num, by decide, by norm_num [abs_of_nonneg], by decide,
    ⟨by decide, by decide, by decide⟩, by decide,
    machine_ec_multiply_repeatedAdd 17 (by norm_num) (by decide) 2 2
      (by norm_num [abs_of_nonneg]) (by decide) (.affine 5 1)
      ⟨by decide, by decide, by decide⟩ 2 (by decide)⟩

/-- The negation of a point with coordinates in `[0, p-1]` is not wrapped. -/
theorem Elliptic_curve_encryption.negate64_eq_of_represents (p : Nat) (a b : Int)
    (hsize : (p : Int) ≤ 3037000500) (P : Elliptic_curve_encryption.Point)
    (Q : (Elliptic_curve_encryption.weierstrass p a b).Point)
    (h : Elliptic_curve_encryption.Represents p a b P Q) :
    Elliptic_curve_encryption.negate64 ⟨(p : Int), a, b⟩ P
      = Elliptic_curve_encryption.negate ⟨(p : Int), a, b⟩ P := by
  cases P with
  | infinity => rfl
  | affine x y =>
    obtain ⟨-, hy, -⟩ := h
    have e63 : (2 : Int) ^ 63 = 9223372036854775808 := by norm_num
    have hw : wrap64 (-y) = -y :=
      wrap64_of_bounds _ (by rw [e63]; omega) (by rw [e63]; omega)
    simp only [Elliptic_curve_encryption.negate64, Elliptic_curve_encryption.negate, hw]

set_option maxRecDepth 100000 in
/-- C23 (counterexample): modulo the prime p = 10000000019 with a = b = 2, G =
(1, 8068369918) and M = (2, 2429991099) on the curve, x = 3 and k = 2: the public key is
Y = (8398294079, 8654217114), the ciphertext is C1 = (3839262064, 1806214780),
C2 = (9426267850, 1775287114), and the decryption returns (539083178, 5474102445),
not M. -/
theorem overflow_ec_elgamal :
    Nat.Prime 10000000019 ∧ 3 < 10000000019 ∧
      (4 * (2 : Int) ^ 3 + 27 * (2 : Int) ^ 2) % 10000000019 ≠ 0 ∧
      Elliptic_curve_encryption.onCurve ⟨10000000019, 2, 2⟩ (.affine 1 8068369918) ∧
      Elliptic_curve_encryption.onCurve ⟨10000000019, 2, 2⟩ (.affine 2 2429991099) ∧
      Elliptic_curve_encryption.multiply64 ⟨10000000019, 2, 2⟩ (.affine 1 8068369918) 3
        = .ok (.affine 8398294079 8654217114) ∧
      Elliptic_curve_encryption.encrypt64 ⟨10000000019, 2, 2⟩ (.affine 1 8068369918)
        (.affine 8398294079 8654217114) (.affine 2 2429991099) 2
        = .ok (.affine 3839262064 1806214780, .affine 9426267850 1775287114) ∧
      Elliptic_curve_encryption.decrypt64 ⟨10000000019, 2, 2⟩ (.affine 3839262064 1806214780)
        (.affine 9426267850 1775287114) 3 = .ok (.affine 539083178 5474102445) :=
  ⟨prime_10000000019, by decide, by decide, ⟨by decide, by decide, by decide⟩,
    ⟨by decide, by decide, by decide⟩, by decide, by decide, by decide⟩

/-- C23 (amended): EC-ElGamal round trip on machine integers. For every prime p > 3 and
a with 3*(p-1)² + |a| < 2^63, non-singular curve (a, b), base point G and message point
M on the curve, private key x ≥ 0 and session key k ≥ 0, with Y = multiply(G, x),
C1 = multiply(G, k), C2 = add(M, multiply(Y, k)), the decryption
add(C2, negate(multiply(C1, x))) with negate(P) = (P.x, (-P.y) mod p) returns M. -/
theorem machine_ec_elgamal_round_trip (p : Nat) (hp : p.Prime) (h3 : 3 < p) (a b : Int)
    (hcurve : 3 * ((p : Int) - 1) ^ 2 + |a| < 2 ^ 63)
    (hns : (4 * a ^ 3 + 27 * b ^ 2) % (p : Int) ≠ 0) (G M : Elliptic_curve_encryption.Point)
    (hG : Elliptic_curve_encryption.onCurve ⟨(p : Int), a, b⟩ G)
    (hM : Elliptic_curve_encryption.onCurve ⟨(p : Int), a, b⟩ M)
    (x k : Int) (hx : 0 ≤ x) (hk : 0 ≤ k) :
    ∃ Y C1 kY C2 xC1 : Elliptic_curve_encryption.Point,
      Elliptic_curve_encryption.multiply64 ⟨(p : Int), a, b⟩ G x = .ok Y ∧
      Elliptic_curve_encryption.multiply64 ⟨(p : Int), a, b⟩ G k = .ok C1 ∧
      Elliptic_curve_encryption.multiply64 ⟨(p : Int), a, b⟩ Y k = .ok kY ∧
      Elliptic_curve_encryption.add64 ⟨(p : Int), a, b⟩ M kY = .ok C2 ∧
      Elliptic_curve_encryption.multiply64 ⟨(p : Int), a, b⟩ C1 x = .ok xC1 ∧
      Elliptic_curve_encryption.add64 ⟨(p : Int), a, b⟩ C2
        (Elliptic_curve_encryption.negate64 ⟨(p : Int), a, b⟩ xC1) = .ok M ∧
      Elliptic_curve_encryption.encrypt64 ⟨(p : Int), a, b⟩ G Y M k = .ok (C1, C2) ∧
      Elliptic_curve_encryption.decrypt64 ⟨(p : Int), a, b⟩ C1 C2 x = .ok M := by
  haveI : Fact p.Prime := ⟨hp⟩
  have hodd : p ≠ 2 := by omega
  obtain ⟨g, hg⟩ := Elliptic_curve_encryption.represents_of_onCurve p hodd a b hns G hG
  obtain ⟨m, hm⟩ := Elliptic_curve_encryption.represents_of_onCurve p hodd a b hns M hM
  obtain ⟨Y, hY, hrY⟩ :=
    Elliptic_curve_encryption.represents_multiply64 p hodd a b hcurve G g hg x hx
  obtain ⟨C1, hC1, hrC1⟩ :=
    Elliptic_curve_encryption.represents_multiply64 p hodd a b hcurve G g hg k hk
  obtain ⟨kY, hkY, hrkY⟩ :=
    Elliptic_curve_encryption.represents_multiply64 p hodd a b hcurve Y _ hrY k hk
  obtain ⟨C2, hC2, hrC2⟩ :=
    Elliptic_curve_encryption.represents_add64 p hodd a b hcurve M kY _ _ hm hrkY
  obtain ⟨xC1, hxC1, hrxC1⟩ :=
    Elliptic_curve_encryption.represents_multiply64 p hodd a b hcurve C1 _ hrC1 x hx
  have hneg := Elliptic_curve_encryption.negate64_eq_of_represents p a b
    (Elliptic_curve_encryption.modulus_le_of_curve_bound p a hcurve) xC1 _ hrxC1
  have hrneg := Elliptic_curve_encryption.represents_negate p a b xC1 _ hrxC1
  rw [← hneg] at hrneg
  obtain ⟨D, hD, hrD⟩ :=
    Elliptic_curve_encryption.represents_add64 p hodd a b hcurve C2 _ _ _ hrC2 hrneg
  have hsum : m + k.toNat • x.toNat • g + -(x.toNat • k.toNat • g) = m := by
    rw [smul_comm k.toNat x.toNat g]
    abel
  rw [hsum] at hrD
  have hDM := Elliptic_curve_encryption.represents_inj p a b D M m hrD hm
  subst hDM
  refine ⟨Y, C1, kY, C2, xC1, hY, hC1, hkY, hC2, hxC1, hD, ?_, ?_⟩
  · simp only [Elliptic_curve_encryption.encrypt64, hC1, hkY, hC2]
  · simp only [Elliptic_curve_encryption.decrypt64, hxC1, hD]

/-- C23 (witness): p = 17, a = 2, b = 2, G = (5, 1), M = (6, 3), x = 3, k = 2. -/
theorem machine_ec_elgamal_round_trip_witness :
    Nat.Prime 17 ∧ 3 < 17 ∧ 3 * (((17 : Nat) : Int) - 1) ^ 2 + |(2 : Int)| < 2 ^ 63 ∧
      (4 * (2 : Int) ^ 3 + 27 * (2 : Int) ^ 2) % ((17 : Nat) : Int) ≠ 0 ∧
      Elliptic_curve_encryption.onCurve ⟨((17 : Nat) : Int), 2, 2⟩ (.affine 5 1) ∧
      Elliptic_curve_encryption.onCurve ⟨((17 : Nat) : Int), 2, 2⟩ (.affine 6 3) ∧
      Elliptic_curve_encryption.decrypt64 ⟨17, 2, 2⟩ (.affine 6 3) (.affine 13 7) 3
        = .ok (.affine 6 3) ∧
      ∃ Y C1 kY C2 xC1 : Elliptic_curve_encryption.Point,
        Elliptic_curve_encryption.multiply64 ⟨((17 : Nat) : Int), 2, 2⟩ (.affine 5 1) 3
          = .ok Y ∧
        Elliptic_curve_encryption.multiply64 ⟨((17 : Nat) : Int), 2, 2⟩ (.affine 5 1) 2
          = .ok C1 ∧
        Elliptic_curve_encryption.multiply64 ⟨((17 : Nat) : Int), 2, 2⟩ Y 2 = .ok kY ∧
        Elliptic_curve_encryption.add64 ⟨((17 : Nat) : Int), 2, 2⟩ (.affine 6 3) kY = .ok C2 ∧
        Elliptic_curve_encryption.multiply64 ⟨((17 : Nat) : Int), 2, 2⟩ C1 3 = .ok xC1 ∧
        Elliptic_curve_encryption.add64 ⟨((17 : Nat) : Int), 2, 2⟩ C2
          (Elliptic_curve_encryption.negate64 ⟨((17 : Nat) : Int), 2, 2⟩ xC1)
          = .ok (.affine 6 3) ∧
        Elliptic_curve_encryption.encrypt64 ⟨((17 : Nat) : Int), 2, 2⟩ (.affine 5 1) Y
          (.affine 6 3) 2 = .ok (C1, C2) ∧
        Elliptic_curve_encryption.decrypt64 ⟨((17 : Nat) : Int), 2, 2⟩ C1 C2 3
          = .ok (.affine 6 3) :=
  ⟨by norm_num, by decide, by norm_num [abs_of_nonneg], by decide,
    ⟨by decide, by decide, by decide⟩, ⟨by decide, by decide, by decide⟩, by decide,
    machine_ec_elgamal_round_trip 17 (by norm_num) (by decide) 2 2
      (by norm_num [abs_of_nonneg]) (by decide) (.affine 5 1) (.affine 6 3)
      ⟨by decide, by decide, by decide⟩ ⟨by decide, by decide, by decide⟩ 3 2
      (by decide) (by decide)⟩

/-! ### `findBasePoint` on machine integers -/

/-- The inner loop of `findBasePoint` on machine integers agrees with exact arithmetic
for a modulus of at most 3037000500. -/
theorem Elliptic_curve_encryption.findY64_eq (c : Elliptic_curve_encryption.Curve)
    (hp : c.p ≤ 3037000500) (x rhs : Int) :
    ∀ (fuel : Nat) (y : Int), 0 ≤ y →
      Elliptic_curve_encryption.findY64 c x rhs fuel y
        = Elliptic_curve_encryption.findY c x rhs fuel y := by
  intro fuel
  induction fuel with
  | zero => intro y _; rfl
  | succ fuel ih =>
    intro y hy
    by_cases hlt : y < c.p
    · have hw : wrap64 (y * y) = y * y :=
        wrap64_mul_residues c.p y y hp ⟨hy, hlt⟩ ⟨hy, hlt⟩
      simp only [Elliptic_curve_encryption.findY64, Elliptic_curve_encryption.findY, if_pos hlt,
        hw, ih (y + 1) (by omega)]
    · simp only [Elliptic_curve_encryption.findY64, Elliptic_curve_encryption.findY,
        if_neg hlt]

/-- The right-hand side that `findBasePoint` computes for a column `x` in `[0, p)` is not
changed by the wrap-around when `p ≤ 3037000500` and `|a|*(p-1) + |b| + p ≤ 2^63`. -/
theorem Elliptic_curve_encryption.rhs64_eq (c : Elliptic_curve_encryption.Curve)
    (hp : 1 ≤ c.p ∧ c.p ≤ 3037000500)
    (hab : |c.a| * (c.p - 1) + |c.b| + c.p ≤ 2 ^ 63) (x : Int) (hx : 0 ≤ x ∧ x < c.p) :
    wrap64 (wrap64 ((wrap64 ((wrap64 (x * x)).tmod c.p * x)).tmod c.p + wrap64 (c.a * x))
        + c.b)
      = ((x * x).tmod c.p * x).tmod c.p + c.a * x + c.b := by
  have e63 : (2 : Int) ^ 63 = 9223372036854775808 := by norm_num
  rw [e63] at hab
  have hw1 : wrap64 (x * x) = x * x := wrap64_mul_residues c.p x x hp.2 hx hx
  have ht1 := tmod_nonneg_lt (x * x) c.p (mul_nonneg hx.1 hx.1) (by omega)
  have hw2 : wrap64 ((x * x).tmod c.p * x) = (x * x).tmod c.p * x :=
    wrap64_mul_residues c.p _ x hp.2 ht1 hx
  have ht2 := tmod_nonneg_lt ((x * x).tmod c.p * x) c.p (mul_nonneg ht1.1 hx.1) (by omega)
  have hax : |c.a * x| ≤ |c.a| * (c.p - 1) := by
    rw [abs_mul, abs_of_nonneg hx.1]
    exact mul_le_mul_of_nonneg_left (by omega) (abs_nonneg _)
  have hax2 := abs_le.mp hax
  have hb2 := abs_le.mp (le_refl |c.b|)
  have ha0 := abs_nonneg c.a
  have hb0 := abs_nonneg c.b
  have hprod0 : 0 ≤ |c.a| * (c.p - 1) := mul_nonneg ha0 (by omega)
  have hw3 : wrap64 (c.a * x) = c.a * x :=
    wrap64_of_bounds _ (by rw [e63]; omega) (by rw [e63]; omega)
  rw [hw1, hw2, hw3,
    wrap64_of_bounds (((x * x).tmod c.p * x).tmod c.p + c.a * x) (by rw [e63]; omega)
      (by rw [e63]; omega),
    wrap64_of_bounds (((x * x).tmod c.p * x).tmod c.p + c.a * x + c.b) (by rw [e63]; omega)
      (by rw [e63]; omega)]

/-- The outer loop of `findBasePoint` on machine integers agrees with exact arithmetic
when `p ≤ 3037000500` and `|a|*(p-1) + |b| + p ≤ 2^63`. -/
theorem Elliptic_curve_encryption.findX64_eq (c : Elliptic_curve_encryption.Curve)
    (hp : 1 ≤ c.p ∧ c.p ≤ 3037000500)
    (hab : |c.a| * (c.p - 1) + |c.b| + c.p ≤ 2 ^ 63) :
    ∀ (fuel : Nat) (x : Int), 0 ≤ x →
      Elliptic_curve_encryption.findX64 c fuel x = Elliptic_curve_encryption.findX c fuel x := by
  intro fuel
  induction fuel with
  | zero => intro x _; rfl
  | succ fuel ih =>
    intro x hx
    by_cases hlt : x < c.p
    · simp only [Elliptic_curve_encryption.findX64, Elliptic_curve_encryption.findX, if_pos hlt,
        Elliptic_curve_encryption.rhs64_eq c hp hab x ⟨hx, hlt⟩,
        Elliptic_curve_encryption.findY64_eq c hp.2 x _ c.p.toNat 0 le_rfl,
        ih (x + 1) (by omega)]
    · simp only [Elliptic_curve_encryption.findX64, Elliptic_curve_encryption.findX,
        if_neg hlt]

set_option maxRecDepth 100000 in
/-- C24 (counterexample): for p = 3, a = 2^63 - 1, b = 2 the sum `1 + a * x` wraps at
x = 1 and findBasePoint returns (1, 0), which does not satisfy the equation: 0² is 0 and
1³ + a·1 + 2 is 1 modulo 3. -/
theorem overflow_findBasePoint :
    (1 : Int) ≤ 3 ∧
      Elliptic_curve_encryption.findBasePoint64 ⟨3, 9223372036854775807, 2⟩ = .affine 1 0 ∧
      ((0 : Int) * 0) % 3 ≠ (1 * 1 * 1 + 9223372036854775807 * 1 + 2) % 3 := by
  decide

/-- C24 (amended): on machine integers, for every p with 1 ≤ p ≤ 3037000500 and all
integers a, b with |a|*(p-1) + |b| + p ≤ 2^63, findBasePoint() returns a non-identity
point exactly when some (x, y) with 0 ≤ x, y ≤ p-1 satisfies y² ≡ x³ + a·x + b (mod p);
the returned point then has coordinates in range, satisfies the equation and is the first
solution in scan order (smallest x, then smallest y); otherwise it returns the
identity. -/
theorem machine_findBasePoint_correct (p a b : Int) (hp : 1 ≤ p ∧ p ≤ 3037000500)
    (hab : |a| * (p - 1) + |b| + p ≤ 2 ^ 63) :
    (Elliptic_curve_encryption.findBasePoint64 ⟨p, a, b⟩ ≠ .infinity ↔
      ∃ x y, (0 ≤ x ∧ x < p) ∧ (0 ≤ y ∧ y < p) ∧
        (y * y) % p = (x * x * x + a * x + b) % p) ∧
    (∀ x y, Elliptic_curve_encryption.findBasePoint64 ⟨p, a, b⟩ = .affine x y →
      (0 ≤ x ∧ x < p) ∧ (0 ≤ y ∧ y < p) ∧ (y * y) % p = (x * x * x + a * x + b) % p ∧
      ∀ x2 y2, 0 ≤ x2 → x2 < p → 0 ≤ y2 → y2 < p →
        (y2 * y2) % p = (x2 * x2 * x2 + a * x2 + b) % p → x < x2 ∨ (x = x2 ∧ y ≤ y2)) ∧
    ((¬ ∃ x y, (0 ≤ x ∧ x < p) ∧ (0 ≤ y ∧ y < p) ∧
        (y * y) % p = (x * x * x + a * x + b) % p) →
      Elliptic_curve_encryption.findBasePoint64 ⟨p, a, b⟩ = .infinity) := by
  have h : Elliptic_curve_encryption.findBasePoint64 ⟨p, a, b⟩
      = Elliptic_curve_encryption.findBasePoint ⟨p, a, b⟩ := by
    simp only [Elliptic_curve_encryption.findBasePoint64,
      Elliptic_curve_encryption.findBasePoint]
    exact Elliptic_curve_encryption.findX64_eq ⟨p, a, b⟩ hp hab p.toNat 0 le_rfl
  rw [h]
  exact findBasePoint_correct p a b hp.1

/-- C24 (witness): on y² = x³ + 2x + 2 over F_17 the scan returns (0, 6). -/
theorem machine_findBasePoint_correct_witness :
    ((1 : Int) ≤ 17 ∧ (17 : Int) ≤ 3037000500) ∧
      |(2 : Int)| * (17 - 1) + |(2 : Int)| + 17 ≤ 2 ^ 63 ∧
      Elliptic_curve_encryption.findBasePoint64 ⟨17, 2, 2⟩ = .affine 0 6 ∧
      ((0 : Int) ≤ 0 ∧ (0 : Int) < 17) ∧ ((0 : Int) ≤ 6 ∧ (6 : Int) < 17) ∧
      ((6 : Int) * 6) % 17 = (0 * 0 * 0 + 2 * 0 + 2) % 17 ∧
      ∀ x2 y2 : Int, 0 ≤ x2 → x2 < 17 → 0 ≤ y2 → y2 < 17 →
        (y2 * y2) % 17 = (x2 * x2 * x2 + 2 * x2 + 2) % 17 → 0 < x2 ∨ (0 = x2 ∧ 6 ≤ y2) :=
  ⟨by decide, by norm_num [abs_of_nonneg], by decide,
    (machine_findBasePoint_correct 17 2 2 (by decide) (by norm_num [abs_of_nonneg])).2.1 0 6
      (by decide)⟩

end SecurityLab
